import Mathlib

/-!
The rtorrent command interpreter, `src/rpc/parse_commands.cc`.

A shallow embedding of `src/rpc/parse_commands.cc` and the properties of its
specification.

Conventions of the embedding.

* A character range `[first, last)` is the list of its characters; a cursor
  returned by a function is the list of the characters from that cursor up to
  `last`.  One `Char` stands for one byte.
* The process state that the interpreter can change is `St`: the state owned by
  the registered commands (`world`), the argument stack, and the log of every
  registry dispatch (`trace`), kept in call order.
* A C++ function that can throw returns an `Outcome` together with the state
  reached at the moment of the throw.
* The recursion of the interpreter is not bounded by the sources, so the
  recursive functions take a `fuel` bound on the nesting depth (and on the
  number of iterations of the loop of `parse_command_multiple`);
  `Outcome.out_of_fuel` is the answer when the bound is hit.
-/

namespace Rtorrent

/-! ## Values, errors, state -/

/-- Modelled from the spec: the exception classes of `torrent/exceptions.h` (declared
outside the sources), as far as the catch clauses of the sources tell them apart.
`bencode_error` derives from `input_error`, which is a class of its own next to
`internal_error`; `other` stands for every remaining exception class. -/
inductive ErrorKind where
  | internal_error
  | input_error
  | bencode_error
  | other
deriving DecidableEq, Repr

/-- An exception object: its class and its message. -/
structure Error where
  kind : ErrorKind
  msg : List Char
deriving DecidableEq, Repr

/-- A handler `catch (torrent::bencode_error&)` catches exactly this class. -/
def ErrorKind.is_bencode_error : ErrorKind → Bool
  | .bencode_error => true
  | _ => false

/-- A handler `catch (torrent::input_error&)` catches the class and its subclass. -/
def ErrorKind.is_input_error : ErrorKind → Bool
  | .input_error => true
  | .bencode_error => true
  | _ => false

/-- The value model `torrent::Object`.  A map is the list of its entries in iteration
order.  Only a `dict_key` carries flags that the sources read. -/
inductive Object where
  | none
  | value (v : Int)
  | string (str : List Char)
  | raw_string (str : List Char)
  | list (items : List Object)
  | map (entries : List (List Char × Object))
  | dict_key (flags : Nat) (key : List Char) (obj : Object)

/-- Result of a computation that may throw or exhaust its recursion bound. -/
inductive Outcome (α : Type) where
  | ok (a : α)
  | throw (e : Error)
  | out_of_fuel

/-- One registry dispatch: the name looked up, the argument and target handed to the
handler, and what the handler answered. -/
structure Dispatch (τ : Type) where
  name : List Char
  args : Object
  target : τ
  result : Except Error Object

/-- Mutable process state seen by the interpreter.  The top frame of the argument stack
is the head of `stack`; `trace` grows at its end. -/
structure St (σ τ : Type) where
  world : σ
  stack : List (List Object)
  trace : List (Dispatch τ)

/-- External collaborators of the interpreter.

* `commands` is the registry `rpc::commands.call_command`: given the name, the
  argument, the target, the current argument stack (read only) and the state owned
  by the handlers, it answers with a value or an exception and the new handler state.
* `parse_whole_list` is the list-parsing primitive of `rpc/parse.cc` called with
  `parse_is_delim_command`: it answers with the parsed argument and the cursor it
  stopped at, or throws.
* `make_target` is the generic target used by the script loader. -/
structure Env (σ τ : Type) where
  commands : List Char → Object → τ → List (List Object) → σ → Except Error Object × σ
  parse_whole_list : List Char → Except Error (Object × List Char)
  make_target : τ

/-- A computation over the process state. -/
abbrev Eval (σ τ α : Type) := St σ τ → Outcome α × St σ τ

section Core

variable {σ τ α β : Type}

/-- Normal return. -/
def ret (a : α) : Eval σ τ α := fun s => (.ok a, s)

/-- A `throw` statement. -/
def raise (e : Error) : Eval σ τ α := fun s => (.throw e, s)

/-- Sequencing: an exception or an exhausted bound of the first part ends the whole. -/
def and_then (m : Eval σ τ α) (f : α → Eval σ τ β) : Eval σ τ β := fun s =>
  match m s with
  | (.ok a, s1) => f a s1
  | (.throw e, s1) => (.throw e, s1)
  | (.out_of_fuel, s1) => (.out_of_fuel, s1)

/-- Lift a pure computation that may throw. -/
def lift_except (r : Except Error α) : Eval σ τ α :=
  match r with
  | .ok a => ret a
  | .error e => raise e

/-! ## Character classes and C strings -/

/-- Source: `command_map_is_space`. -/
def command_map_is_space (c : Char) : Bool :=
  c == ' ' || c == '\t'

/-- Source: `command_map_is_newline`. -/
def command_map_is_newline (c : Char) : Bool :=
  c == '\n' || c == Char.ofNat 0 || c == ';'

/-- The view `std::string::c_str()` gives to a reader of C strings: the characters
before the first NUL. -/
def c_str (str : List Char) : List Char :=
  str.takeWhile (fun c => c != Char.ofNat 0)

/-- Source: `parse_count_escaped`; walks back from `last` while it sees a backslash. -/
def parse_count_escaped (range : List Char) : Nat :=
  (range.reverse.takeWhile (fun c => c == '\\')).length

/-! ## Function flags of `torrent::Object` -/

/-- Modelled from the spec: `Object::flag_function` of `torrent/object.h` (declared
outside the sources), quoting depth zero. -/
def flag_function : Nat := 0x040000

/-- Modelled from the spec: `Object::flag_function_q1`, quoting depth one. -/
def flag_function_q1 : Nat := 0x080000

/-- Modelled from the spec: `Object::flag_function_q2`, quoting depth two. -/
def flag_function_q2 : Nat := 0x100000

/-- Modelled from the spec: `Object::mask_function`, the three function bits. -/
def mask_function : Nat := 0x1C0000

/-- Modelled from the spec: `Object::mask_public`, the bits `set_flags` may touch. -/
def mask_public : Nat := 0xFFFF0000

/-- Modelled from the spec: `Object::set_flags`, `m_flags |= f & mask_public`. -/
def set_flags (m f : Nat) : Nat :=
  m ||| (f &&& mask_public)

/-- Modelled from the spec: `Object::unset_flags`, `m_flags &= ~(f & mask_public)` on
32 bits. -/
def unset_flags (m f : Nat) : Nat :=
  m &&& (0xFFFFFFFF ^^^ (f &&& mask_public))

/-- The three statements that lower the quoting depth, shared verbatim by
`parse_command_execute` and `call_object`:
`flags = object->flags() & mask_function; unset_flags(mask_function);
set_flags((flags >> 1) & mask_function)`. -/
def unquote_flags (m : Nat) : Nat :=
  set_flags (unset_flags m mask_function) (((m &&& mask_function) >>> 1) &&& mask_function)

/-- Modelled from the spec: `Object::as_dict_key` and `Object::as_dict_obj` of
`torrent/object.h`; both throw `bencode_error("Wrong object type.")` on any other
kind of value. -/
def as_dict (o : Object) : Except Error (List Char × Object) :=
  match o with
  | .dict_key _ key obj => .ok (key, obj)
  | _ => .error ⟨.bencode_error, "Wrong object type.".toList⟩

/-! ## Registry dispatch -/

/-- The call `rpc::commands.call_command(key, args, target)`.  The registry receives
the name as a C string.  The dispatch is appended to the trace. -/
def call_command (env : Env σ τ) (key : List Char) (args : Object) (target : τ) :
    Eval σ τ Object := fun s =>
  let r := env.commands (c_str key) args target s.stack s.world
  let s1 : St σ τ :=
    ⟨r.2, s.stack, s.trace ++ [⟨c_str key, args, target, r.1⟩]⟩
  match r.1 with
  | .ok v => (.ok v, s1)
  | .error e => (.throw e, s1)

/-! ## The parser -/

/-- Source: `parse_command_name` with a destination buffer of `size` bytes.  Answers
with the name copied to the buffer and the cursor after it.  `std::isalpha` and
`std::isalnum` are taken in the C locale: the ASCII letters and digits. -/
def parse_command_name (first : List Char) (size : Nat) :
    Except Error (List Char × List Char) :=
  match first with
  | [] => .error ⟨.input_error, "Invalid start of command name.".toList⟩
  | c :: _ =>
    if !c.isAlpha then .error ⟨.input_error, "Invalid start of command name.".toList⟩
    else
      let limit := min first.length (size - 1)
      let name := (first.take limit).takeWhile
        (fun c => c.isAlphanum || c == '_' || c == '.')
      .ok (name, first.drop name.length)

/-- Source: `parse_command`, lines 91 to 102: skip blanks, stop at a blank or comment
line, read the name and the `=`.  Answers with the name (if the line has a command)
and the cursor: at the end or the `#`, or just after the `=`. -/
def parse_command_key (range : List Char) : Except Error (Option (List Char) × List Char) :=
  let first := range.dropWhile command_map_is_space
  match first with
  | [] => .ok (Option.none, first)
  | c :: _ =>
    if c == '#' then .ok (Option.none, first)
    else
      match parse_command_name first 128 with
      | .error e => .error e
      | .ok (key, first) =>
        let first := first.dropWhile command_map_is_space
        let missing : Error :=
          ⟨.input_error, "Could not find '=' in command '".toList ++ key ++ "'.".toList⟩
        match first with
        | [] => .error missing
        | c :: after => if c != '=' then .error missing else .ok (some key, after)

/-- Source: `parse_command`, lines 110 to 117: skip blanks after the argument list,
then accept the end of the range or one newline character, which is consumed. -/
def parse_command_end (first : List Char) : Except Error (List Char) :=
  let first := first.dropWhile command_map_is_space
  match first with
  | [] => .ok first
  | c :: after =>
    if !command_map_is_newline c then .error ⟨.input_error, "Junk at end of input.".toList⟩
    else .ok after

/-- What the grammar part of `parse_command` (lines 91 to 117) yields: `none` for a
blank or comment line, else the command name and the parsed argument; in both cases
with the cursor to return. -/
abbrev Parsed := Option (List Char × Object) × List Char

/-- Source: `parse_command`, lines 91 to 117: everything before the substitution
pass.  This part touches no state. -/
def parse_command_head (parse_whole_list : List Char → Except Error (Object × List Char))
    (range : List Char) : Except Error Parsed :=
  match parse_command_key range with
  | .error e => .error e
  | .ok (Option.none, first) => .ok (Option.none, first)
  | .ok (some key, after) =>
    match parse_whole_list after with
    | .error e => .error e
    | .ok (args, first) =>
      match parse_command_end first with
      | .error e => .error e
      | .ok first => .ok (some (key, args), first)

/-- Source: `parse_command`, with the substitution pass it calls given as `execute`
(the two functions are mutually recursive in the source). -/
def parse_command_with (env : Env σ τ) (execute : τ → Object → Eval σ τ Object)
    (target : τ) (range : List Char) : Eval σ τ (Object × List Char) :=
  match parse_command_head env.parse_whole_list range with
  | .error e => raise e
  | .ok (Option.none, first) => ret (Object.none, first)
  | .ok (some (key, args), first) =>
    and_then (execute target args) fun args =>
      and_then (call_command env key args target) fun result =>
        ret (result, first)

/-- The loop over a list in `parse_command_execute`: elements that are lists are
skipped, every other element is replaced by what `execute` makes of it. -/
def execute_list (execute : Object → Eval σ τ Object) :
    List Object → Eval σ τ (List Object)
  | [] => ret []
  | .list items :: rest =>
    and_then (execute_list execute rest) fun rest => ret (.list items :: rest)
  | itr :: rest =>
    and_then (execute itr) fun itr =>
      and_then (execute_list execute rest) fun rest => ret (itr :: rest)

/-- Source: `parse_command_execute`.  Answers with the value the object holds after
the call. -/
def parse_command_execute (env : Env σ τ) : Nat → τ → Object → Eval σ τ Object
  | 0, _, _ => fun s => (.out_of_fuel, s)
  | fuel + 1, target, .list items =>
    and_then (execute_list (parse_command_execute env fuel target) items) fun items =>
      ret (.list items)
  | fuel + 1, target, .dict_key flags key obj =>
    and_then (parse_command_execute env fuel target obj) fun obj =>
      if flags &&& flag_function != 0 then
        call_command env key obj target
      else
        ret (.dict_key (unquote_flags flags) key obj)
  | fuel + 1, target, .string (c :: str) =>
    if c == '$' then
      and_then (parse_command_with env (parse_command_execute env fuel) target str)
        fun result => ret result.1
    else ret (.string (c :: str))
  | _ + 1, _, object => ret object

/-- Source: `parse_command`. -/
def parse_command (env : Env σ τ) (fuel : Nat) (target : τ) (range : List Char) :
    Eval σ τ (Object × List Char) :=
  parse_command_with env (parse_command_execute env fuel) target range

/-- The `while (first != last)` loop of `parse_command_multiple`; `result` is the
value of `result.first` so far. -/
def parse_command_multiple_loop (env : Env σ τ) (fuel : Nat) (target : τ) :
    Nat → Object → List Char → Eval σ τ Object
  | _, result, [] => ret result
  | 0, _, _ :: _ => fun s => (.out_of_fuel, s)
  | steps + 1, _, c :: first =>
    and_then (parse_command env fuel target (c :: first)) fun result =>
      parse_command_multiple_loop env fuel target steps result.1 result.2

/-- Source: `parse_command_multiple`. -/
def parse_command_multiple (env : Env σ τ) (fuel : Nat) (target : τ) (range : List Char) :
    Eval σ τ Object :=
  parse_command_multiple_loop env fuel target fuel Object.none range

/-! ## Evaluation of values -/

/-- The loop over a list in `call_object`: `result` is overwritten by every element. -/
def call_object_list (call : Object → Eval σ τ Object) :
    Object → List Object → Eval σ τ Object
  | result, [] => ret result
  | _, itr :: rest =>
    and_then (call itr) fun result => call_object_list call result rest

/-- The loop over a map in `call_object`: every value is evaluated, results are
dropped. -/
def call_object_map (call : Object → Eval σ τ Object) :
    List (List Char × Object) → Eval σ τ Unit
  | [] => ret ()
  | itr :: rest =>
    and_then (call itr.2) fun _ => call_object_map call rest

/-- Source: `call_object`. -/
def call_object (env : Env σ τ) : Nat → Object → τ → Eval σ τ Object
  | 0, _, _ => fun s => (.out_of_fuel, s)
  | fuel + 1, .raw_string str, target => parse_command_multiple env fuel target str
  | fuel + 1, .string str, target => parse_command_multiple env fuel target str
  | fuel + 1, .list items, target =>
    call_object_list (fun itr => call_object env fuel itr target) Object.none items
  | fuel + 1, .map entries, target =>
    and_then (call_object_map (fun itr => call_object env fuel itr target) entries)
      fun _ => ret Object.none
  | fuel + 1, .dict_key flags key obj, target =>
    and_then (parse_command_execute env fuel target (.dict_key (unquote_flags flags) key obj))
      fun tmp_command =>
        and_then (lift_except (as_dict tmp_command)) fun kv =>
          call_command env kv.1 kv.2 target
  | _ + 1, _, _ => ret Object.none

/-! ## The argument stack -/

/-- Modelled from the spec: `rpc::command_base::push_stack` (declared outside the
sources), the spec's `push_frame(values) -> marker`: one frame is pushed and the
marker is the depth before the push. -/
def push_stack (frame : List Object) (s : St σ τ) : Nat × St σ τ :=
  (s.stack.length, { s with stack := frame :: s.stack })

/-- Modelled from the spec: `rpc::command_base::pop_stack`, the spec's
`pop_frame(marker)`: pops back to the depth the marker records. -/
def pop_stack (last_stack : Nat) (s : St σ τ) : St σ τ :=
  { s with stack := s.stack.drop (s.stack.length - last_stack) }

/-- Source: `command_function_call_object`.  The frame is popped on normal return and
in the handler `catch (torrent::bencode_error&)`; any other exception leaves the
function without passing through `pop_stack`. -/
def command_function_call_object (env : Env σ τ) (fuel : Nat) (cmd : Object) (target : τ)
    (args : Object) : Eval σ τ Object := fun s =>
  let pushed :=
    match args with
    | .list items => push_stack items s
    | .none => push_stack [] s
    | single => push_stack [single] s
  match call_object env fuel cmd target pushed.2 with
  | (.ok result, s1) => (.ok result, pop_stack pushed.1 s1)
  | (.throw e, s1) =>
    if e.kind.is_bencode_error then (.throw e, pop_stack pushed.1 s1)
    else (.throw e, s1)
  | (.out_of_fuel, s1) => (.out_of_fuel, s1)

/-! ## The script loader -/

/-- The `std::fstream` between two reads: the characters not yet extracted and
`eofbit`.  (`failbit` ends the loop at once, so it needs no place here.) -/
structure FileStream where
  rest : List Char
  eofbit : Bool

/-- What one call `file.getline(s, n)` did: the characters stored at `s` (without the
terminating NUL), `gcount()`, the two state bits it may set, the characters left. -/
structure GetLine where
  stored : List Char
  gcount : Nat
  eofbit : Bool
  failbit : Bool
  rest : List Char

/-- Modelled from the spec: the read of one physical line into the bounded buffer, that
is the extraction loop of `std::istream::getline` (C++ library, outside the sources)
with room for `room` characters, as the C++ standard words it: characters are extracted
and stored until end-of-file occurs (`eofbit`), or the next character is the newline
(extracted, counted, not stored), or the room is used up (`failbit`); the conditions
are tested in this order. -/
def getline_scan : Nat → List Char → GetLine
  | _, [] => ⟨[], 0, true, false, []⟩
  | room, c :: cs =>
    if c == '\n' then ⟨[], 1, false, false, cs⟩
    else
      match room with
      | 0 => ⟨[], 0, false, true, c :: cs⟩
      | room + 1 =>
        let r := getline_scan room cs
        ⟨c :: r.stored, r.gcount + 1, r.eofbit, r.failbit, r.rest⟩

/-- Modelled from the spec: the call `file.getline(s, n)` of the C++ library: at most
`n - 1` characters are stored, and `failbit` is also set when no character was
extracted. -/
def getline (n : Nat) (input : List Char) : GetLine :=
  let r := getline_scan (n - 1) input
  { r with failbit := r.failbit || r.gcount == 0 }

/-- Source: `parse_command_file`, the `while` loop of the `try` block (lines 154 to
183).  `buffer` holds the `getCount` characters gathered so far for the logical line.
Next to the outcome the loop answers with the value of `lineNumber` and the stream at
the moment it is left.  `steps` bounds the number of iterations. -/
def parse_command_file_loop (env : Env σ τ) (fuel : Nat) :
    Nat → FileStream → List Char → Nat → St σ τ →
      (Outcome Unit × Nat × FileStream) × St σ τ
  | 0, file, _, lineNumber, s => ((.out_of_fuel, lineNumber, file), s)
  | steps + 1, file, buffer, lineNumber, s =>
    if file.eofbit then ((.ok (), lineNumber, file), s)
    else
      let got := getline (4096 - buffer.length) file.rest
      let file : FileStream := ⟨got.rest, got.eofbit⟩
      if got.failbit then ((.ok (), lineNumber, file), s)
      else if got.gcount == 0 then
        ((.throw ⟨.internal_error, "parse_command_file(...) file.gcount() == 0.".toList⟩,
          lineNumber, file), s)
      else
        let lineLength := got.gcount - 1 + (if got.eofbit then 1 else 0)
        let line := got.stored.take lineLength
        let escaped := parse_count_escaped line
        let lineNumber := (lineNumber + 1) % 4294967296
        let getCount := buffer.length + lineLength
        if getCount == 4096 - 1 then
          ((.throw ⟨.input_error, "Exceeded max line length.".toList⟩, lineNumber, file), s)
        else if escaped &&& 1 != 0 then
          parse_command_file_loop env fuel steps file
            ((buffer ++ line).take (getCount - escaped)) lineNumber s
        else
          match parse_command env fuel env.make_target (buffer ++ line) s with
          | (.ok _, s1) => parse_command_file_loop env fuel steps file [] lineNumber s1
          | (.throw e, s1) => ((.throw e, lineNumber, file), s1)
          | (.out_of_fuel, s1) => ((.out_of_fuel, lineNumber, file), s1)

/-- The text that `snprintf(buffer, 2048, "Error in option file: %s:%u: %s", ...)`
leaves in the buffer: at most 2047 characters. -/
def option_file_error (path : List Char) (lineNumber : Nat) (e : Error) : List Char :=
  ("Error in option file: ".toList ++ c_str path ++ ":".toList ++ Nat.toDigits 10 lineNumber
    ++ ": ".toList ++ c_str e.msg).take 2047

/-- Source: `parse_command_file`.  `content` is what the file at the expanded path
holds, `none` when it cannot be opened.  Every iteration of the loop but the last
extracts at least one character, so one more iteration than the file has characters is
enough. -/
def parse_command_file (env : Env σ τ) (fuel : Nat) (path : List Char)
    (content : Option (List Char)) : Eval σ τ Bool := fun s =>
  match content with
  | Option.none => (.ok false, s)
  | some text =>
    match parse_command_file_loop env fuel (text.length + 1) ⟨text, false⟩ [] 0 s with
    | ((.ok _, _), s1) => (.ok true, s1)
    | ((.throw e, lineNumber, _), s1) =>
      if e.kind.is_input_error then
        (.throw ⟨.input_error, option_file_error path lineNumber e⟩, s1)
      else (.throw e, s1)
    | ((.out_of_fuel, _), s1) => (.out_of_fuel, s1)

/-! ## Registration with the XML-RPC bridge (`src/command_network.cc`) -/

/-- One entry of the registry `rpc::CommandMap`, as far as `initialize_xmlrpc` reads it:
the flags, the parameter signature and the doc text. -/
structure CommandEntry where
  m_flags : Nat
  m_parm : List Char
  m_doc : List Char
deriving DecidableEq, Repr

/-- The calls that `initialize_xmlrpc` makes on its collaborators (the bridge
`rpc::xmlrpc` and the log), in the order it makes them. -/
inductive XmlRpcCall where
  | start
  | slot_find_download
  | slot_find_file
  | slot_find_tracker
  | slot_find_peer
  | insert_command (name parm doc : List Char)
  | log_print (count : Nat)
deriving DecidableEq, Repr

/-- Source: `initialize_xmlrpc`, the `for` loop over the registry (lines 102 to 107).
`flag_public_xmlrpc` is the constant `rpc::CommandMap::flag_public_xmlrpc`, declared
outside the sources.  Answers with the calls made and the final value of `count`. -/
def initialize_xmlrpc_loop (flag_public_xmlrpc : Nat) :
    List (List Char × CommandEntry) → Nat → List XmlRpcCall × Nat
  | [], count => ([], count)
  | itr :: rest, count =>
    let next := initialize_xmlrpc_loop flag_public_xmlrpc rest ((count + 1) % 4294967296)
    if itr.2.m_flags &&& flag_public_xmlrpc == 0 then next
    else (XmlRpcCall.insert_command itr.1 itr.2.m_parm itr.2.m_doc :: next.1, next.2)

/-- Source: `initialize_xmlrpc`.  `commands` is the registry `rpc::commands` in
iteration order; it is only read.  `XmlRpcCall.start` stands for the call
`rpc::xmlrpc.initialize()`. -/
def initialize_xmlrpc (flag_public_xmlrpc : Nat) (commands : List (List Char × CommandEntry)) :
    List XmlRpcCall :=
  let looped := initialize_xmlrpc_loop flag_public_xmlrpc commands 0
  [XmlRpcCall.start, XmlRpcCall.slot_find_download, XmlRpcCall.slot_find_file,
    XmlRpcCall.slot_find_tracker, XmlRpcCall.slot_find_peer]
    ++ looped.1 ++ [XmlRpcCall.log_print looped.2]

/-! ## Spec-side definitions -/

/-- The kinds of value on which `parse_command_execute` does nothing by itself: neither
a list, nor a function key, nor a string that starts with `$`. -/
def no_substitution_at : Object → Bool
  | .list _ => false
  | .dict_key _ _ _ => false
  | .string (c :: _) => c != '$'
  | _ => true

/-- A value that contains nothing substitutable: the substitution pass has nothing
to resolve in it.  Inside a list only the elements that are not lists count, the
pass does not enter nested lists. -/
def substitution_free : Object → Bool
  | .list items =>
    items.all fun itr =>
      match itr with
      | .list _ => true
      | itr => no_substitution_at itr
  | object => no_substitution_at object

/-- Reads at most `n` commands from the front of the text with the grammar part of
`parse_command`; answers with the commands (name and parsed argument) in textual order
and the text left unread. -/
def read_commands (parse_whole_list : List Char → Except Error (Object × List Char)) :
    Nat → List Char → List (List Char × Object) × List Char
  | 0, range => ([], range)
  | n + 1, range =>
    match parse_command_head parse_whole_list range with
    | .ok (some cmd, rest) =>
      ((cmd :: (read_commands parse_whole_list n rest).1),
        (read_commands parse_whole_list n rest).2)
    | _ => ([], range)

/-- The spec's reading of a script: resolve and dispatch the commands one after the
other in the order given, and answer with the result of the last one (`result` when
there is none). -/
def dispatch_in_order (env : Env σ τ) (fuel : Nat) (target : τ) :
    Object → List (List Char × Object) → Eval σ τ Object
  | result, [] => ret result
  | _, cmd :: cmds =>
    and_then (parse_command_execute env fuel target cmd.2) fun args =>
      and_then (call_command env cmd.1 args target) fun result =>
        dispatch_in_order env fuel target result cmds

/-- The physical lines of a text: the runs of characters between newlines; `acc` is the
line being gathered.  A last line without newline counts when it is not empty. -/
def physical_lines_from : List Char → List Char → List (List Char)
  | acc, [] => if acc.isEmpty then [] else [acc]
  | acc, c :: cs =>
    if c == '\n' then acc :: physical_lines_from [] cs
    else physical_lines_from (acc ++ [c]) cs

/-- The physical lines of a text. -/
def physical_lines (text : List Char) : List (List Char) :=
  physical_lines_from [] text

/-- The spec's logical lines: a physical line with an odd number of trailing
backslashes is joined, without them, with the next physical line; `pending` is the
part joined so far. -/
def logical_lines_from : List Char → List (List Char) → List (List Char)
  | _, [] => []
  | pending, line :: lines =>
    if parse_count_escaped line % 2 = 1 then
      logical_lines_from (pending ++ line.take (line.length - parse_count_escaped line)) lines
    else (pending ++ line) :: logical_lines_from [] lines

/-- The logical lines of a text. -/
def logical_lines (text : List Char) : List (List Char) :=
  logical_lines_from [] (physical_lines text)

/-- What `parse_command_file` answers for a file whose only logical line was handed to
`parse_command` while `lineNumber` had the value given: `run` is what `parse_command`
answered. -/
def single_line_outcome (path : List Char) (lineNumber : Nat)
    (run : Outcome (Object × List Char) × St σ τ) : Outcome Bool × St σ τ :=
  match run with
  | (.ok _, s1) => (.ok true, s1)
  | (.throw e, s1) =>
    if e.kind.is_input_error then
      (.throw ⟨.input_error, option_file_error path lineNumber e⟩, s1)
    else (.throw e, s1)
  | (.out_of_fuel, s1) => (.out_of_fuel, s1)

/-- A computation that leaves the argument stack as it found it, however it ends. -/
def keeps_stack (m : Eval σ τ α) : Prop :=
  ∀ s, (m s).2.stack = s.stack

/-- The frame that describes an argument value: the elements of a list, nothing for
`None`, the value itself otherwise. -/
def argument_frame : Object → List Object
  | .list items => items
  | .none => []
  | single => [single]

/-- The characters that continue a command name in `parse_command_name`: alphanumeric,
`_` or `.`. -/
def command_name_char (c : Char) : Bool :=
  c.isAlphanum || c == '_' || c == '.'

/-- The spec's reading of the evaluation of a container: evaluate the values one after
the other in the order given, each once, and gather the results in that order. -/
def evaluate_each (call : Object → Eval σ τ Object) : List Object → Eval σ τ (List Object)
  | [] => ret []
  | itr :: rest =>
    and_then (call itr) fun r =>
      and_then (evaluate_each call rest) fun rs => ret (r :: rs)

/-- What one pass of `parse_command_execute` may make of an element of a list: an
element that is a list stays as it is, any other element becomes what
`parse_command_execute` returns for it in some state. -/
def element_pass (env : Env σ τ) (fuel : Nat) (target : τ) (x y : Object) : Prop :=
  (∃ inner, x = .list inner ∧ y = x) ∨
  ((∀ inner, x ≠ .list inner) ∧
    ∃ sa sb, parse_command_execute env fuel target x sa = (.ok y, sb))

/-- The registry entries that the bridge may surface: those whose flags pass the test
`m_flags & flag_public_xmlrpc`. -/
def public_entries (flag_public_xmlrpc : Nat) (commands : List (List Char × CommandEntry)) :
    List (List Char × CommandEntry) :=
  commands.filter fun itr => itr.2.m_flags &&& flag_public_xmlrpc != 0

/-- The insertions among the calls made on the bridge, as name, signature and doc. -/
def inserted_commands : List XmlRpcCall → List (List Char × List Char × List Char)
  | [] => []
  | XmlRpcCall.insert_command name parm doc :: rest =>
    (name, parm, doc) :: inserted_commands rest
  | _ :: rest => inserted_commands rest

/-- The run of name characters that follows the leading spaces and tabs of a text. -/
def name_run (range : List Char) : List Char :=
  (range.dropWhile command_map_is_space).takeWhile command_name_char

/-- The first `k` calls of `parse_command` that the loop of `parse_command_multiple`
makes from the cursor `range` in state `s` (fewer when the loop ends before) all return
normally, and none of them starts at a `#`. -/
def calls_return (env : Env σ τ) (fuel : Nat) (target : τ) : Nat → List Char → St σ τ → Prop
  | 0, _, _ => True
  | _ + 1, [], _ => True
  | k + 1, c :: first, s =>
    c ≠ '#' ∧ ∃ r rest s1, parse_command env fuel target (c :: first) s = (.ok (r, rest), s1) ∧
      calls_return env fuel target k rest s1

/-- The claim that a run returned the result of the last command it dispatched. -/
def returns_last_dispatched (before : St σ τ) (run : Outcome Object × St σ τ) : Prop :=
  ∀ v, run.1 = .ok v → before.trace.length < run.2.trace.length →
    run.2.trace.getLast?.map Dispatch.result = some (.ok v)

end Core

/-! ## A sample environment for concrete runs -/

/-- Modelled from the spec: a stand-in for the list-parsing primitive `parse_whole_list`
of `rpc/parse.cc` (not among the sources), reading one argument: blanks are skipped, a
quoted argument runs to the closing quote and a missing closing quote is a syntax
error, an unquoted argument runs to the next blank, comma or line terminator. -/
def spec_parse_whole_list (range : List Char) : Except Error (Object × List Char) :=
  let first := range.dropWhile command_map_is_space
  match first with
  | [] => .ok (.string [], [])
  | c :: after =>
    if c == '"' || c == Char.ofNat 39 then
      let body := after.takeWhile (fun d => d != c)
      match after.drop body.length with
      | [] => .error ⟨.input_error, "Missing closing quote.".toList⟩
      | _ :: rest => .ok (.string body, rest)
    else
      let word := first.takeWhile
        (fun d => !(command_map_is_space d || d == ',' || command_map_is_newline d))
      .ok (.string word, first.drop word.length)

/-- A sample registry: `inner` answers 42, `fail` throws, every other name echoes its
argument.  The handler state counts the handlers that returned. -/
def sample_commands (name : List Char) (args : Object) (_ : Unit) (_ : List (List Object))
    (w : Nat) : Except Error Object × Nat :=
  if name = "inner".toList then (.ok (.value 42), w + 1)
  else if name = "fail".toList then (.error ⟨.input_error, "Command failed.".toList⟩, w)
  else (.ok args, w + 1)

/-- The sample environment. -/
def sample_env : Env Nat Unit := ⟨sample_commands, spec_parse_whole_list, ()⟩

/-- The state at startup: nothing dispatched, empty argument stack. -/
def sample_state : St Nat Unit := ⟨0, [], []⟩

/-! ## Basic facts about sequencing and the grammar part -/

section Facts

variable {σ τ α β γ : Type}

theorem and_then_ok {m : Eval σ τ α} {f : α → Eval σ τ β} {s s1 : St σ τ} {a : α}
    (h : m s = (.ok a, s1)) : and_then m f s = f a s1 := by
  simp [and_then, h]

theorem and_then_throw {m : Eval σ τ α} {f : α → Eval σ τ β} {s s1 : St σ τ} {e : Error}
    (h : m s = (.throw e, s1)) : and_then m f s = (.throw e, s1) := by
  simp [and_then, h]

theorem and_then_out_of_fuel {m : Eval σ τ α} {f : α → Eval σ τ β} {s s1 : St σ τ}
    (h : m s = (.out_of_fuel, s1)) : and_then m f s = (.out_of_fuel, s1) := by
  simp [and_then, h]

theorem and_then_ret (a : α) (f : α → Eval σ τ β) : and_then (ret a) f = f a := by
  funext s
  simp [and_then, ret]

theorem and_then_assoc (m : Eval σ τ α) (f : α → Eval σ τ β) (g : β → Eval σ τ γ) :
    and_then (and_then m f) g = and_then m (fun a => and_then (f a) g) := by
  funext s
  rcases h : m s with ⟨r, s1⟩
  cases r <;> simp [and_then, h]

theorem and_then_congr (m : Eval σ τ α) {f g : α → Eval σ τ β} (h : ∀ a, f a = g a) :
    and_then m f = and_then m g := by
  have : f = g := funext h
  rw [this]

theorem parse_command_name_error {first : List Char} {size : Nat} {e : Error}
    (h : parse_command_name first size = .error e) :
    e = ⟨.input_error, "Invalid start of command name.".toList⟩ := by
  unfold parse_command_name at h
  split at h
  · cases h; rfl
  · split at h
    · cases h; rfl
    · cases h

theorem name_char_ne_nul (c : Char)
    (h : (c.isAlphanum || c == '_' || c == '.') = true) : (c != Char.ofNat 0) = true := by
  by_cases hc : c = Char.ofNat 0
  · subst hc
    exact absurd h (by decide)
  · simpa [bne_iff_ne] using hc

theorem parse_command_name_c_str {first : List Char} {size : Nat} {key rest : List Char}
    (h : parse_command_name first size = .ok (key, rest)) : c_str key = key := by
  unfold parse_command_name at h
  split at h
  · cases h
  · split at h
    · cases h
    · simp only [Except.ok.injEq, Prod.mk.injEq] at h
      obtain ⟨hk, -⟩ := h
      subst hk
      unfold c_str
      rw [List.takeWhile_eq_self_iff]
      intro c hc
      have hp := List.mem_takeWhile_imp hc
      exact name_char_ne_nul c hp

theorem parse_command_key_c_str {range : List Char} {key after : List Char}
    (h : parse_command_key range = .ok (some key, after)) : c_str key = key := by
  unfold parse_command_key at h
  simp only at h
  split at h
  · cases h
  · split at h
    · cases h
    · split at h
      · cases h
      · rename_i k f hn
        split at h
        · cases h
        · split at h
          · cases h
          · simp only [Except.ok.injEq, Prod.mk.injEq, Option.some.injEq] at h
            obtain ⟨hk, -⟩ := h
            subst hk
            exact parse_command_name_c_str hn

theorem parse_command_key_error_kind {range : List Char} {e : Error}
    (h : parse_command_key range = .error e) :
    e = ⟨.input_error, "Invalid start of command name.".toList⟩ ∨
    ∃ key, e = ⟨.input_error, "Could not find '=' in command '".toList ++ key ++ "'.".toList⟩ := by
  unfold parse_command_key at h
  simp only at h
  split at h
  · cases h
  · split at h
    · cases h
    · split at h
      · rename_i e1 hn
        cases h
        exact Or.inl (parse_command_name_error hn)
      · split at h
        · cases h; exact Or.inr ⟨_, rfl⟩
        · split at h
          · cases h; exact Or.inr ⟨_, rfl⟩
          · cases h

theorem parse_command_end_error {first : List Char} {e : Error}
    (h : parse_command_end first = .error e) :
    e = ⟨.input_error, "Junk at end of input.".toList⟩ := by
  unfold parse_command_end at h
  simp only at h
  split at h
  · cases h
  · split at h
    · cases h; rfl
    · cases h

theorem parse_command_head_error_kind
    (pwl : List Char → Except Error (Object × List Char)) (range : List Char) (e : Error)
    (h : parse_command_head pwl range = .error e) :
    e = ⟨.input_error, "Invalid start of command name.".toList⟩ ∨
    (∃ key, e = ⟨.input_error, "Could not find '=' in command '".toList ++ key ++ "'.".toList⟩) ∨
    e = ⟨.input_error, "Junk at end of input.".toList⟩ ∨
    (∃ text, pwl text = .error e) := by
  unfold parse_command_head at h
  split at h
  · rename_i e1 hk
    cases h
    rcases parse_command_key_error_kind hk with h1 | h1
    · exact Or.inl h1
    · exact Or.inr (Or.inl h1)
  · cases h
  · split at h
    · rename_i e1 hp
      cases h
      exact Or.inr (Or.inr (Or.inr ⟨_, hp⟩))
    · split at h
      · rename_i e1 he
        cases h
        exact Or.inr (Or.inr (Or.inl (parse_command_end_error he)))
      · cases h

theorem parse_command_head_c_str
    {pwl : List Char → Except Error (Object × List Char)} {range : List Char}
    {key : List Char} {args : Object} {rest : List Char}
    (h : parse_command_head pwl range = .ok (some (key, args), rest)) : c_str key = key := by
  unfold parse_command_head at h
  split at h
  · cases h
  · cases h
  · rename_i k after hk
    split at h
    · cases h
    · split at h
      · cases h
      · simp only [Except.ok.injEq, Prod.mk.injEq, Option.some.injEq] at h
        obtain ⟨⟨hk1, -⟩, -⟩ := h
        subst hk1
        exact parse_command_key_c_str hk

theorem parse_command_head_nil (pwl : List Char → Except Error (Object × List Char)) :
    parse_command_head pwl [] = .ok (Option.none, []) := rfl

theorem parse_command_of_head_error (env : Env σ τ) (fuel : Nat) (target : τ)
    (range : List Char) (s : St σ τ) (e : Error)
    (h : parse_command_head env.parse_whole_list range = .error e) :
    parse_command env fuel target range s = (.throw e, s) := by
  simp [parse_command, parse_command_with, h, raise]

theorem parse_command_of_head_none (env : Env σ τ) (fuel : Nat) (target : τ)
    (range first : List Char) (s : St σ τ)
    (h : parse_command_head env.parse_whole_list range = .ok (Option.none, first)) :
    parse_command env fuel target range s = (.ok (Object.none, first), s) := by
  simp [parse_command, parse_command_with, h, ret]

theorem parse_command_of_head_some (env : Env σ τ) (fuel : Nat) (target : τ)
    (range rest : List Char) (key : List Char) (args : Object)
    (h : parse_command_head env.parse_whole_list range = .ok (some (key, args), rest)) :
    parse_command env fuel target range =
      and_then (parse_command_execute env fuel target args) fun args =>
        and_then (call_command env key args target) fun result => ret (result, rest) := by
  simp [parse_command, parse_command_with, h]

theorem call_command_eq (env : Env σ τ) (key : List Char) (args : Object) (target : τ)
    (s : St σ τ) :
    call_command env key args target s =
      (match (env.commands (c_str key) args target s.stack s.world).1 with
        | .ok v => .ok v
        | .error e => .throw e,
       ⟨(env.commands (c_str key) args target s.stack s.world).2, s.stack,
        s.trace ++ [⟨c_str key, args, target,
          (env.commands (c_str key) args target s.stack s.world).1⟩]⟩) := by
  unfold call_command
  simp only
  split <;> simp_all

end Facts

/-! ## The substitution pass on values without substitutions -/

section Substitution

variable {σ τ : Type}

theorem execute_no_substitution (env : Env σ τ) (fuel : Nat) (target : τ) (object : Object)
    (s : St σ τ) (h : no_substitution_at object = true) :
    parse_command_execute env (fuel + 1) target object s = (.ok object, s) := by
  cases object with
  | none => rfl
  | value v => rfl
  | raw_string str => rfl
  | map entries => rfl
  | list items => simp [no_substitution_at] at h
  | dict_key flags key obj => simp [no_substitution_at] at h
  | string str =>
    cases str with
    | nil => rfl
    | cons c str =>
      have hc : (c == '$') = false := by
        simpa [no_substitution_at, bne_iff_ne] using h
      simp [parse_command_execute, hc, ret]

theorem execute_list_free (env : Env σ τ) (fuel : Nat) (target : τ) (items : List Object)
    (s : St σ τ)
    (h : (items.all fun itr =>
      match itr with
      | .list _ => true
      | itr => no_substitution_at itr) = true) :
    execute_list (parse_command_execute env (fuel + 1) target) items s = (.ok items, s) := by
  induction items with
  | nil => rfl
  | cons itr rest ih =>
    simp only [List.all_cons, Bool.and_eq_true] at h
    obtain ⟨h1, h2⟩ := h
    have ih2 := ih h2
    cases itr with
    | list inner => simp [execute_list, and_then, ih2, ret]
    | none => simp [execute_list, and_then, ih2, ret, parse_command_execute]
    | value v => simp [execute_list, and_then, ih2, ret, parse_command_execute]
    | raw_string str => simp [execute_list, and_then, ih2, ret, parse_command_execute]
    | map entries => simp [execute_list, and_then, ih2, ret, parse_command_execute]
    | dict_key flags key obj => simp [no_substitution_at] at h1
    | string str =>
      have hs := execute_no_substitution env fuel target (.string str) s h1
      simp [execute_list, and_then, ih2, ret, hs]

theorem execute_substitution_free (env : Env σ τ) (fuel : Nat) (target : τ) (object : Object)
    (s : St σ τ) (h : substitution_free object = true) :
    parse_command_execute env (fuel + 2) target object s = (.ok object, s) := by
  cases object with
  | list items =>
    have hl := execute_list_free env fuel target items s (by simpa [substitution_free] using h)
    simp [parse_command_execute, and_then, hl, ret]
  | none => rfl
  | value v => rfl
  | raw_string str => rfl
  | map entries => rfl
  | dict_key flags key obj => simp [substitution_free, no_substitution_at] at h
  | string str =>
    exact execute_no_substitution env (fuel + 1) target (.string str) s
      (by simpa [substitution_free] using h)

end Substitution

/-! ## Claims about `command_function_call_object` and `parse_command` -/

section Claims

variable {σ τ : Type}

/-- C1 (the code at the failing input).  When the command body is the text `a`, which
`parse_command` rejects with the syntax error `Could not find '=' in command 'a'.`
(an `input_error`, not a `bencode_error`), `command_function_call_object` called with
the single argument 1 leaves through neither `pop_stack`: the exception reaches the
caller and the frame holding 1 is still on the argument stack, which therefore differs
from the stack before the call. -/
theorem command_function_call_object_leaves_frame_on_input_error
    (env : Env σ τ) (fuel : Nat) (target : τ) (s : St σ τ) :
    command_function_call_object env (fuel + 2) (.string "a".toList) target (.value 1) s =
      (.throw ⟨.input_error, "Could not find '=' in command 'a'.".toList⟩,
        { s with stack := [.value 1] :: s.stack }) ∧
    (command_function_call_object env (fuel + 2) (.string "a".toList) target
      (.value 1) s).2.stack ≠ s.stack := by
  refine ⟨rfl, ?_⟩
  show [Object.value 1] :: s.stack ≠ s.stack
  exact List.cons_ne_self _ _

/-- C2.  When the grammar part of `parse_command` fails (it fails only with `Invalid
start of command name.`, with `Could not find '=' in command '<name>'.`, with `Junk at
end of input.` or with an error thrown by the list-parsing primitive), `parse_command`
throws that error for every recursion bound and the whole state is the state before the
call: nothing was dispatched, neither the named command nor a substitution. -/
theorem parse_command_grammar_error_dispatches_nothing
    (env : Env σ τ) (fuel : Nat) (target : τ) (range : List Char) (s : St σ τ) (e : Error)
    (h : parse_command_head env.parse_whole_list range = .error e) :
    parse_command env fuel target range s = (.throw e, s) ∧
    (e = ⟨.input_error, "Invalid start of command name.".toList⟩ ∨
     (∃ key, e = ⟨.input_error,
        "Could not find '=' in command '".toList ++ key ++ "'.".toList⟩) ∨
     e = ⟨.input_error, "Junk at end of input.".toList⟩ ∨
     (∃ text, env.parse_whole_list text = .error e)) :=
  ⟨parse_command_of_head_error env fuel target range s e h,
   parse_command_head_error_kind env.parse_whole_list range e h⟩

/-- C2, the two inputs of the claim run with the sample list parser: both fail with a
syntax error and leave the startup state, `a` is not dispatched. -/
theorem parse_command_grammar_error_dispatches_nothing_witness :
    parse_command sample_env 0 () "a = 1 junk\n".toList sample_state =
      (.throw ⟨.input_error, "Junk at end of input.".toList⟩, sample_state) ∧
    parse_command sample_env 0 () "a = 'unterminated\n".toList sample_state =
      (.throw ⟨.input_error, "Missing closing quote.".toList⟩, sample_state) :=
  ⟨(parse_command_grammar_error_dispatches_nothing sample_env 0 () "a = 1 junk\n".toList
      sample_state ⟨.input_error, "Junk at end of input.".toList⟩ rfl).1,
   (parse_command_grammar_error_dispatches_nothing sample_env 0 ()
      "a = 'unterminated\n".toList sample_state
      ⟨.input_error, "Missing closing quote.".toList⟩ rfl).1⟩

/-- C3.  For a well-formed command line (the grammar part yields the name `key`, the
argument `args` and the cursor `rest`) whose substitution pass returns `args1` in state
`s1`, `parse_command` hands `key`, `args1` and the target to the registry exactly once,
after the dispatches of the substitution pass (they are the part of the trace that `s1`
already holds), and answers with the result of that dispatch and `rest`.  A string that
starts with `$` is replaced by the result of `parse_command` on the text after the `$`.
With `inner` returning 42 and `outer` echoing its argument, `outer = $inner=` dispatches
`inner` first and `outer` receives 42. -/
theorem parse_command_dispatches_after_substitution
    (env : Env σ τ) (fuel : Nat) (target : τ) (range rest : List Char) (s s1 : St σ τ)
    (key : List Char) (args args1 : Object)
    (hhead : parse_command_head env.parse_whole_list range = .ok (some (key, args), rest))
    (hexec : parse_command_execute env fuel target args s = (.ok args1, s1)) :
    parse_command env fuel target range s =
      ((match (env.commands key args1 target s1.stack s1.world).1 with
        | .ok v => .ok (v, rest)
        | .error e => .throw e),
       ⟨(env.commands key args1 target s1.stack s1.world).2, s1.stack,
        s1.trace ++
          [⟨key, args1, target, (env.commands key args1 target s1.stack s1.world).1⟩]⟩) ∧
    (∀ (str : List Char) (st : St σ τ),
      parse_command_execute env (fuel + 1) target (.string ('$' :: str)) st =
        match parse_command env fuel target str st with
        | (.ok result, st1) => (.ok result.1, st1)
        | (.throw e, st1) => (.throw e, st1)
        | (.out_of_fuel, st1) => (.out_of_fuel, st1)) ∧
    (∀ a0 : Object,
      env.parse_whole_list " $inner=\n".toList
        = .ok (.string "$inner=".toList, "\n".toList) →
      env.parse_whole_list [] = .ok (a0, []) →
      no_substitution_at a0 = true →
      (∀ a t st w, (env.commands "inner".toList a t st w).1 = .ok (.value 42)) →
      (∀ a t st w, (env.commands "outer".toList a t st w).1 = .ok a) →
      ∃ s2, parse_command env (fuel + 2) target "outer = $inner=\n".toList s
          = (.ok (.value 42, []), s2) ∧
        s2.trace = s.trace ++
          [⟨"inner".toList, a0, target, .ok (.value 42)⟩,
           ⟨"outer".toList, .value 42, target, .ok (.value 42)⟩]) := by
  refine ⟨?_, ?_, ?_⟩
  · rw [parse_command_of_head_some env fuel target range rest key args hhead,
      and_then_ok hexec, and_then, call_command_eq, parse_command_head_c_str hhead]
    cases (env.commands key args1 target s1.stack s1.world).1 <;> rfl
  · intro str st
    show and_then (parse_command env fuel target str) (fun result => ret result.1) st = _
    rcases h : parse_command env fuel target str st with ⟨r, st1⟩
    cases r <;> simp [and_then, h, ret]
  · intro a0 hp1 hp2 ha0 hin hout
    have hhead_outer : parse_command_head env.parse_whole_list "outer = $inner=\n".toList
        = .ok (some ("outer".toList, .string "$inner=".toList), []) := by
      have hk : parse_command_key "outer = $inner=\n".toList
          = .ok (some "outer".toList, " $inner=\n".toList) := rfl
      have he : parse_command_end "\n".toList = .ok [] := rfl
      simp only [parse_command_head, hk, hp1, he]
    have hhead_inner : parse_command_head env.parse_whole_list "inner=".toList
        = .ok (some ("inner".toList, a0), []) := by
      have hk : parse_command_key "inner=".toList = .ok (some "inner".toList, []) := rfl
      have he : parse_command_end [] = .ok [] := rfl
      simp only [parse_command_head, hk, hp2, he]
    have hinner : parse_command env (fuel + 1) target "inner=".toList s =
        (.ok (.value 42, []),
          ⟨(env.commands "inner".toList a0 target s.stack s.world).2, s.stack,
           s.trace ++ [⟨"inner".toList, a0, target, .ok (.value 42)⟩]⟩) := by
      rw [parse_command_of_head_some env (fuel + 1) target _ _ _ _ hhead_inner,
        and_then_ok (execute_no_substitution env fuel target a0 s ha0), and_then,
        call_command_eq, parse_command_head_c_str hhead_inner, hin]
      rfl
    have hsub : parse_command_execute env (fuel + 2) target (.string "$inner=".toList) s =
        (.ok (.value 42),
          ⟨(env.commands "inner".toList a0 target s.stack s.world).2, s.stack,
           s.trace ++ [⟨"inner".toList, a0, target, .ok (.value 42)⟩]⟩) := by
      show and_then (parse_command env (fuel + 1) target "inner=".toList)
        (fun result => ret result.1) s = _
      rw [and_then_ok hinner]
      rfl
    have hrun : parse_command env (fuel + 2) target "outer = $inner=\n".toList s =
        (.ok (.value 42, []),
          ⟨(env.commands "outer".toList (.value 42) target s.stack
              (env.commands "inner".toList a0 target s.stack s.world).2).2, s.stack,
           (s.trace ++ [⟨"inner".toList, a0, target, .ok (.value 42)⟩]) ++
             [⟨"outer".toList, .value 42, target, .ok (.value 42)⟩]⟩) := by
      rw [parse_command_of_head_some env (fuel + 2) target _ _ _ _ hhead_outer,
        and_then_ok hsub, and_then, call_command_eq, parse_command_head_c_str hhead_outer,
        hout]
      rfl
    exact ⟨_, hrun, by simp⟩

/-- C3 on the sample environment: the hypotheses of the theorem hold for the line
`outer = $inner=`, and the run dispatches `inner`, then `outer` with 42, and returns
42 with the cursor at the end. -/
theorem parse_command_dispatches_after_substitution_witness :
    parse_command sample_env 2 () "outer = $inner=\n".toList sample_state =
      (.ok (.value 42, []),
       ⟨2, [], [⟨"inner".toList, .string [], (), .ok (.value 42)⟩,
                ⟨"outer".toList, .value 42, (), .ok (.value 42)⟩]⟩) :=
  (parse_command_dispatches_after_substitution sample_env 2 () "outer = $inner=\n".toList
    [] sample_state ⟨1, [], [⟨"inner".toList, .string [], (), .ok (.value 42)⟩]⟩
    "outer".toList (.string "$inner=".toList) (.value 42) rfl rfl).1

end Claims

/-! ## The loop of `parse_command_multiple` -/

section Multiple

variable {σ τ : Type}

theorem loop_nil (env : Env σ τ) (fuel : Nat) (target : τ) (steps : Nat) (result : Object) :
    parse_command_multiple_loop env fuel target steps result [] = ret result := by
  cases steps <;> rfl

theorem loop_cons (env : Env σ τ) (fuel : Nat) (target : τ) (steps : Nat) (result : Object)
    (c : Char) (first : List Char) :
    parse_command_multiple_loop env fuel target (steps + 1) result (c :: first) =
      and_then (parse_command env fuel target (c :: first)) fun r =>
        parse_command_multiple_loop env fuel target steps r.1 r.2 := rfl

theorem parse_command_head_some_ne_nil
    {pwl : List Char → Except Error (Object × List Char)} {range rest : List Char}
    {cmd : List Char × Object}
    (h : parse_command_head pwl range = .ok (some cmd, rest)) : range ≠ [] := by
  intro hr
  subst hr
  rw [parse_command_head_nil] at h
  cases h

theorem loop_step_some (env : Env σ τ) (fuel : Nat) (target : τ) (steps : Nat)
    (result : Object) (range rest : List Char) (key : List Char) (args : Object)
    (h : parse_command_head env.parse_whole_list range = .ok (some (key, args), rest)) :
    parse_command_multiple_loop env fuel target (steps + 1) result range =
      and_then (parse_command_execute env fuel target args) fun args =>
        and_then (call_command env key args target) fun r =>
          parse_command_multiple_loop env fuel target steps r rest := by
  cases range with
  | nil => exact absurd rfl (parse_command_head_some_ne_nil h)
  | cons c first =>
    rw [loop_cons, parse_command_of_head_some env fuel target _ _ _ _ h, and_then_assoc]
    refine and_then_congr _ fun a => ?_
    rw [and_then_assoc]
    refine and_then_congr _ fun r => ?_
    rw [and_then_ret]

theorem parse_command_key_blank (range : List Char)
    (h : range.all command_map_is_space = true) :
    parse_command_key range = .ok (Option.none, []) := by
  have hd : range.dropWhile command_map_is_space = [] := by
    rw [List.dropWhile_eq_nil_iff]
    simpa [List.all_eq_true] using h
  simp [parse_command_key, hd]

theorem loop_blank (env : Env σ τ) (fuel : Nat) (target : τ) (steps : Nat)
    (result : Object) (tail : List Char) (hne : tail ≠ [])
    (h : tail.all command_map_is_space = true) :
    parse_command_multiple_loop env fuel target (steps + 1) result tail = ret Object.none := by
  cases tail with
  | nil => exact absurd rfl hne
  | cons c first =>
    have hh : parse_command_head env.parse_whole_list (c :: first) = .ok (Option.none, []) := by
      simp [parse_command_head, parse_command_key_blank _ h]
    funext s
    rw [loop_cons, and_then_ok (parse_command_of_head_none env fuel target _ _ s hh), loop_nil]

theorem read_commands_loop (env : Env σ τ) (fuel : Nat) (target : τ) (n : Nat) :
    ∀ (range : List Char) (cmds : List (List Char × Object)) (tail : List Char)
      (steps : Nat) (result : Object),
      read_commands env.parse_whole_list n range = (cmds, tail) →
      tail.all command_map_is_space = true →
      cmds.length < steps →
      parse_command_multiple_loop env fuel target steps result range =
        and_then (dispatch_in_order env fuel target result cmds) fun v =>
          ret (if tail = [] then v else Object.none) := by
  have base : ∀ (range : List Char) (steps : Nat) (result : Object),
      range.all command_map_is_space = true → 0 < steps →
      parse_command_multiple_loop env fuel target steps result range =
        and_then (dispatch_in_order env fuel target result []) fun v =>
          ret (if range = [] then v else Object.none) := by
    intro range steps result hall hsteps
    obtain ⟨steps, rfl⟩ : ∃ k, steps = k + 1 := ⟨steps - 1, by omega⟩
    by_cases hr : range = []
    · subst hr
      rw [loop_nil]
      simp [dispatch_in_order, and_then_ret]
    · rw [loop_blank env fuel target steps result range hr hall]
      simp [dispatch_in_order, and_then_ret, hr]
  induction n with
  | zero =>
    intro range cmds tail steps result hread hall hsteps
    simp only [read_commands, Prod.mk.injEq] at hread
    obtain ⟨rfl, rfl⟩ := hread
    exact base range steps result hall (by simpa using hsteps)
  | succ n ih =>
    intro range cmds tail steps result hread hall hsteps
    unfold read_commands at hread
    split at hread
    · rename_i cmd rest hhead
      simp only [Prod.mk.injEq] at hread
      obtain ⟨rfl, htail⟩ := hread
      obtain ⟨steps, rfl⟩ : ∃ k, steps = k + 1 := ⟨steps - 1, by
        simp only [List.length_cons] at hsteps; omega⟩
      obtain ⟨key, args⟩ := cmd
      rw [loop_step_some env fuel target steps result range rest key args hhead]
      simp only [dispatch_in_order]
      rw [and_then_assoc]
      refine and_then_congr _ fun a => ?_
      rw [and_then_assoc]
      refine and_then_congr _ fun r => ?_
      exact ih rest _ tail steps r (Prod.ext rfl htail) hall (by
        simp only [List.length_cons] at hsteps; omega)
    · simp only [Prod.mk.injEq] at hread
      obtain ⟨rfl, rfl⟩ := hread
      exact base range steps result hall (by simpa using hsteps)

theorem read_commands_c_str (pwl : List Char → Except Error (Object × List Char)) (n : Nat) :
    ∀ (range : List Char) (cmds : List (List Char × Object)) (tail : List Char),
      read_commands pwl n range = (cmds, tail) → ∀ cmd ∈ cmds, c_str cmd.1 = cmd.1 := by
  induction n with
  | zero =>
    intro range cmds tail hread cmd hmem
    simp only [read_commands, Prod.mk.injEq] at hread
    obtain ⟨rfl, -⟩ := hread
    simp at hmem
  | succ n ih =>
    intro range cmds tail hread cmd hmem
    unfold read_commands at hread
    split at hread
    · rename_i cmd1 rest hhead
      simp only [Prod.mk.injEq] at hread
      obtain ⟨rfl, htail⟩ := hread
      rcases List.mem_cons.mp hmem with h | h
      · subst h
        obtain ⟨key, args⟩ := cmd
        exact parse_command_head_c_str hhead
      · exact ih rest _ tail (Prod.ext rfl htail) cmd h
    · simp only [Prod.mk.injEq] at hread
      obtain ⟨rfl, -⟩ := hread
      simp at hmem

theorem dispatch_in_order_trace (env : Env σ τ) (fuel : Nat) (target : τ) :
    ∀ (cmds : List (List Char × Object)) (result : Object) (s s1 : St σ τ) (v : Object),
      (∀ cmd ∈ cmds, substitution_free cmd.2 = true ∧ c_str cmd.1 = cmd.1) →
      dispatch_in_order env (fuel + 2) target result cmds s = (.ok v, s1) →
      s1.trace.map (fun d => (d.name, d.args, d.target)) =
        s.trace.map (fun d => (d.name, d.args, d.target)) ++
          cmds.map (fun cmd => (cmd.1, cmd.2, target)) ∧
      (cmds ≠ [] → s1.trace.getLast?.map Dispatch.result = some (.ok v)) := by
  intro cmds
  induction cmds with
  | nil =>
    intro result s s1 v _ hrun
    simp only [dispatch_in_order, ret, Prod.mk.injEq] at hrun
    obtain ⟨-, rfl⟩ := hrun
    simp
  | cons cmd cmds ih =>
    intro result s s1 v hfree hrun
    obtain ⟨hf, hk⟩ := hfree cmd (List.mem_cons_self _ _)
    simp only [dispatch_in_order] at hrun
    rw [and_then_ok (execute_substitution_free env fuel target cmd.2 s hf), and_then,
      call_command_eq, hk] at hrun
    cases hr : (env.commands cmd.1 cmd.2 target s.stack s.world).1 with
    | error e => simp [hr] at hrun
    | ok v1 =>
      simp only [hr] at hrun
      obtain ⟨h1, h2⟩ := ih v1 _ s1 v
        (fun c hc => hfree c (List.mem_cons_of_mem _ hc)) hrun
      refine ⟨?_, ?_⟩
      · rw [h1]
        simp
      · intro _
        by_cases hc : cmds = []
        · subst hc
          simp only [dispatch_in_order, ret, Prod.mk.injEq] at hrun
          obtain ⟨hv, rfl⟩ := hrun
          cases hv
          simp
        · exact h2 hc

end Multiple

section MultipleClaims

variable {σ τ α β : Type}

theorem and_then_eq_ok {m : Eval σ τ α} {f : α → Eval σ τ β} {s s1 : St σ τ} {b : β}
    (h : and_then m f s = (.ok b, s1)) :
    ∃ a sa, m s = (.ok a, sa) ∧ f a sa = (.ok b, s1) := by
  rcases hm : m s with ⟨r, sa⟩
  cases r with
  | ok a => exact ⟨a, sa, rfl, by simpa [and_then, hm] using h⟩
  | throw e => simp [and_then, hm] at h
  | out_of_fuel => simp [and_then, hm] at h

theorem call_command_eq_ok {env : Env σ τ} {key : List Char} {args : Object} {target : τ}
    {s s1 : St σ τ} {v : Object} (h : call_command env key args target s = (.ok v, s1)) :
    s1.trace.getLast?.map Dispatch.result = some (.ok v) := by
  rw [call_command_eq] at h
  cases hr : (env.commands (c_str key) args target s.stack s.world).1 with
  | error e => simp [hr] at h
  | ok v1 =>
    simp only [hr, Prod.mk.injEq, Outcome.ok.injEq] at h
    obtain ⟨rfl, rfl⟩ := h
    simp

theorem dispatch_in_order_last (env : Env σ τ) (fuel : Nat) (target : τ) :
    ∀ (cmds : List (List Char × Object)) (result : Object) (s s1 : St σ τ) (v : Object),
      dispatch_in_order env fuel target result cmds s = (.ok v, s1) → cmds ≠ [] →
      s1.trace.getLast?.map Dispatch.result = some (.ok v) := by
  intro cmds
  induction cmds with
  | nil => intro _ _ _ _ _ h; exact absurd rfl h
  | cons cmd cmds ih =>
    intro result s s1 v hrun _
    simp only [dispatch_in_order] at hrun
    obtain ⟨a, sa, -, h2⟩ := and_then_eq_ok hrun
    obtain ⟨r, sb, hcall, h3⟩ := and_then_eq_ok h2
    by_cases hc : cmds = []
    · subst hc
      simp only [dispatch_in_order, ret, Prod.mk.injEq, Outcome.ok.injEq] at h3
      obtain ⟨rfl, rfl⟩ := h3
      exact call_command_eq_ok hcall
    · exact ih r sb s1 v h3 hc

theorem parse_command_key_none {range first : List Char}
    (h : parse_command_key range = .ok (Option.none, first)) :
    (first = [] ∧ range.all command_map_is_space = true) ∨ ∃ t, first = '#' :: t := by
  unfold parse_command_key at h
  simp only at h
  split at h
  · rename_i hd
    simp only [Except.ok.injEq, Prod.mk.injEq, true_and] at h
    subst h
    refine Or.inl ⟨hd, ?_⟩
    rw [List.dropWhile_eq_nil_iff] at hd
    simpa [List.all_eq_true] using hd
  · rename_i c t hd
    split at h
    · rename_i hc
      simp only [Except.ok.injEq, Prod.mk.injEq, true_and] at h
      subst h
      have : c = '#' := by simpa using hc
      subst this
      exact Or.inr ⟨t, hd⟩
    · split at h
      · cases h
      · split at h
        · cases h
        · split at h
          · cases h
          · cases h

theorem parse_command_head_none {pwl : List Char → Except Error (Object × List Char)}
    {range first : List Char} (h : parse_command_head pwl range = .ok (Option.none, first)) :
    parse_command_key range = .ok (Option.none, first) := by
  unfold parse_command_head at h
  split at h
  · cases h
  · rename_i f hk
    simp only [Except.ok.injEq, Prod.mk.injEq, true_and] at h
    subst h
    exact hk
  · split at h
    · cases h
    · split at h
      · cases h
      · cases h

theorem parse_command_head_comment (pwl : List Char → Except Error (Object × List Char))
    (t : List Char) : parse_command_head pwl ('#' :: t) = .ok (Option.none, '#' :: t) := rfl

/-- A cursor that stands on `#` is handed back unchanged by `parse_command`, so the loop
of `parse_command_multiple` never leaves it. -/
theorem loop_comment_stuck (env : Env σ τ) (fuel : Nat) (target : τ) (t : List Char)
    (s : St σ τ) :
    ∀ (steps : Nat) (result : Object),
      parse_command_multiple_loop env fuel target steps result ('#' :: t) s
        = (.out_of_fuel, s) := by
  intro steps
  induction steps with
  | zero => intro result; rfl
  | succ k ih =>
    intro result
    rw [loop_cons, and_then_ok (parse_command_of_head_none env fuel target _ _ s
      (parse_command_head_comment env.parse_whole_list t))]
    exact ih Object.none

theorem loop_ok_reads (env : Env σ τ) (fuel : Nat) (target : τ) :
    ∀ (steps : Nat) (range : List Char) (result : Object) (s s1 : St σ τ) (v : Object),
      parse_command_multiple_loop env fuel target steps result range s = (.ok v, s1) →
      ∃ (n : Nat) (cmds : List (List Char × Object)) (tail : List Char) (w : Object),
        read_commands env.parse_whole_list n range = (cmds, tail) ∧
        tail.all command_map_is_space = true ∧
        dispatch_in_order env fuel target result cmds s = (.ok w, s1) ∧
        v = (if tail = [] then w else Object.none) := by
  intro steps
  induction steps with
  | zero =>
    intro range result s s1 v hrun
    cases range with
    | nil =>
      simp only [loop_nil, ret, Prod.mk.injEq, Outcome.ok.injEq] at hrun
      obtain ⟨rfl, rfl⟩ := hrun
      exact ⟨0, [], [], result, rfl, rfl, rfl, rfl⟩
    | cons c first => simp [parse_command_multiple_loop] at hrun
  | succ k ih =>
    intro range result s s1 v hrun
    cases range with
    | nil =>
      simp only [loop_nil, ret, Prod.mk.injEq, Outcome.ok.injEq] at hrun
      obtain ⟨rfl, rfl⟩ := hrun
      exact ⟨0, [], [], result, rfl, rfl, rfl, rfl⟩
    | cons c first =>
      rcases hhead : parse_command_head env.parse_whole_list (c :: first) with e | ⟨cmd, rest⟩
      · rw [loop_cons, and_then_throw (parse_command_of_head_error env fuel target _ s e hhead)]
          at hrun
        cases hrun
      · cases cmd with
        | none =>
          rw [loop_cons, and_then_ok (parse_command_of_head_none env fuel target _ _ s hhead)]
            at hrun
          rcases parse_command_key_none (parse_command_head_none hhead) with ⟨hr, hall⟩ | ⟨t, ht⟩
          · subst hr
            simp only [loop_nil, ret, Prod.mk.injEq, Outcome.ok.injEq] at hrun
            obtain ⟨rfl, rfl⟩ := hrun
            exact ⟨0, [], c :: first, result, rfl, hall, rfl, by simp⟩
          · subst ht
            rw [loop_comment_stuck] at hrun
            cases hrun
        | some cmd =>
          obtain ⟨key, args⟩ := cmd
          rw [loop_step_some env fuel target k result _ rest key args hhead] at hrun
          obtain ⟨a, sa, hexec, h2⟩ := and_then_eq_ok hrun
          obtain ⟨r, sb, hcall, h3⟩ := and_then_eq_ok h2
          obtain ⟨n, cmds, tail, w, hread, hall, hdisp, hv⟩ := ih rest r sb s1 v h3
          refine ⟨n + 1, (key, args) :: cmds, tail, w, ?_, hall, ?_, hv⟩
          · simp [read_commands, hhead, hread]
          · simp only [dispatch_in_order]
            rw [and_then_ok hexec, and_then_ok hcall]
            exact hdisp

theorem dispatch_in_order_terminates (env : Env σ τ) (fuel : Nat) (target : τ) :
    ∀ (cmds : List (List Char × Object)) (result : Object) (s : St σ τ),
      (∀ cmd ∈ cmds, substitution_free cmd.2 = true) →
      (dispatch_in_order env (fuel + 2) target result cmds s).1 ≠ .out_of_fuel := by
  intro cmds
  induction cmds with
  | nil => intro result s _; simp [dispatch_in_order, ret]
  | cons cmd cmds ih =>
    intro result s hfree
    simp only [dispatch_in_order]
    rw [and_then_ok (execute_substitution_free env fuel target cmd.2 s
      (hfree cmd (List.mem_cons_self _ _))), and_then, call_command_eq]
    cases hr : (env.commands (c_str cmd.1) cmd.2 target s.stack s.world).1 with
    | error e => simp
    | ok v1 => exact ih v1 _ (fun c hc => hfree c (List.mem_cons_of_mem _ hc))

/-- C4.  A text that the grammar part of `parse_command` reads as the commands `cmds`
with nothing left (each command ends at its terminator or at the end of the text) is run
by `parse_command_multiple` exactly as the spec says: with a recursion bound above the
number of commands the run equals dispatching the commands one after the other in
textual order and answering with the result of the last one.  The empty text dispatches
nothing and returns `None`.  When the arguments hold no substitutions, the dispatches
added to the trace are exactly the commands, once each, in textual order, the value
returned is the result recorded for the last of them, and the run does not exhaust the
recursion bound. -/
theorem parse_command_multiple_dispatches_in_order
    (env : Env σ τ) (fuel : Nat) (target : τ) (n : Nat) (range : List Char)
    (cmds : List (List Char × Object)) (s : St σ τ)
    (hread : read_commands env.parse_whole_list n range = (cmds, []))
    (hfuel : cmds.length < fuel) :
    parse_command_multiple env fuel target range s
      = dispatch_in_order env fuel target Object.none cmds s ∧
    parse_command_multiple env fuel target [] s = (.ok Object.none, s) ∧
    (∀ (v : Object) (s1 : St σ τ),
      (∀ cmd ∈ cmds, substitution_free cmd.2 = true) → 2 ≤ fuel →
      parse_command_multiple env fuel target range s = (.ok v, s1) →
      s1.trace.map (fun d => (d.name, d.args, d.target)) =
        s.trace.map (fun d => (d.name, d.args, d.target)) ++
          cmds.map (fun cmd => (cmd.1, cmd.2, target)) ∧
      (cmds ≠ [] → s1.trace.getLast?.map Dispatch.result = some (.ok v))) ∧
    ((∀ cmd ∈ cmds, substitution_free cmd.2 = true) → 2 ≤ fuel →
      (parse_command_multiple env fuel target range s).1 ≠ .out_of_fuel) := by
  have heq : parse_command_multiple env fuel target range s
      = dispatch_in_order env fuel target Object.none cmds s := by
    unfold parse_command_multiple
    rw [read_commands_loop env fuel target n range cmds [] fuel Object.none hread rfl hfuel]
    rcases h : dispatch_in_order env fuel target Object.none cmds s with ⟨r, s1⟩
    cases r <;> simp [and_then, h, ret]
  refine ⟨heq, ?_, ?_, ?_⟩
  · unfold parse_command_multiple
    rw [loop_nil]
    rfl
  · intro v s1 hfree h2 hrun
    rw [heq] at hrun
    obtain ⟨k, rfl⟩ : ∃ k, fuel = k + 2 := ⟨fuel - 2, by omega⟩
    exact dispatch_in_order_trace env k target cmds Object.none s s1 v
      (fun cmd hc => ⟨hfree cmd hc, read_commands_c_str _ n range cmds [] hread cmd hc⟩) hrun
  · intro hfree h2
    rw [heq]
    obtain ⟨k, rfl⟩ : ∃ k, fuel = k + 2 := ⟨fuel - 2, by omega⟩
    exact dispatch_in_order_terminates env k target cmds Object.none s hfree

/-- C4 on the sample environment: the two-line script `a = X`, `b = Y` is read as the
commands `a` and `b`; the run dispatches `a`, then `b`, and returns the result of `b`. -/
theorem parse_command_multiple_dispatches_in_order_witness :
    parse_command_multiple sample_env 3 () "a = X\nb = Y\n".toList sample_state
      = dispatch_in_order sample_env 3 () Object.none
          [("a".toList, .string "X".toList), ("b".toList, .string "Y".toList)] sample_state ∧
    dispatch_in_order sample_env 3 () Object.none
        [("a".toList, .string "X".toList), ("b".toList, .string "Y".toList)] sample_state
      = (.ok (.string "Y".toList),
         ⟨2, [], [⟨"a".toList, .string "X".toList, (), .ok (.string "X".toList)⟩,
                  ⟨"b".toList, .string "Y".toList, (), .ok (.string "Y".toList)⟩]⟩) :=
  ⟨(parse_command_multiple_dispatches_in_order sample_env 3 () 2 "a = X\nb = Y\n".toList
      [("a".toList, .string "X".toList), ("b".toList, .string "Y".toList)] sample_state
      rfl (by decide)).1, rfl⟩

/-- C5 fails as stated: on the sample environment the text `a = 1; ` (a blank after the
terminator) dispatches `a`, whose result is the string `1`, and `parse_command_multiple`
returns `None`. -/
theorem parse_command_multiple_trailing_blank_returns_none :
    ¬ returns_last_dispatched sample_state
        (parse_command_multiple sample_env 2 () "a = 1; ".toList sample_state) := by
  intro h
  have hrun : parse_command_multiple sample_env 2 () "a = 1; ".toList sample_state =
      (.ok Object.none,
        ⟨1, [], [⟨"a".toList, .string "1".toList, (), .ok (.string "1".toList)⟩]⟩) := rfl
  rw [hrun] at h
  have h1 := h Object.none rfl (by decide)
  simp at h1

/-- C5 as amended.  Every normal return of `parse_command_multiple` comes from a text
that the grammar part reads as some commands followed by nothing but spaces and tabs;
the commands were dispatched in textual order, and the value returned is the result of
the last command dispatched when nothing follows its terminator, and `None` when spaces
or tabs follow it. -/
theorem parse_command_multiple_returns_last_parse_command
    (env : Env σ τ) (fuel : Nat) (target : τ) (range : List Char) (s s1 : St σ τ)
    (v : Object)
    (hrun : parse_command_multiple env fuel target range s = (.ok v, s1)) :
    ∃ (n : Nat) (cmds : List (List Char × Object)) (tail : List Char) (w : Object),
      read_commands env.parse_whole_list n range = (cmds, tail) ∧
      tail.all command_map_is_space = true ∧
      dispatch_in_order env fuel target Object.none cmds s = (.ok w, s1) ∧
      (cmds ≠ [] → s1.trace.getLast?.map Dispatch.result = some (.ok w)) ∧
      (tail = [] → v = w) ∧ (tail ≠ [] → v = Object.none) := by
  obtain ⟨n, cmds, tail, w, hread, hall, hdisp, hv⟩ :=
    loop_ok_reads env fuel target fuel range Object.none s s1 v hrun
  refine ⟨n, cmds, tail, w, hread, hall, hdisp,
    dispatch_in_order_last env fuel target cmds Object.none s s1 w hdisp, ?_, ?_⟩
  · intro ht
    simpa [ht] using hv
  · intro ht
    simpa [ht] using hv

/-- C5 as amended, on the sample environment: `a = 1;` returns the result of `a`, and
`a = 1; ` is read as the command `a` followed by a blank. -/
theorem parse_command_multiple_returns_last_parse_command_witness :
    parse_command_multiple sample_env 2 () "a = 1;".toList sample_state =
      (.ok (.string "1".toList),
        ⟨1, [], [⟨"a".toList, .string "1".toList, (), .ok (.string "1".toList)⟩]⟩) ∧
    ∃ (n : Nat) (cmds : List (List Char × Object)) (tail : List Char) (w : Object),
      read_commands sample_env.parse_whole_list n "a = 1; ".toList = (cmds, tail) ∧
      tail.all command_map_is_space = true ∧
      dispatch_in_order sample_env 2 () Object.none cmds sample_state =
        (.ok w, ⟨1, [], [⟨"a".toList, .string "1".toList, (), .ok (.string "1".toList)⟩]⟩) ∧
      (cmds ≠ [] →
        (some (Except.ok (Object.string "1".toList)) : Option (Except Error Object))
          = some (.ok w)) ∧
      (tail = [] → Object.none = w) ∧ (tail ≠ [] → Object.none = Object.none) :=
  ⟨rfl, parse_command_multiple_returns_last_parse_command sample_env 2 () "a = 1; ".toList
    sample_state ⟨1, [], [⟨"a".toList, .string "1".toList, (), .ok (.string "1".toList)⟩]⟩
    Object.none rfl⟩

end MultipleClaims

/-! ## Function keys and the quoting depth -/

section Quoting

variable {σ τ : Type}

theorem and_or_distrib_right (x y z : Nat) : (x ||| y) &&& z = (x &&& z) ||| (y &&& z) := by
  rw [Nat.and_comm, Nat.and_or_distrib_left, Nat.and_comm z x, Nat.and_comm z y]

theorem and_flag_function (f : Nat) :
    f &&& flag_function = (f &&& mask_function) &&& flag_function := by
  rw [Nat.and_assoc]
  rfl

theorem unquote_flags_and_mask (f : Nat) :
    unquote_flags f &&& mask_function = ((f &&& mask_function) >>> 1) &&& mask_function := by
  unfold unquote_flags set_flags unset_flags
  rw [and_or_distrib_right, Nat.and_assoc f, Nat.and_assoc _ mask_public mask_function,
    Nat.and_assoc _ mask_function]
  have h1 : (0xFFFFFFFF ^^^ (mask_function &&& mask_public)) &&& mask_function = 0 := by decide
  have h2 : mask_function &&& (mask_public &&& mask_function) = mask_function := by decide
  rw [h1, h2, Nat.and_zero, Nat.zero_or]

theorem unquote_flags_q2 (f : Nat) (h : f &&& mask_function = flag_function_q2) :
    unquote_flags f &&& mask_function = flag_function_q1 := by
  rw [unquote_flags_and_mask, h]
  decide

theorem unquote_flags_q1 (f : Nat) (h : f &&& mask_function = flag_function_q1) :
    unquote_flags f &&& mask_function = flag_function := by
  rw [unquote_flags_and_mask, h]
  decide

theorem not_function_of_q2 (f : Nat) (h : f &&& mask_function = flag_function_q2) :
    f &&& flag_function = 0 := by
  rw [and_flag_function, h]
  decide

theorem not_function_of_q1 (f : Nat) (h : f &&& mask_function = flag_function_q1) :
    f &&& flag_function = 0 := by
  rw [and_flag_function, h]
  decide

theorem function_of_depth_zero (f : Nat) (h : f &&& mask_function = flag_function) :
    f &&& flag_function = flag_function := by
  rw [and_flag_function, h]
  decide

theorem execute_dict_key (env : Env σ τ) (fuel : Nat) (target : τ) (flags : Nat)
    (key : List Char) (obj : Object) :
    parse_command_execute env (fuel + 1) target (.dict_key flags key obj) =
      and_then (parse_command_execute env fuel target obj) fun obj =>
        if flags &&& flag_function != 0 then call_command env key obj target
        else ret (.dict_key (unquote_flags flags) key obj) := rfl

theorem execute_dict_key_quoted (env : Env σ τ) (fuel : Nat) (target : τ) (flags : Nat)
    (key : List Char) (a : Object) (s : St σ τ) (hflags : flags &&& flag_function = 0)
    (hfree : substitution_free a = true) :
    parse_command_execute env (fuel + 3) target (.dict_key flags key a) s =
      (.ok (.dict_key (unquote_flags flags) key a), s) := by
  rw [execute_dict_key, and_then_ok (execute_substitution_free env fuel target a s hfree)]
  simp [hflags, ret]

theorem execute_dict_key_function (env : Env σ τ) (fuel : Nat) (target : τ) (flags : Nat)
    (key : List Char) (a : Object) (s : St σ τ)
    (hflags : flags &&& flag_function = flag_function)
    (hfree : substitution_free a = true) :
    parse_command_execute env (fuel + 3) target (.dict_key flags key a) s =
      call_command env key a target s := by
  rw [execute_dict_key, and_then_ok (execute_substitution_free env fuel target a s hfree)]
  have hne : (flags &&& flag_function != 0) = true := by
    rw [hflags]
    decide
  rw [if_pos hne]

/-- C9.  A function key whose function bits are `flag_function_q2` and whose argument
holds nothing substitutable: one pass of `parse_command_execute` returns the same key and
argument with the function bits at `flag_function_q1` and leaves the state untouched
(nothing dispatched); a second pass brings the function bits to `flag_function`, again
without a dispatch; the third pass hands the key (as a C string) and the argument to the
registry once and returns what the handler answered in place of the node. -/
theorem dict_key_quoting_depth_two
    (env : Env σ τ) (fuel : Nat) (target : τ) (flags : Nat) (key : List Char) (a : Object)
    (s : St σ τ) (hflags : flags &&& mask_function = flag_function_q2)
    (hfree : substitution_free a = true) :
    parse_command_execute env (fuel + 3) target (.dict_key flags key a) s =
      (.ok (.dict_key (unquote_flags flags) key a), s) ∧
    unquote_flags flags &&& mask_function = flag_function_q1 ∧
    parse_command_execute env (fuel + 3) target (.dict_key (unquote_flags flags) key a) s =
      (.ok (.dict_key (unquote_flags (unquote_flags flags)) key a), s) ∧
    unquote_flags (unquote_flags flags) &&& mask_function = flag_function ∧
    parse_command_execute env (fuel + 3) target
        (.dict_key (unquote_flags (unquote_flags flags)) key a) s =
      ((match (env.commands (c_str key) a target s.stack s.world).1 with
        | .ok v => .ok v
        | .error e => .throw e),
       ⟨(env.commands (c_str key) a target s.stack s.world).2, s.stack,
        s.trace ++ [⟨c_str key, a, target,
          (env.commands (c_str key) a target s.stack s.world).1⟩]⟩) ∧
    unquote_flags flag_function_q2 = flag_function_q1 ∧
    unquote_flags flag_function_q1 = flag_function := by
  have h1 := unquote_flags_q2 flags hflags
  have h2 := unquote_flags_q1 _ h1
  refine ⟨?_, h1, ?_, h2, ?_, by decide, by decide⟩
  · exact execute_dict_key_quoted env fuel target flags key a s
      (not_function_of_q2 flags hflags) hfree
  · exact execute_dict_key_quoted env fuel target _ key a s
      (not_function_of_q1 _ h1) hfree
  · rw [execute_dict_key_function env fuel target _ key a s
      (function_of_depth_zero _ h2) hfree, call_command_eq]

/-- C9 on the sample environment: the key `inner` built with `flag_function_q2` and the
argument `x` survives two passes as data and is dispatched by the third. -/
theorem dict_key_quoting_depth_two_witness :
    parse_command_execute sample_env 3 () (.dict_key flag_function_q2 "inner".toList
        (.string "x".toList)) sample_state =
      (.ok (.dict_key flag_function_q1 "inner".toList (.string "x".toList)), sample_state) ∧
    parse_command_execute sample_env 3 () (.dict_key flag_function_q1 "inner".toList
        (.string "x".toList)) sample_state =
      (.ok (.dict_key flag_function "inner".toList (.string "x".toList)), sample_state) ∧
    parse_command_execute sample_env 3 () (.dict_key flag_function "inner".toList
        (.string "x".toList)) sample_state =
      (.ok (.value 42),
       ⟨1, [], [⟨"inner".toList, .string "x".toList, (), .ok (.value 42)⟩]⟩) :=
  have h := dict_key_quoting_depth_two sample_env 0 () flag_function_q2 "inner".toList
    (.string "x".toList) sample_state (by decide) rfl
  ⟨h.1, h.2.2.1, h.2.2.2.2.1⟩

/-- What `call_object` does right on a function key: when the function bits, once
lowered, do not include `flag_function` (depth zero, depth two, or no function bit at
all), it resolves the argument, dispatches the key once with the resolved argument and
returns the result of that dispatch. -/
theorem call_object_dict_key_unquoted (env : Env σ τ) (fuel : Nat) (target : τ) (flags : Nat)
    (key : List Char) (a : Object)
    (hflags : unquote_flags flags &&& flag_function = 0) :
    call_object env (fuel + 2) (.dict_key flags key a) target =
      and_then (parse_command_execute env fuel target a) fun a1 =>
        call_command env key a1 target := by
  show and_then (parse_command_execute env (fuel + 1) target
      (.dict_key (unquote_flags flags) key a)) _ = _
  rw [execute_dict_key, and_then_assoc]
  refine and_then_congr _ fun a1 => ?_
  simp [hflags, and_then_ret, lift_except, as_dict]

/-- C10 (the code at the failing input).  For a function key whose function bits are
`flag_function_q1`, `call_object` lowers them to `flag_function`, so the substitution
pass itself dispatches the key and puts the handler's answer `v` in the place of the
node; `call_object` then asks that answer for its key, and when `v` is not a function
key the call ends with `bencode_error("Wrong object type.")` instead of returning `v`.
The key was dispatched once. -/
theorem call_object_quoted_once_throws
    (env : Env σ τ) (fuel : Nat) (target : τ) (flags : Nat) (key : List Char) (a v : Object)
    (s : St σ τ) (hflags : flags &&& mask_function = flag_function_q1)
    (hfree : substitution_free a = true)
    (hres : (env.commands (c_str key) a target s.stack s.world).1 = .ok v)
    (hv : ∀ f k o, v ≠ .dict_key f k o) :
    call_object env (fuel + 4) (.dict_key flags key a) target s =
      (.throw ⟨.bencode_error, "Wrong object type.".toList⟩,
       ⟨(env.commands (c_str key) a target s.stack s.world).2, s.stack,
        s.trace ++ [⟨c_str key, a, target, .ok v⟩]⟩) := by
  have hexec : parse_command_execute env (fuel + 3) target
      (.dict_key (unquote_flags flags) key a) s =
      (.ok v, ⟨(env.commands (c_str key) a target s.stack s.world).2, s.stack,
        s.trace ++ [⟨c_str key, a, target, .ok v⟩]⟩) := by
    rw [execute_dict_key_function env fuel target _ key a s
      (function_of_depth_zero _ (unquote_flags_q1 flags hflags)) hfree, call_command_eq, hres]
  show and_then (parse_command_execute env (fuel + 3) target
      (.dict_key (unquote_flags flags) key a)) _ s = _
  rw [and_then_ok hexec]
  have hd : as_dict v = .error ⟨.bencode_error, "Wrong object type.".toList⟩ := by
    cases v with
    | dict_key f k o => exact absurd rfl (hv f k o)
    | _ => rfl
  simp [and_then, lift_except, hd, raise]

/-- C10 on the sample environment: the key `inner` with `flag_function_q1` is dispatched
once, its answer 42 is lost and the call throws. -/
theorem call_object_quoted_once_throws_witness :
    call_object sample_env 4 (.dict_key flag_function_q1 "inner".toList (.string "x".toList))
        () sample_state =
      (.throw ⟨.bencode_error, "Wrong object type.".toList⟩,
       ⟨1, [], [⟨"inner".toList, .string "x".toList, (), .ok (.value 42)⟩]⟩) :=
  call_object_quoted_once_throws sample_env 0 () flag_function_q1 "inner".toList
    (.string "x".toList) (.value 42) sample_state (by decide) rfl rfl
    (fun _ _ _ h => by cases h)

end Quoting

/-! ## The script loader -/

section Loader

variable {σ τ : Type}

theorem getline_scan_cons (room : Nat) (c : Char) (cs : List Char)
    (hc : (c == '\n') = false) :
    getline_scan (room + 1) (c :: cs) =
      ⟨c :: (getline_scan room cs).stored, (getline_scan room cs).gcount + 1,
        (getline_scan room cs).eofbit, (getline_scan room cs).failbit,
        (getline_scan room cs).rest⟩ := by
  simp [getline_scan, hc]

theorem getline_scan_line (line rest : List Char) (hline : '\n' ∉ line) :
    ∀ room, line.length ≤ room →
      getline_scan room (line ++ '\n' :: rest) = ⟨line, line.length + 1, false, false, rest⟩ := by
  induction line with
  | nil =>
    intro room _
    cases room <;> simp [getline_scan]
  | cons c l ih =>
    intro room hroom
    have hc : (c == '\n') = false := by
      simp only [beq_eq_false_iff_ne, ne_eq]
      intro h
      exact hline (by simp [h])
    have hl : '\n' ∉ l := fun h => hline (List.mem_cons_of_mem _ h)
    obtain ⟨room, rfl⟩ : ∃ k, room = k + 1 := ⟨room - 1, by
      simp only [List.length_cons] at hroom; omega⟩
    rw [List.cons_append, getline_scan_cons _ _ _ hc,
      ih hl room (by simp only [List.length_cons] at hroom; omega)]
    rfl

theorem getline_scan_eof (line : List Char) (hline : '\n' ∉ line) :
    ∀ room, line.length ≤ room →
      getline_scan room line = ⟨line, line.length, true, false, []⟩ := by
  induction line with
  | nil =>
    intro room _
    cases room <;> simp [getline_scan]
  | cons c l ih =>
    intro room hroom
    have hc : (c == '\n') = false := by
      simp only [beq_eq_false_iff_ne, ne_eq]
      intro h
      exact hline (by simp [h])
    have hl : '\n' ∉ l := fun h => hline (List.mem_cons_of_mem _ h)
    obtain ⟨room, rfl⟩ : ∃ k, room = k + 1 := ⟨room - 1, by
      simp only [List.length_cons] at hroom; omega⟩
    rw [getline_scan_cons _ _ _ hc,
      ih hl room (by simp only [List.length_cons] at hroom; omega)]
    rfl

theorem getline_scan_limit (line rest : List Char) (c : Char) (hline : '\n' ∉ line)
    (hc : c ≠ '\n') :
    ∀ room, line.length = room →
      getline_scan room (line ++ c :: rest) = ⟨line, line.length, false, true, c :: rest⟩ := by
  induction line with
  | nil =>
    intro room hroom
    have hc1 : (c == '\n') = false := by simpa using hc
    simp only [List.length_nil] at hroom
    subst hroom
    simp [getline_scan, hc1]
  | cons d l ih =>
    intro room hroom
    have hd : (d == '\n') = false := by
      simp only [beq_eq_false_iff_ne, ne_eq]
      intro h
      exact hline (by simp [h])
    have hl : '\n' ∉ l := fun h => hline (List.mem_cons_of_mem _ h)
    simp only [List.length_cons] at hroom
    subst hroom
    rw [List.cons_append, getline_scan_cons _ _ _ hd, ih hl l.length rfl]
    rfl

theorem getline_scan_cases (input : List Char) :
    ∀ room,
      (getline_scan room input).failbit = true ∨
      ((getline_scan room input).failbit = false ∧ (getline_scan room input).eofbit = false ∧
        input = (getline_scan room input).stored ++ '\n' :: (getline_scan room input).rest ∧
        '\n' ∉ (getline_scan room input).stored ∧
        (getline_scan room input).gcount = (getline_scan room input).stored.length + 1) ∨
      ((getline_scan room input).failbit = false ∧ (getline_scan room input).eofbit = true ∧
        input = (getline_scan room input).stored ∧ (getline_scan room input).rest = [] ∧
        '\n' ∉ (getline_scan room input).stored ∧
        (getline_scan room input).gcount = (getline_scan room input).stored.length) := by
  induction input with
  | nil =>
    intro room
    refine Or.inr (Or.inr ?_)
    cases room <;> simp [getline_scan]
  | cons c cs ih =>
    intro room
    by_cases hc : (c == '\n') = true
    · refine Or.inr (Or.inl ?_)
      have hc1 : c = '\n' := by simpa using hc
      cases room <;> simp [getline_scan, hc1]
    · have hc1 : (c == '\n') = false := by simpa using hc
      have hc2 : ¬ '\n' = c := by
        intro h
        exact hc (by simp [← h])
      cases room with
      | zero => exact Or.inl (by simp [getline_scan, hc1])
      | succ room =>
        rw [getline_scan_cons _ _ _ hc1]
        rcases ih room with h | ⟨h1, h2, h3, h4, h5⟩ | ⟨h1, h2, h3, h4, h5, h6⟩
        · exact Or.inl h
        · refine Or.inr (Or.inl ⟨h1, h2, ?_, ?_, ?_⟩)
          · exact congrArg (List.cons c) h3
          · simp only [List.mem_cons, not_or]
            exact ⟨hc2, h4⟩
          · simp only [List.length_cons, h5]
        · refine Or.inr (Or.inr ⟨h1, h2, ?_, h4, ?_, ?_⟩)
          · exact congrArg (List.cons c) h3
          · simp only [List.mem_cons, not_or]
            exact ⟨hc2, h5⟩
          · simp only [List.length_cons, h6]

theorem parse_count_escaped_le (line : List Char) : parse_count_escaped line ≤ line.length := by
  unfold parse_count_escaped
  calc (line.reverse.takeWhile (fun c => c == '\\')).length
      ≤ line.reverse.length := (List.takeWhile_sublist _).length_le
    _ = line.length := List.length_reverse _

theorem take_joined (buffer line : List Char) (k : Nat) (hk : k ≤ line.length) :
    (buffer ++ line).take (buffer.length + line.length - k) =
      buffer ++ line.take (line.length - k) := by
  rw [List.take_append_eq_append_take, List.take_of_length_le (by omega)]
  congr 2
  omega

/-- One iteration of the loop on a physical line that ends in a newline and fits the
buffer. -/
theorem loop_line (env : Env σ τ) (fuel steps : Nat) (line rest buffer : List Char) (n : Nat)
    (s : St σ τ) (hline : '\n' ∉ line) (hlen : buffer.length + line.length < 4095) :
    parse_command_file_loop env fuel (steps + 1) ⟨line ++ '\n' :: rest, false⟩ buffer n s =
      if parse_count_escaped line % 2 = 1 then
        parse_command_file_loop env fuel steps ⟨rest, false⟩
          (buffer ++ line.take (line.length - parse_count_escaped line))
          ((n + 1) % 4294967296) s
      else
        match parse_command env fuel env.make_target (buffer ++ line) s with
        | (.ok _, s1) =>
          parse_command_file_loop env fuel steps ⟨rest, false⟩ [] ((n + 1) % 4294967296) s1
        | (.throw e, s1) => ((.throw e, (n + 1) % 4294967296, ⟨rest, false⟩), s1)
        | (.out_of_fuel, s1) => ((.out_of_fuel, (n + 1) % 4294967296, ⟨rest, false⟩), s1) := by
  have hg : getline (4096 - buffer.length) (line ++ '\n' :: rest)
      = ⟨line, line.length + 1, false, false, rest⟩ := by
    unfold getline
    rw [getline_scan_line line rest hline _ (by omega)]
    simp
  have hne : ¬ buffer.length + line.length = 4095 := by omega
  rw [parse_command_file_loop]
  simp only [hg, Bool.false_eq_true, ↓reduceIte, Nat.add_sub_cancel, Nat.add_zero,
    List.take_length, beq_iff_eq, Nat.add_one_ne_zero, hne, Nat.and_one_is_mod,
    take_joined buffer line _ (parse_count_escaped_le line), bne_iff_ne, ne_eq]
  have h2 : parse_count_escaped line % 2 = 0 ∨ parse_count_escaped line % 2 = 1 := by omega
  rcases h2 with h2 | h2 <;> simp [h2]

/-- The loop on an empty stream: `getline` extracts nothing and fails, the loop ends. -/
theorem loop_end (env : Env σ τ) (fuel steps : Nat) (buffer : List Char) (n : Nat)
    (s : St σ τ) :
    parse_command_file_loop env fuel (steps + 1) ⟨[], false⟩ buffer n s =
      ((.ok (), n, ⟨[], true⟩), s) := by
  rw [parse_command_file_loop]
  cases h : 4096 - buffer.length - 1 <;> simp [getline, getline_scan, h]

/-- The loop on a physical line that does not fit the buffer: `getline` stops with
`failbit` after filling the room, and the loop ends as it does at the end of the file. -/
theorem loop_overlong (env : Env σ τ) (fuel steps : Nat) (pre post buffer : List Char)
    (c : Char) (n : Nat) (s : St σ τ) (hpre : '\n' ∉ pre) (hc : c ≠ '\n')
    (hlen : pre.length = 4096 - buffer.length - 1) :
    parse_command_file_loop env fuel (steps + 1) ⟨pre ++ c :: post, false⟩ buffer n s =
      ((.ok (), n, ⟨c :: post, false⟩), s) := by
  have hg : getline (4096 - buffer.length) (pre ++ c :: post)
      = ⟨pre, pre.length, false, true, c :: post⟩ := by
    unfold getline
    rw [getline_scan_limit pre post c hpre hc _ hlen]
    simp
  rw [parse_command_file_loop]
  simp [hg]

/-- The loop on a physical line that fills the buffer exactly: the length check throws. -/
theorem loop_exact (env : Env σ τ) (fuel steps : Nat) (line rest buffer : List Char) (n : Nat)
    (s : St σ τ) (hline : '\n' ∉ line) (hlen : buffer.length + line.length = 4095) :
    parse_command_file_loop env fuel (steps + 1) ⟨line ++ '\n' :: rest, false⟩ buffer n s =
      ((.throw ⟨.input_error, "Exceeded max line length.".toList⟩, (n + 1) % 4294967296,
        ⟨rest, false⟩), s) := by
  have hg : getline (4096 - buffer.length) (line ++ '\n' :: rest)
      = ⟨line, line.length + 1, false, false, rest⟩ := by
    unfold getline
    rw [getline_scan_line line rest hline _ (by omega)]
    simp
  rw [parse_command_file_loop]
  simp [hg, hlen]

/-- One iteration of the loop on the last physical line of a file that does not end in a
newline. -/
theorem loop_last_line (env : Env σ τ) (fuel steps : Nat) (line buffer : List Char) (n : Nat)
    (s : St σ τ) (hline : '\n' ∉ line) (hne : line ≠ [])
    (hlen : buffer.length + line.length < 4095) :
    parse_command_file_loop env fuel (steps + 2) ⟨line, false⟩ buffer n s =
      if parse_count_escaped line % 2 = 1 then
        ((.ok (), (n + 1) % 4294967296, ⟨[], true⟩), s)
      else
        match parse_command env fuel env.make_target (buffer ++ line) s with
        | (.ok _, s1) => ((.ok (), (n + 1) % 4294967296, ⟨[], true⟩), s1)
        | (.throw e, s1) => ((.throw e, (n + 1) % 4294967296, ⟨[], true⟩), s1)
        | (.out_of_fuel, s1) => ((.out_of_fuel, (n + 1) % 4294967296, ⟨[], true⟩), s1) := by
  have hpos : line.length ≠ 0 := by simpa [List.length_eq_zero] using hne
  have hg : getline (4096 - buffer.length) line = ⟨line, line.length, true, false, []⟩ := by
    unfold getline
    rw [getline_scan_eof line hline _ (by omega)]
    simp [hpos]
  have hne2 : ¬ buffer.length + line.length = 4095 := by omega
  have hl : line.length - 1 + 1 = line.length := by omega
  have hstop : ∀ (b : List Char) (k : Nat) (st : St σ τ),
      parse_command_file_loop env fuel (steps + 1) ⟨[], true⟩ b k st
        = ((.ok (), k, ⟨[], true⟩), st) := by
    intro b k st
    rw [parse_command_file_loop]
    simp
  rw [parse_command_file_loop]
  simp only [hg, Bool.false_eq_true, ↓reduceIte, hl, List.take_length, beq_iff_eq, hpos,
    hne2, Nat.and_one_is_mod, bne_iff_ne, ne_eq, hstop]
  have h2 : parse_count_escaped line % 2 = 0 ∨ parse_count_escaped line % 2 = 1 := by omega
  rcases h2 with h2 | h2
  · simp only [h2, not_true_eq_false, ↓reduceIte, zero_ne_one]
  · simp [h2]

/-- The loop on a last physical line that the end of the file ends and that fills the
buffer exactly: the length check throws. -/
theorem loop_exact_eof (env : Env σ τ) (fuel steps : Nat) (line buffer : List Char) (n : Nat)
    (s : St σ τ) (hline : '\n' ∉ line) (hne : line ≠ [])
    (hlen : buffer.length + line.length = 4095) :
    parse_command_file_loop env fuel (steps + 1) ⟨line, false⟩ buffer n s =
      ((.throw ⟨.input_error, "Exceeded max line length.".toList⟩, (n + 1) % 4294967296,
        ⟨[], true⟩), s) := by
  have hpos : line.length ≠ 0 := by simpa [List.length_eq_zero] using hne
  have hg : getline (4096 - buffer.length) line = ⟨line, line.length, true, false, []⟩ := by
    unfold getline
    rw [getline_scan_eof line hline _ (by omega)]
    simp [hpos]
  have hl : line.length - 1 + 1 = line.length := by omega
  rw [parse_command_file_loop]
  simp [hg, hl, hlen, hpos]

end Loader

section LoaderClaims

variable {σ τ : Type}

theorem parse_count_escaped_suffix (line : List Char) :
    line.take (line.length - parse_count_escaped line)
      ++ List.replicate (parse_count_escaped line) '\\' = line := by
  have key : ∀ (d l : List Char) (k : Nat), l = d ++ List.replicate k '\\' →
      l.take (l.length - k) ++ List.replicate k '\\' = l := by
    intro d l k h
    subst h
    simp
  have hsplit := List.takeWhile_append_dropWhile (fun c => c == '\\') line.reverse
  have hrep : line.reverse.takeWhile (fun c => c == '\\')
      = List.replicate (parse_count_escaped line) '\\' := by
    rw [List.eq_replicate_iff]
    refine ⟨rfl, ?_⟩
    intro b hb
    have := List.mem_takeWhile_imp hb
    simpa using this
  have h := congrArg List.reverse hsplit
  rw [List.reverse_append, List.reverse_reverse, hrep, List.reverse_replicate] at h
  exact key _ line _ h.symm

theorem parse_command_file_continued_example (env : Env σ τ) (fuel : Nat) (path : List Char)
    (s : St σ τ) :
    parse_command_file env fuel path (some "a = \\\nb\n".toList) s =
      match parse_command env fuel env.make_target "a = b".toList s with
      | (.ok _, s1) => (.ok true, s1)
      | (.throw e, s1) =>
        if e.kind.is_input_error then
          (.throw ⟨.input_error, option_file_error path 2 e⟩, s1)
        else (.throw e, s1)
      | (.out_of_fuel, s1) => (.out_of_fuel, s1) := by
  have h1 := loop_line env fuel 8 "a = \\".toList "b\n".toList [] 0 s
    (by decide) (by decide)
  rw [if_pos (by decide)] at h1
  have h2 := loop_line env fuel 7 "b".toList [] "a = ".toList 1 s (by decide) (by decide)
  rw [if_neg (by decide)] at h2
  have h3 : parse_command_file_loop env fuel 9 ⟨"a = \\\nb\n".toList, false⟩ [] 0 s =
      match parse_command env fuel env.make_target "a = b".toList s with
      | (.ok _, s1) => parse_command_file_loop env fuel 7 ⟨[], false⟩ [] 2 s1
      | (.throw e, s1) => ((.throw e, 2, ⟨[], false⟩), s1)
      | (.out_of_fuel, s1) => ((.out_of_fuel, 2, ⟨[], false⟩), s1) :=
    h1.trans h2
  show (match parse_command_file_loop env fuel 9 ⟨"a = \\\nb\n".toList, false⟩ [] 0 s with
    | ((.ok _, _), s1) => (Outcome.ok true, s1)
    | ((.throw e, lineNumber, _), s1) =>
      if e.kind.is_input_error then
        (.throw ⟨.input_error, option_file_error path lineNumber e⟩, s1)
      else (.throw e, s1)
    | ((.out_of_fuel, _), s1) => (.out_of_fuel, s1)) = _
  rw [h3]
  rcases parse_command env fuel env.make_target "a = b".toList s with ⟨r, s1⟩
  cases r with
  | ok a => simp only [loop_end env fuel 6 [] 2 s1]
  | throw e => rfl
  | out_of_fuel => rfl

theorem parse_command_file_plain_example (env : Env σ τ) (fuel : Nat) (path : List Char)
    (s : St σ τ) :
    parse_command_file env fuel path (some "a = b\n".toList) s =
      match parse_command env fuel env.make_target "a = b".toList s with
      | (.ok _, s1) => (.ok true, s1)
      | (.throw e, s1) =>
        if e.kind.is_input_error then
          (.throw ⟨.input_error, option_file_error path 1 e⟩, s1)
        else (.throw e, s1)
      | (.out_of_fuel, s1) => (.out_of_fuel, s1) := by
  have h2 := loop_line env fuel 6 "a = b".toList [] [] 0 s (by decide) (by decide)
  rw [if_neg (by decide)] at h2
  have h3 : parse_command_file_loop env fuel 7 ⟨"a = b\n".toList, false⟩ [] 0 s =
      match parse_command env fuel env.make_target "a = b".toList s with
      | (.ok _, s1) => parse_command_file_loop env fuel 6 ⟨[], false⟩ [] 1 s1
      | (.throw e, s1) => ((.throw e, 1, ⟨[], false⟩), s1)
      | (.out_of_fuel, s1) => ((.out_of_fuel, 1, ⟨[], false⟩), s1) := h2
  show (match parse_command_file_loop env fuel 7 ⟨"a = b\n".toList, false⟩ [] 0 s with
    | ((.ok _, _), s1) => (Outcome.ok true, s1)
    | ((.throw e, lineNumber, _), s1) =>
      if e.kind.is_input_error then
        (.throw ⟨.input_error, option_file_error path lineNumber e⟩, s1)
      else (.throw e, s1)
    | ((.out_of_fuel, _), s1) => (.out_of_fuel, s1)) = _
  rw [h3]
  rcases parse_command env fuel env.make_target "a = b".toList s with ⟨r, s1⟩
  cases r with
  | ok a => simp only [loop_end env fuel 5 [] 1 s1]
  | throw e => rfl
  | out_of_fuel => rfl

/-- C6 as amended.  In the loop of `parse_command_file`, a physical line (ended by a
newline) with which the text gathered for the logical line stays shorter than 4095
characters and that has an odd number of trailing backslashes only extends the buffer
of the logical line, by the line without these backslashes, and the next physical line
is read into the same buffer; a physical line with an even number of trailing
backslashes (zero included) ends the logical line: the buffer and the whole line are
handed to `parse_command` and the next logical line starts with an empty buffer (a last
line that the end of the file ends is handed over in the same way).  So
the source whose first line is `a = ` followed by one backslash and whose second line
is `b` hands `parse_command` the one logical line `a = b`, as the source `a = b` does;
the two runs differ only in the line number an error message would carry.  A physical
line that brings the gathered text to exactly 4095 characters is neither joined nor
handed over: the length check throws `Exceeded max line length.`. -/
theorem parse_command_file_joins_continued_lines
    (env : Env σ τ) (fuel steps : Nat) (line rest buffer : List Char) (n : Nat)
    (s : St σ τ) (path : List Char) (hline : '\n' ∉ line)
    (hlen : buffer.length + line.length < 4095) :
    (parse_count_escaped line % 2 = 1 →
      parse_command_file_loop env fuel (steps + 1) ⟨line ++ '\n' :: rest, false⟩ buffer n s =
        parse_command_file_loop env fuel steps ⟨rest, false⟩
          (buffer ++ line.take (line.length - parse_count_escaped line))
          ((n + 1) % 4294967296) s) ∧
    line.take (line.length - parse_count_escaped line)
      ++ List.replicate (parse_count_escaped line) '\\' = line ∧
    (parse_count_escaped line % 2 = 0 →
      parse_command_file_loop env fuel (steps + 1) ⟨line ++ '\n' :: rest, false⟩ buffer n s =
        match parse_command env fuel env.make_target (buffer ++ line) s with
        | (.ok _, s1) =>
          parse_command_file_loop env fuel steps ⟨rest, false⟩ [] ((n + 1) % 4294967296) s1
        | (.throw e, s1) => ((.throw e, (n + 1) % 4294967296, ⟨rest, false⟩), s1)
        | (.out_of_fuel, s1) =>
          ((.out_of_fuel, (n + 1) % 4294967296, ⟨rest, false⟩), s1)) ∧
    (parse_count_escaped line % 2 = 0 → line ≠ [] →
      parse_command_file_loop env fuel (steps + 2) ⟨line, false⟩ buffer n s =
        match parse_command env fuel env.make_target (buffer ++ line) s with
        | (.ok _, s1) => ((.ok (), (n + 1) % 4294967296, ⟨[], true⟩), s1)
        | (.throw e, s1) => ((.throw e, (n + 1) % 4294967296, ⟨[], true⟩), s1)
        | (.out_of_fuel, s1) => ((.out_of_fuel, (n + 1) % 4294967296, ⟨[], true⟩), s1)) ∧
    parse_command_file env fuel path (some "a = \\\nb\n".toList) s =
      single_line_outcome path 2 (parse_command env fuel env.make_target "a = b".toList s) ∧
    parse_command_file env fuel path (some "a = b\n".toList) s =
      single_line_outcome path 1 (parse_command env fuel env.make_target "a = b".toList s) ∧
    (∀ full : List Char, '\n' ∉ full → buffer.length + full.length = 4095 →
      parse_command_file_loop env fuel (steps + 1) ⟨full ++ '\n' :: rest, false⟩ buffer n s =
        ((.throw ⟨.input_error, "Exceeded max line length.".toList⟩, (n + 1) % 4294967296,
          ⟨rest, false⟩), s)) := by
  refine ⟨?_, parse_count_escaped_suffix line, ?_, ?_, ?_, ?_,
    fun full hfull hfill => loop_exact env fuel steps full rest buffer n s hfull hfill⟩
  · intro hodd
    rw [loop_line env fuel steps line rest buffer n s hline hlen, if_pos hodd]
  · intro heven
    rw [loop_line env fuel steps line rest buffer n s hline hlen, if_neg (by omega)]
  · intro heven hne
    rw [loop_last_line env fuel steps line buffer n s hline hne hlen, if_neg (by omega)]
  · rw [parse_command_file_continued_example]
    rcases parse_command env fuel env.make_target "a = b".toList s with ⟨r, s1⟩
    cases r <;> rfl
  · rw [parse_command_file_plain_example]
    rcases parse_command env fuel env.make_target "a = b".toList s with ⟨r, s1⟩
    cases r <;> rfl

end LoaderClaims

section LoaderLines

variable {σ τ : Type}

theorem getline_cases (n : Nat) (input : List Char) :
    (getline n input).failbit = true ∨
    ((getline n input).failbit = false ∧ (getline n input).eofbit = false ∧
      input = (getline n input).stored ++ '\n' :: (getline n input).rest ∧
      '\n' ∉ (getline n input).stored ∧
      (getline n input).gcount = (getline n input).stored.length + 1) ∨
    ((getline n input).failbit = false ∧ (getline n input).eofbit = true ∧
      input = (getline n input).stored ∧ (getline n input).rest = [] ∧
      '\n' ∉ (getline n input).stored ∧
      (getline n input).gcount = (getline n input).stored.length ∧
      (getline n input).stored ≠ []) := by
  unfold getline
  simp only
  rcases getline_scan_cases input (n - 1) with h | ⟨h1, h2, h3, h4, h5⟩ | ⟨h1, h2, h3, h4, h5, h6⟩
  · exact Or.inl (by simp [h])
  · exact Or.inr (Or.inl ⟨by simp [h1, h5], h2, h3, h4, h5⟩)
  · by_cases hs : (getline_scan (n - 1) input).stored = []
    · exact Or.inl (by simp [h6, hs])
    · refine Or.inr (Or.inr ⟨?_, h2, h3, h4, h5, h6, hs⟩)
      have : (getline_scan (n - 1) input).stored.length ≠ 0 := by
        simpa [List.length_eq_zero] using hs
      simp [h1, h6, this]

theorem physical_lines_from_line (line rest : List Char) (hline : '\n' ∉ line) :
    ∀ acc, physical_lines_from acc (line ++ '\n' :: rest)
      = (acc ++ line) :: physical_lines_from [] rest := by
  induction line with
  | nil => intro acc; simp [physical_lines_from]
  | cons c l ih =>
    intro acc
    have hc : (c == '\n') = false := by
      simp only [beq_eq_false_iff_ne, ne_eq]
      intro h
      exact hline (by simp [h])
    have hl : '\n' ∉ l := fun h => hline (List.mem_cons_of_mem _ h)
    rw [List.cons_append, physical_lines_from]
    simp only [hc, Bool.false_eq_true, ↓reduceIte]
    rw [ih hl]
    simp

theorem physical_lines_from_last (line : List Char) (hline : '\n' ∉ line) :
    ∀ acc, acc ++ line ≠ [] → physical_lines_from acc line = [acc ++ line] := by
  induction line with
  | nil =>
    intro acc hne
    have : acc ≠ [] := by simpa using hne
    simp [physical_lines_from, this]
  | cons c l ih =>
    intro acc _
    have hc : (c == '\n') = false := by
      simp only [beq_eq_false_iff_ne, ne_eq]
      intro h
      exact hline (by simp [h])
    have hl : '\n' ∉ l := fun h => hline (List.mem_cons_of_mem _ h)
    rw [physical_lines_from]
    simp only [hc, Bool.false_eq_true, ↓reduceIte]
    rw [ih hl (acc ++ [c]) (by simp)]
    simp

theorem loop_at_eof_no_throw (env : Env σ τ) (fuel steps : Nat) (rest buffer : List Char)
    (n : Nat) (s : St σ τ) (e : Error) (n1 : Nat) (file1 : FileStream) (s1 : St σ τ) :
    parse_command_file_loop env fuel steps ⟨rest, true⟩ buffer n s
      ≠ ((.throw e, n1, file1), s1) := by
  cases steps <;> simp [parse_command_file_loop]

/-- When the loop of `parse_command_file` is left by an exception, `lineNumber` is the
number of physical lines read so far, and an exception of the `input_error` family is
the length error or was thrown by `parse_command` on the logical line just completed. -/
theorem loop_throw_line_number (env : Env σ τ) (fuel : Nat) :
    ∀ (steps : Nat) (file : FileStream) (buffer : List Char) (n : Nat) (s : St σ τ)
      (e : Error) (n1 : Nat) (file1 : FileStream) (s1 : St σ τ),
      file.eofbit = false →
      parse_command_file_loop env fuel steps file buffer n s = ((.throw e, n1, file1), s1) →
      ∃ consumed : List Char,
        file.rest = consumed ++ file1.rest ∧
        1 ≤ (physical_lines consumed).length ∧
        n1 = (n + (physical_lines consumed).length) % 4294967296 ∧
        (e.kind.is_input_error = true →
          e = ⟨.input_error, "Exceeded max line length.".toList⟩ ∨
          ∃ line sa, parse_command env fuel env.make_target line sa = (.throw e, s1)) := by
  intro steps
  induction steps with
  | zero =>
    intro file buffer n s e n1 file1 s1 _ h
    simp [parse_command_file_loop] at h
  | succ k ih =>
    intro file buffer n s e n1 file1 s1 heof h
    rw [parse_command_file_loop] at h
    simp only [heof, Bool.false_eq_true, ↓reduceIte] at h
    have hcases := getline_cases (4096 - buffer.length) file.rest
    generalize getline (4096 - buffer.length) file.rest = g at h hcases
    rcases hcases with hf | ⟨hf, he, hin, hnl, hcount⟩ | ⟨hf, he, hin, hrest, hnl, hcount, hne⟩
    · simp [hf] at h
    · -- the line ends in a newline
      have hpl : ∀ more, physical_lines (g.stored ++ '\n' :: more)
          = g.stored :: physical_lines more := by
        intro more
        unfold physical_lines
        rw [physical_lines_from_line g.stored more hnl]
        simp
      simp only [hf, he, hcount, Bool.false_eq_true, ↓reduceIte, Nat.add_sub_cancel,
        Nat.add_zero, List.take_length, beq_iff_eq, Nat.add_one_ne_zero] at h
      split at h
      · -- the length check throws
        simp only [Prod.mk.injEq, Outcome.throw.injEq] at h
        obtain ⟨⟨rfl, rfl, rfl⟩, rfl⟩ := h
        refine ⟨g.stored ++ ['\n'], ?_, ?_, ?_, fun _ => Or.inl rfl⟩
        · rw [hin]; simp
        · rw [hpl]; simp
        · rw [hpl]; simp [physical_lines, physical_lines_from]
      · split at h
        · -- continuation
          obtain ⟨consumed, h1, h2, h3, h4⟩ := ih _ _ _ _ _ _ _ _ rfl h
          refine ⟨g.stored ++ '\n' :: consumed, ?_, ?_, ?_, h4⟩
          · rw [hin]; simp at h1; simp [h1]
          · rw [hpl]; simp
          · rw [hpl, h3]; simp only [List.length_cons]; omega
        · -- a logical line is complete
          split at h
          · rename_i r s2 hp
            obtain ⟨consumed, h1, h2, h3, h4⟩ := ih _ _ _ _ _ _ _ _ rfl h
            refine ⟨g.stored ++ '\n' :: consumed, ?_, ?_, ?_, h4⟩
            · rw [hin]; simp at h1; simp [h1]
            · rw [hpl]; simp
            · rw [hpl, h3]; simp only [List.length_cons]; omega
          · rename_i e2 s2 hp
            simp only [Prod.mk.injEq, Outcome.throw.injEq] at h
            obtain ⟨⟨rfl, rfl, rfl⟩, rfl⟩ := h
            refine ⟨g.stored ++ ['\n'], ?_, ?_, ?_, fun _ => Or.inr ⟨_, _, hp⟩⟩
            · rw [hin]; simp
            · rw [hpl]; simp
            · rw [hpl]; simp [physical_lines, physical_lines_from]
          · simp at h
    · -- the last line, ended by the end of the file
      have hpl : physical_lines g.stored = [g.stored] := by
        unfold physical_lines
        rw [physical_lines_from_last g.stored hnl [] (by simpa using hne)]
        simp
      have hpos : g.stored.length ≠ 0 := by simpa [List.length_eq_zero] using hne
      simp only [hf, he, hcount, Bool.false_eq_true, ↓reduceIte, beq_iff_eq, hpos] at h
      have hlen : g.stored.length - 1 + 1 = g.stored.length := by omega
      simp only [hlen, List.take_length] at h
      split at h
      · simp only [Prod.mk.injEq, Outcome.throw.injEq] at h
        obtain ⟨⟨rfl, rfl, rfl⟩, rfl⟩ := h
        refine ⟨g.stored, ?_, ?_, ?_, fun _ => Or.inl rfl⟩
        · rw [hin, hrest]; simp
        · rw [hpl]; simp
        · rw [hpl]; simp
      · split at h
        · exact absurd h (loop_at_eof_no_throw env fuel k _ _ _ _ _ _ _ _)
        · split at h
          · exact absurd h (loop_at_eof_no_throw env fuel k _ _ _ _ _ _ _ _)
          · rename_i e2 s2 hp
            simp only [Prod.mk.injEq, Outcome.throw.injEq] at h
            obtain ⟨⟨rfl, rfl, rfl⟩, rfl⟩ := h
            refine ⟨g.stored, ?_, ?_, ?_, fun _ => Or.inr ⟨_, _, hp⟩⟩
            · rw [hin, hrest]; simp
            · rw [hpl]; simp
            · rw [hpl]; simp
          · simp at h

end LoaderLines

section LoaderClaims2

variable {σ τ : Type}

/-- C6 as amended, on the sample environment: the line `a = ` ending in one backslash
has an odd count and no newline, and the two-line source dispatches `a` with the argument
`b`, exactly as the one-line source does. -/
theorem parse_command_file_joins_continued_lines_witness :
    parse_command_file sample_env 2 "rc".toList (some "a = \\\nb\n".toList) sample_state =
      (.ok true, ⟨1, [], [⟨"a".toList, .string "b".toList, (), .ok (.string "b".toList)⟩]⟩) ∧
    parse_command_file sample_env 2 "rc".toList (some "a = b\n".toList) sample_state =
      (.ok true, ⟨1, [], [⟨"a".toList, .string "b".toList, (), .ok (.string "b".toList)⟩]⟩) :=
  have h := parse_command_file_joins_continued_lines sample_env 2 8 "a = \\".toList
    "b\n".toList [] 0 sample_state "rc".toList (by decide) (by decide)
  ⟨h.2.2.2.2.1.trans rfl, h.2.2.2.2.2.1.trans rfl⟩

/-- C7 (the code at the failing input).  A file whose first physical line has 4096
characters (one more than the buffer can take) is loaded with success: `getline` fills
the buffer and sets `failbit`, the loop ends as at the end of the file, nothing is
parsed or dispatched, whatever follows the line is ignored, and the result is `true`.
Only a line of exactly 4095 characters reaches the length check and throws. -/
theorem parse_command_file_overlong_line_returns_true
    (env : Env σ τ) (fuel : Nat) (path rest : List Char) (s : St σ τ) :
    parse_command_file env fuel path (some (List.replicate 4096 'a' ++ '\n' :: rest)) s =
      (.ok true, s) ∧
    parse_command_file env fuel path (some (List.replicate 4095 'a' ++ '\n' :: rest)) s =
      (.throw ⟨.input_error,
        option_file_error path 1 ⟨.input_error, "Exceeded max line length.".toList⟩⟩, s) := by
  have hnl : ∀ k, '\n' ∉ List.replicate k 'a' := by
    intro k h
    have := List.eq_of_mem_replicate h
    exact absurd this (by decide)
  constructor
  · have htext : List.replicate 4096 'a' ++ '\n' :: rest
        = List.replicate 4095 'a' ++ 'a' :: '\n' :: rest := by
      rw [show (4096 : Nat) = 4095 + 1 from rfl, List.replicate_succ', List.append_assoc]
      rfl
    unfold parse_command_file
    simp only
    rw [htext, loop_overlong env fuel _ (List.replicate 4095 'a') ('\n' :: rest) [] 'a' 0 s
      (hnl 4095) (by decide) (by rw [List.length_replicate]; rfl)]
  · unfold parse_command_file
    simp only
    rw [loop_exact env fuel _ (List.replicate 4095 'a') rest [] 0 s (hnl 4095)
      (by rw [List.length_replicate]; rfl)]
    rfl

/-- C8 fails as stated: on the sample environment the file whose first physical line is
`b` followed by one backslash and whose second physical line is empty has one logical
line, `b`, which `parse_command` rejects; the message of `parse_command_file` names
line 2, not line 1. -/
theorem parse_command_file_reports_physical_line :
    logical_lines "b\\\n\n".toList = ["b".toList] ∧
    parse_command sample_env 1 () "b".toList sample_state =
      (.throw ⟨.input_error, "Could not find '=' in command 'b'.".toList⟩, sample_state) ∧
    parse_command_file sample_env 1 "rc".toList (some "b\\\n\n".toList) sample_state =
      (.throw ⟨.input_error,
        "Error in option file: rc:2: Could not find '=' in command 'b'.".toList⟩,
        sample_state) ∧
    "Error in option file: rc:2: Could not find '=' in command 'b'.".toList ≠
      "Error in option file: rc:1: Could not find '=' in command 'b'.".toList :=
  ⟨by decide, rfl, rfl, by decide⟩

/-- C8 as amended.  When the loop of `parse_command_file` is left by an exception of the
`input_error` family (the length error, or an error thrown by `parse_command` on a
logical line), `parse_command_file` throws an `input_error` whose message is
`Error in option file: <path>:<n>: <original message>` cut to 2047 characters, where
`n` is the number of physical lines read so far: the 1-based number of the last
physical line of the failing logical line, every joined physical line counted. -/
theorem parse_command_file_error_names_physical_line
    (env : Env σ τ) (fuel : Nat) (path text : List Char) (s s1 : St σ τ) (e : Error)
    (n : Nat) (file1 : FileStream)
    (hrun : parse_command_file_loop env fuel (text.length + 1) ⟨text, false⟩ [] 0 s
      = ((.throw e, n, file1), s1))
    (hkind : e.kind.is_input_error = true) :
    parse_command_file env fuel path (some text) s =
      (.throw ⟨.input_error,
        ("Error in option file: ".toList ++ c_str path ++ ":".toList ++ Nat.toDigits 10 n
          ++ ": ".toList ++ c_str e.msg).take 2047⟩, s1) ∧
    (∃ consumed : List Char, text = consumed ++ file1.rest ∧
      1 ≤ (physical_lines consumed).length ∧
      n = (physical_lines consumed).length % 4294967296) ∧
    (e = ⟨.input_error, "Exceeded max line length.".toList⟩ ∨
      ∃ line sa, parse_command env fuel env.make_target line sa = (.throw e, s1)) := by
  obtain ⟨consumed, h1, h2, h3, h4⟩ :=
    loop_throw_line_number env fuel _ _ _ _ _ _ _ _ _ rfl hrun
  refine ⟨?_, ⟨consumed, h1, h2, by simpa using h3⟩, h4 hkind⟩
  unfold parse_command_file
  simp only [hrun, hkind, ↓reduceIte, option_file_error]

/-- C8 as amended, on the sample environment: in the file with the lines `a = 1` and
`b` the second line fails and the message names line 2. -/
theorem parse_command_file_error_names_physical_line_witness :
    parse_command_file sample_env 2 "rc".toList (some "a = 1\nb\n".toList) sample_state =
      (.throw ⟨.input_error,
        "Error in option file: rc:2: Could not find '=' in command 'b'.".toList⟩,
       ⟨1, [], [⟨"a".toList, .string "1".toList, (), .ok (.string "1".toList)⟩]⟩) :=
  (parse_command_file_error_names_physical_line sample_env 2 "rc".toList
    "a = 1\nb\n".toList sample_state
    ⟨1, [], [⟨"a".toList, .string "1".toList, (), .ok (.string "1".toList)⟩]⟩
    ⟨.input_error, "Could not find '=' in command 'b'.".toList⟩ 2 ⟨[], false⟩ rfl rfl).1.trans
    rfl

end LoaderClaims2

/-! ## The argument stack is touched by `command_function_call_object` only -/

section Stack

variable {σ τ α β : Type}

theorem keeps_stack_ret (a : α) : keeps_stack (ret a : Eval σ τ α) := fun _ => rfl

theorem keeps_stack_raise (e : Error) : keeps_stack (raise e : Eval σ τ α) := fun _ => rfl

theorem keeps_stack_and_then {m : Eval σ τ α} {f : α → Eval σ τ β} (hm : keeps_stack m)
    (hf : ∀ a, keeps_stack (f a)) : keeps_stack (and_then m f) := by
  intro s
  have h1 := hm s
  rcases h : m s with ⟨r, s1⟩
  rw [h] at h1
  cases r with
  | ok a =>
    rw [and_then_ok h]
    exact (hf a s1).trans h1
  | throw e =>
    rw [and_then_throw h]
    exact h1
  | out_of_fuel =>
    rw [and_then_out_of_fuel h]
    exact h1

theorem keeps_stack_call_command (env : Env σ τ) (key : List Char) (args : Object)
    (target : τ) : keeps_stack (call_command env key args target) := by
  intro s
  rw [call_command_eq]

theorem keeps_stack_execute_list {f : Object → Eval σ τ Object}
    (hf : ∀ o, keeps_stack (f o)) : ∀ items, keeps_stack (execute_list f items) := by
  intro items
  induction items with
  | nil => exact keeps_stack_ret _
  | cons itr rest ih =>
    have hrest : ∀ x : Object,
        keeps_stack (and_then (execute_list f rest) fun r => (ret (x :: r) : Eval σ τ _)) :=
      fun x => keeps_stack_and_then ih fun _ => keeps_stack_ret _
    cases itr with
    | list inner => exact hrest _
    | none => exact keeps_stack_and_then (hf _) fun x => hrest x
    | value v => exact keeps_stack_and_then (hf _) fun x => hrest x
    | string str => exact keeps_stack_and_then (hf _) fun x => hrest x
    | raw_string str => exact keeps_stack_and_then (hf _) fun x => hrest x
    | map entries => exact keeps_stack_and_then (hf _) fun x => hrest x
    | dict_key flags key obj => exact keeps_stack_and_then (hf _) fun x => hrest x

theorem keeps_stack_parse_command_with (env : Env σ τ) {execute : τ → Object → Eval σ τ Object}
    (hexec : ∀ t o, keeps_stack (execute t o)) (target : τ) (range : List Char) :
    keeps_stack (parse_command_with env execute target range) := by
  unfold parse_command_with
  split
  · exact keeps_stack_raise _
  · exact keeps_stack_ret _
  · exact keeps_stack_and_then (hexec _ _) fun _ =>
      keeps_stack_and_then (keeps_stack_call_command env _ _ _) fun _ => keeps_stack_ret _

theorem keeps_stack_execute (env : Env σ τ) :
    ∀ (fuel : Nat) (target : τ) (object : Object),
      keeps_stack (parse_command_execute env fuel target object) := by
  intro fuel
  induction fuel with
  | zero => intro target object s; rfl
  | succ k ih =>
    intro target object
    cases object with
    | none => exact keeps_stack_ret _
    | value v => exact keeps_stack_ret _
    | raw_string str => exact keeps_stack_ret _
    | map entries => exact keeps_stack_ret _
    | list items =>
      exact keeps_stack_and_then (keeps_stack_execute_list (ih target) items) fun _ =>
        keeps_stack_ret _
    | dict_key flags key obj =>
      rw [execute_dict_key]
      refine keeps_stack_and_then (ih target obj) fun a => ?_
      split
      · exact keeps_stack_call_command env _ _ _
      · exact keeps_stack_ret _
    | string str =>
      cases str with
      | nil => exact keeps_stack_ret _
      | cons c str =>
        by_cases hc : (c == '$') = true
        · have : parse_command_execute env (k + 1) target (.string (c :: str)) =
              and_then (parse_command_with env (parse_command_execute env k) target str)
                fun result => ret result.1 := by
            simp [parse_command_execute, hc]
          rw [this]
          exact keeps_stack_and_then (keeps_stack_parse_command_with env ih target str)
            fun _ => keeps_stack_ret _
        · have : parse_command_execute env (k + 1) target (.string (c :: str)) =
              ret (.string (c :: str)) := by
            simp [parse_command_execute, hc]
          rw [this]
          exact keeps_stack_ret _

theorem keeps_stack_parse_command (env : Env σ τ) (fuel : Nat) (target : τ)
    (range : List Char) : keeps_stack (parse_command env fuel target range) :=
  keeps_stack_parse_command_with env (keeps_stack_execute env fuel) target range

theorem keeps_stack_loop (env : Env σ τ) (fuel : Nat) (target : τ) :
    ∀ (steps : Nat) (result : Object) (range : List Char),
      keeps_stack (parse_command_multiple_loop env fuel target steps result range) := by
  intro steps
  induction steps with
  | zero =>
    intro result range
    cases range with
    | nil => exact keeps_stack_ret _
    | cons c first => intro s; rfl
  | succ k ih =>
    intro result range
    cases range with
    | nil => exact keeps_stack_ret _
    | cons c first =>
      rw [loop_cons]
      exact keeps_stack_and_then (keeps_stack_parse_command env fuel target _) fun r =>
        ih r.1 r.2

theorem keeps_stack_call_object_list {call : Object → Eval σ τ Object}
    (hcall : ∀ o, keeps_stack (call o)) :
    ∀ (items : List Object) (result : Object),
      keeps_stack (call_object_list call result items) := by
  intro items
  induction items with
  | nil => intro result; exact keeps_stack_ret _
  | cons itr rest ih =>
    intro result
    exact keeps_stack_and_then (hcall itr) fun r => ih r

theorem keeps_stack_call_object_map {call : Object → Eval σ τ Object}
    (hcall : ∀ o, keeps_stack (call o)) :
    ∀ entries : List (List Char × Object), keeps_stack (call_object_map call entries) := by
  intro entries
  induction entries with
  | nil => exact keeps_stack_ret _
  | cons itr rest ih => exact keeps_stack_and_then (hcall itr.2) fun _ => ih

theorem keeps_stack_call_object (env : Env σ τ) :
    ∀ (fuel : Nat) (command : Object) (target : τ),
      keeps_stack (call_object env fuel command target) := by
  intro fuel
  induction fuel with
  | zero => intro command target s; rfl
  | succ k ih =>
    intro command target
    cases command with
    | none => exact keeps_stack_ret _
    | value v => exact keeps_stack_ret _
    | raw_string str => exact keeps_stack_loop env k target k Object.none str
    | string str => exact keeps_stack_loop env k target k Object.none str
    | list items =>
      exact keeps_stack_call_object_list (fun o => ih o target) items Object.none
    | map entries =>
      exact keeps_stack_and_then (keeps_stack_call_object_map (fun o => ih o target) entries)
        fun _ => keeps_stack_ret _
    | dict_key flags key obj =>
      refine keeps_stack_and_then (keeps_stack_execute env k target _) fun tmp => ?_
      refine keeps_stack_and_then ?_ fun kv => keeps_stack_call_command env _ _ _
      unfold lift_except
      split
      · exact keeps_stack_ret _
      · exact keeps_stack_raise _

/-- The frame that `command_function_call_object` pushes for an argument value. -/
theorem pushed_frame_stack (args : Object) (s : St σ τ) :
    (match args with
      | .list items => push_stack items s
      | .none => push_stack [] s
      | single => push_stack [single] s).2.stack
      = argument_frame args :: s.stack := by
  cases args <;> rfl

/-- The argument stack after `command_function_call_object`: it is the stack before the
call when the call returns or ends with a `bencode_error`, and it still carries the
pushed frame when the call ends with any other exception. -/
theorem command_function_call_object_stack (env : Env σ τ) (fuel : Nat) (cmd : Object)
    (target : τ) (args : Object) (s : St σ τ) :
    match (command_function_call_object env fuel cmd target args s).1 with
    | .ok _ => (command_function_call_object env fuel cmd target args s).2.stack = s.stack
    | .throw e =>
      if e.kind.is_bencode_error then
        (command_function_call_object env fuel cmd target args s).2.stack = s.stack
      else
        (command_function_call_object env fuel cmd target args s).2.stack
          = argument_frame args :: s.stack
    | .out_of_fuel =>
      (command_function_call_object env fuel cmd target args s).2.stack
        = argument_frame args :: s.stack := by
  have hpush := pushed_frame_stack args s
  have hmark : (match args with
      | .list items => push_stack items s
      | .none => push_stack [] s
      | single => push_stack [single] s).1 = s.stack.length := by
    cases args <;> rfl
  unfold command_function_call_object
  simp only
  generalize (match args with
      | .list items => push_stack items s
      | .none => push_stack [] s
      | single => push_stack [single] s) = pushed at hpush hmark
  have hkeep := keeps_stack_call_object env fuel cmd target pushed.2
  rcases hrun : call_object env fuel cmd target pushed.2 with ⟨r, s1⟩
  rw [hrun] at hkeep
  have hpop : (pop_stack pushed.1 s1).stack = s.stack := by
    unfold pop_stack
    simp only at hkeep ⊢
    rw [hkeep, hpush, hmark]
    simp
  cases r with
  | ok v => simpa using hpop
  | throw e =>
    by_cases hk : e.kind.is_bencode_error = true
    · simpa [hk] using hpop
    · simp only [hk, Bool.false_eq_true, ↓reduceIte]
      exact hkeep.trans hpush
  | out_of_fuel => exact hkeep.trans hpush

end Stack

/-! ## The grammar of one command line -/

section Grammar

variable {σ τ : Type}

theorem all_space_iff (blanks : List Char) :
    blanks.all command_map_is_space = true ↔ ∀ c ∈ blanks, command_map_is_space c = true := by
  simp [List.all_eq_true]

theorem skip_blanks (blanks rest : List Char)
    (h : blanks.all command_map_is_space = true) :
    (blanks ++ rest).dropWhile command_map_is_space = rest.dropWhile command_map_is_space :=
  List.dropWhile_append_of_pos ((all_space_iff blanks).mp h)

theorem skip_blanks_stop (blanks rest : List Char) (c : Char)
    (h : blanks.all command_map_is_space = true) (hc : command_map_is_space c = false) :
    (blanks ++ c :: rest).dropWhile command_map_is_space = c :: rest := by
  rw [skip_blanks blanks _ h, List.dropWhile_cons_of_neg (by simp [hc])]

theorem alpha_not_space (c : Char) (h : c.isAlpha = true) : command_map_is_space c = false := by
  by_contra hs
  have hs1 : command_map_is_space c = true := by simpa using hs
  unfold command_map_is_space at hs1
  simp only [Bool.or_eq_true, beq_iff_eq] at hs1
  rcases hs1 with rfl | rfl <;> exact absurd h (by decide)

theorem alpha_not_hash (c : Char) (h : c.isAlpha = true) : (c == '#') = false := by
  by_contra hs
  have hs1 : c = '#' := by simpa using hs
  subst hs1
  exact absurd h (by decide)

theorem alpha_name_char (c : Char) (h : c.isAlpha = true) : command_name_char c = true := by
  unfold command_name_char Char.isAlphanum
  simp [h]

/-- What `parse_command_name` reads: the run of name characters at the front, cut at one
character less than the buffer holds. -/
theorem parse_command_name_reads (name rest : List Char) (c0 : Char) (tl : List Char)
    (hname : name = c0 :: tl) (halpha : c0.isAlpha = true)
    (hall : ∀ c ∈ name, command_name_char c = true) (hlen : name.length ≤ 127)
    (hstop : name.length = 127 ∨ ∀ c ∈ rest.head?, command_name_char c = false) :
    parse_command_name (name ++ rest) 128 = .ok (name, rest) := by
  have hp : (fun c : Char => c.isAlphanum || c == '_' || c == '.') = command_name_char := rfl
  have htake : ((name ++ rest).take (min (name ++ rest).length (128 - 1))).takeWhile
      command_name_char = name := by
    rcases hstop with h127 | hhead
    · have hmin : min (name ++ rest).length (128 - 1) = name.length := by
        rw [List.length_append]; omega
      rw [hmin, List.take_left' rfl, List.takeWhile_eq_self_iff]
      exact hall
    · have hmin : name.length ≤ min (name ++ rest).length (128 - 1) := by
        rw [List.length_append]; omega
      rw [List.take_append_eq_append_take, List.take_of_length_le hmin,
        List.takeWhile_append_of_pos hall]
      have : (List.take (min (name ++ rest).length (128 - 1) - name.length) rest).takeWhile
          command_name_char = [] := by
        cases rest with
        | nil => simp
        | cons d r =>
          have hd : command_name_char d = false := hhead d (by simp)
          cases hk : min (name ++ d :: r).length (128 - 1) - name.length with
          | zero => simp
          | succ k => simp [List.take, hd]
      rw [this, List.append_nil]
  subst hname
  unfold parse_command_name
  simp only [List.cons_append, halpha, Bool.not_true, Bool.false_eq_true, ↓reduceIte, hp]
  rw [← List.cons_append, htake]
  simp

/-- C12.  For every text that consists of spaces and tabs only, and for every text in
which spaces and tabs are followed by `#` and anything else, `parse_command` returns
`None` for every recursion bound, throws nothing and leaves the state as it is (nothing
is dispatched); the cursor returned is the end of the text in the first case and the
`#`, which is not consumed, in the second. -/
theorem parse_command_blank_or_comment
    (env : Env σ τ) (fuel : Nat) (target : τ) (blanks rest : List Char) (s : St σ τ)
    (hblank : blanks.all command_map_is_space = true) :
    parse_command env fuel target blanks s = (.ok (Object.none, []), s) ∧
    parse_command env fuel target (blanks ++ '#' :: rest) s
      = (.ok (Object.none, '#' :: rest), s) := by
  constructor
  · apply parse_command_of_head_none
    simp [parse_command_head, parse_command_key_blank blanks hblank]
  · apply parse_command_of_head_none
    have hk : parse_command_key (blanks ++ '#' :: rest) = .ok (Option.none, '#' :: rest) := by
      unfold parse_command_key
      simp only [skip_blanks_stop blanks rest '#' hblank (by decide)]
      rfl
    simp [parse_command_head, hk]

/-- C12 on the sample environment: the comment line of the spec returns `None`, the
cursor stands on the `#`, and the startup state is unchanged. -/
theorem parse_command_blank_or_comment_witness :
    parse_command sample_env 0 () "  ".toList sample_state
      = (.ok (Object.none, []), sample_state) ∧
    parse_command sample_env 0 () "  # nothing here\n".toList sample_state
      = (.ok (Object.none, "# nothing here\n".toList), sample_state) :=
  parse_command_blank_or_comment sample_env 0 () "  ".toList " nothing here\n".toList
    sample_state (by decide)

/-- C13.  When the first character after the leading spaces and tabs is neither `#` nor
alphabetic, `parse_command` throws `Invalid start of command name.` and leaves the state
as it is; when it is alphabetic, the part of `parse_command` that reads the name and the
`=` does not fail with that error. -/
theorem parse_command_invalid_start
    (env : Env σ τ) (fuel : Nat) (target : τ) (blanks rest : List Char) (c : Char)
    (s : St σ τ) (hblank : blanks.all command_map_is_space = true)
    (hspace : command_map_is_space c = false) (hhash : c ≠ '#') :
    (c.isAlpha = false →
      parse_command env fuel target (blanks ++ c :: rest) s =
        (.throw ⟨.input_error, "Invalid start of command name.".toList⟩, s)) ∧
    (c.isAlpha = true →
      parse_command_key (blanks ++ c :: rest)
        ≠ .error ⟨.input_error, "Invalid start of command name.".toList⟩) := by
  have hh : (c == '#') = false := by simpa using hhash
  constructor
  · intro hna
    apply parse_command_of_head_error
    have hk : parse_command_key (blanks ++ c :: rest)
        = .error ⟨.input_error, "Invalid start of command name.".toList⟩ := by
      unfold parse_command_key
      simp only [skip_blanks_stop blanks rest c hblank hspace, hh, Bool.false_eq_true,
        ↓reduceIte]
      simp [parse_command_name, hna]
    simp [parse_command_head, hk]
  · intro ha hk
    unfold parse_command_key at hk
    simp only [skip_blanks_stop blanks rest c hblank hspace, hh, Bool.false_eq_true,
      ↓reduceIte] at hk
    have hn : ∃ key first, parse_command_name (c :: rest) 128 = .ok (key, first) := by
      simp [parse_command_name, ha]
    obtain ⟨key, first, hn⟩ := hn
    simp only [hn] at hk
    split at hk
    · have := congrArg (fun e => e.msg.head?) (Except.error.inj hk)
      simp at this
    · split at hk
      · have := congrArg (fun e => e.msg.head?) (Except.error.inj hk)
        simp at this
      · cases hk

/-- C13 on the sample environment: a line that starts with a digit is rejected, nothing
is dispatched. -/
theorem parse_command_invalid_start_witness :
    parse_command sample_env 0 () " 1a = x".toList sample_state =
      (.throw ⟨.input_error, "Invalid start of command name.".toList⟩, sample_state) ∧
    parse_command_key " a1 = x".toList
      ≠ .error ⟨.input_error, "Invalid start of command name.".toList⟩ :=
  ⟨(parse_command_invalid_start sample_env 0 () " ".toList "a = x".toList '1' sample_state
      (by decide) (by decide) (by decide)).1 (by decide),
   (parse_command_invalid_start (σ := Nat) sample_env 0 () " ".toList "1 = x".toList 'a'
      sample_state (by decide) (by decide) (by decide)).2 (by decide)⟩

end Grammar

section Grammar2

variable {σ τ : Type}

theorem skip_none (tail : List Char)
    (h : ∀ c ∈ tail.head?, command_map_is_space c = false) :
    tail.dropWhile command_map_is_space = tail := by
  cases tail with
  | nil => rfl
  | cons c t => exact List.dropWhile_cons_of_neg (by simp [h c (by simp)])

/-- The name and `=` part of `parse_command` on a line that holds a name: the name read
and what follows the blanks after it decide the outcome. -/
theorem parse_command_key_reads (blanks name blanks2 tail : List Char) (c0 : Char)
    (tl : List Char) (hblank : blanks.all command_map_is_space = true)
    (hname : name = c0 :: tl) (halpha : c0.isAlpha = true)
    (hall : ∀ c ∈ name, command_name_char c = true) (hlen : name.length ≤ 127)
    (hblank2 : blanks2.all command_map_is_space = true)
    (hstop : name.length = 127 ∨ ∀ c ∈ (blanks2 ++ tail).head?, command_name_char c = false)
    (htail : ∀ c ∈ tail.head?, command_map_is_space c = false) :
    ((∀ c ∈ tail.head?, c ≠ '=') →
      parse_command_key (blanks ++ name ++ blanks2 ++ tail) = .error ⟨.input_error,
        "Could not find '=' in command '".toList ++ name ++ "'.".toList⟩) ∧
    (∀ after, tail = '=' :: after →
      parse_command_key (blanks ++ name ++ blanks2 ++ tail) = .ok (some name, after)) := by
  have hread := parse_command_name_reads name (blanks2 ++ tail) c0 tl hname halpha hall hlen
    hstop
  have hskip : (blanks ++ name ++ blanks2 ++ tail).dropWhile command_map_is_space
      = name ++ (blanks2 ++ tail) := by
    rw [List.append_assoc, List.append_assoc, hname, List.cons_append,
      skip_blanks_stop blanks _ c0 hblank (alpha_not_space c0 halpha)]
  have hunfold : parse_command_key (blanks ++ name ++ blanks2 ++ tail) =
      match tail.dropWhile command_map_is_space with
      | [] => .error ⟨.input_error,
          "Could not find '=' in command '".toList ++ name ++ "'.".toList⟩
      | c :: after =>
        if c != '=' then .error ⟨.input_error,
          "Could not find '=' in command '".toList ++ name ++ "'.".toList⟩
        else .ok (some name, after) := by
    unfold parse_command_key
    simp only [hskip]
    rw [hname, List.cons_append] at hread ⊢
    simp only [alpha_not_hash c0 halpha, Bool.false_eq_true, ↓reduceIte, hread,
      skip_blanks blanks2 tail hblank2]
  rw [hunfold, skip_none tail htail]
  constructor
  · intro hne
    cases tail with
    | nil => rfl
    | cons c after =>
      have hc : (c != '=') = true := by simpa using hne c (by simp)
      simp only [hc, ↓reduceIte]
  · intro after ht
    subst ht
    rfl

/-- C14.  On a line that holds, after the leading spaces and tabs, a command name, then
spaces and tabs, and then either nothing or a character other than `=`,
`parse_command` throws `Could not find '=' in command '<name>'.` with exactly the name
read, and leaves the state as it is; when that character is `=`, the name and `=` part
succeeds with that name and the cursor after the `=`. -/
theorem parse_command_missing_equals
    (env : Env σ τ) (fuel : Nat) (target : τ) (blanks name blanks2 tail : List Char)
    (c0 : Char) (tl : List Char) (s : St σ τ)
    (hblank : blanks.all command_map_is_space = true)
    (hname : name = c0 :: tl) (halpha : c0.isAlpha = true)
    (hall : ∀ c ∈ name, command_name_char c = true) (hlen : name.length ≤ 127)
    (hblank2 : blanks2.all command_map_is_space = true)
    (hstop : name.length = 127 ∨ ∀ c ∈ (blanks2 ++ tail).head?, command_name_char c = false)
    (htail : ∀ c ∈ tail.head?, command_map_is_space c = false) :
    ((∀ c ∈ tail.head?, c ≠ '=') →
      parse_command env fuel target (blanks ++ name ++ blanks2 ++ tail) s =
        (.throw ⟨.input_error,
          "Could not find '=' in command '".toList ++ name ++ "'.".toList⟩, s)) ∧
    (∀ after, tail = '=' :: after →
      parse_command_key (blanks ++ name ++ blanks2 ++ tail) = .ok (some name, after)) := by
  have hkey := parse_command_key_reads blanks name blanks2 tail c0 tl hblank hname halpha
    hall hlen hblank2 hstop htail
  constructor
  · intro hne
    apply parse_command_of_head_error
    simp only [parse_command_head, hkey.1 hne]
  · exact hkey.2

/-- C14 on the sample environment: `ab ` and `ab x` miss the `=` and the message names
`ab`; `ab =` passes the name and `=` part. -/
theorem parse_command_missing_equals_witness :
    parse_command sample_env 0 () " ab x".toList sample_state =
      (.throw ⟨.input_error, "Could not find '=' in command 'ab'.".toList⟩, sample_state) ∧
    parse_command_key " ab =1".toList = .ok (some "ab".toList, "1".toList) :=
  ⟨(parse_command_missing_equals sample_env 0 () " ".toList "ab".toList " ".toList
      "x".toList 'a' "b".toList sample_state (by decide) rfl (by decide) (by decide)
      (by decide) (by decide) (Or.inr (by decide)) (by decide)).1 (by decide),
   (parse_command_missing_equals (σ := Nat) sample_env 0 () " ".toList "ab".toList
      " ".toList "=1".toList 'a' "b".toList sample_state (by decide) rfl (by decide)
      (by decide) (by decide) (by decide) (Or.inr (by decide)) (by decide)).2
      "1".toList rfl⟩

/-- What the end-of-command part of `parse_command` does with the cursor the list parser
returns: blanks are skipped, the end of the text is accepted, a newline, a NUL or a `;`
is accepted and consumed, any other character is junk. -/
theorem parse_command_end_reads (blanks tail : List Char)
    (hblank : blanks.all command_map_is_space = true)
    (htail : ∀ c ∈ tail.head?, command_map_is_space c = false) :
    (tail = [] → parse_command_end (blanks ++ tail) = .ok []) ∧
    (∀ c after, tail = c :: after → (c = '\n' ∨ c = Char.ofNat 0 ∨ c = ';') →
      parse_command_end (blanks ++ tail) = .ok after) ∧
    (∀ c after, tail = c :: after → ¬ (c = '\n' ∨ c = Char.ofNat 0 ∨ c = ';') →
      parse_command_end (blanks ++ tail)
        = .error ⟨.input_error, "Junk at end of input.".toList⟩) := by
  have hunfold : parse_command_end (blanks ++ tail) =
      match tail.dropWhile command_map_is_space with
      | [] => .ok (tail.dropWhile command_map_is_space)
      | c :: after =>
        if !command_map_is_newline c then
          .error ⟨.input_error, "Junk at end of input.".toList⟩
        else .ok after := by
    unfold parse_command_end
    simp only [skip_blanks blanks tail hblank]
  rw [hunfold, skip_none tail htail]
  refine ⟨?_, ?_, ?_⟩
  · intro ht
    subst ht
    rfl
  · intro c after ht h
    subst ht
    have : command_map_is_newline c = true := by
      unfold command_map_is_newline
      simpa [Bool.or_assoc] using h
    simp [this]
  · intro c after ht h
    subst ht
    have : command_map_is_newline c = false := by
      unfold command_map_is_newline
      simpa [Bool.or_assoc] using h
    simp [this]

/-- C15 fails as stated: on the sample environment, in the text `a = 1`, NUL, `x` the
character after the argument is a NUL, which is neither a newline nor `;` nor the end
of the text; `parse_command` does not throw `Junk at end of input.`, it consumes the
NUL, dispatches `a` and returns the cursor on `x`. -/
theorem parse_command_accepts_nul :
    parse_command sample_env 1 () ("a = 1".toList ++ Char.ofNat 0 :: "x".toList)
        sample_state =
      (.ok (.string "1".toList, "x".toList),
       ⟨1, [], [⟨"a".toList, .string "1".toList, (), .ok (.string "1".toList)⟩]⟩) ∧
    parse_command_end (Char.ofNat 0 :: "x".toList) = .ok "x".toList ∧
    Char.ofNat 0 ≠ '\n' ∧ Char.ofNat 0 ≠ ';' :=
  ⟨rfl, rfl, by decide, by decide⟩

/-- C15 as amended.  After the argument list (the list parser stopped with the blanks
`blanks` and then `tail` left) `parse_command` accepts only a newline, a `;`, a NUL
character or the end of the text: any other character makes it throw `Junk at end of
input.` with the state as it was; a terminator character is consumed alone, so the
cursor returned is what follows it (a second `;` or newline stays for the next call);
at the end of the text the cursor returned is the end. -/
theorem parse_command_terminator
    (env : Env σ τ) (fuel : Nat) (target : τ) (range after0 blanks tail key : List Char)
    (args : Object) (s : St σ τ)
    (hkey : parse_command_key range = .ok (some key, after0))
    (hlist : env.parse_whole_list after0 = .ok (args, blanks ++ tail))
    (hblank : blanks.all command_map_is_space = true)
    (htail : ∀ c ∈ tail.head?, command_map_is_space c = false) :
    (∀ c after, tail = c :: after → c ≠ '\n' → c ≠ ';' → c ≠ Char.ofNat 0 →
      parse_command env fuel target range s =
        (.throw ⟨.input_error, "Junk at end of input.".toList⟩, s)) ∧
    (∀ c after, tail = c :: after → (c = '\n' ∨ c = ';' ∨ c = Char.ofNat 0) →
      parse_command_head env.parse_whole_list range = .ok (some (key, args), after)) ∧
    (tail = [] → parse_command_head env.parse_whole_list range = .ok (some (key, args), [])) ∧
    (∀ r rest s1, parse_command env fuel target range s = (.ok (r, rest), s1) →
      (tail = [] ∧ rest = []) ∨
      ∃ c, (c = '\n' ∨ c = ';' ∨ c = Char.ofNat 0) ∧ tail = c :: rest) := by
  obtain ⟨hnil, hterm, hjunk⟩ := parse_command_end_reads blanks tail hblank htail
  have hhead : parse_command_head env.parse_whole_list range =
      match parse_command_end (blanks ++ tail) with
      | .error e => .error e
      | .ok first => .ok (some (key, args), first) := by
    simp only [parse_command_head, hkey, hlist]
  refine ⟨?_, ?_, ?_, ?_⟩
  · intro c after ht h1 h2 h3
    apply parse_command_of_head_error
    rw [hhead, hjunk c after ht (by tauto)]
  · intro c after ht hc
    rw [hhead, hterm c after ht (by tauto)]
  · intro ht
    rw [hhead, hnil ht]
  · intro r rest s1 hrun
    have hret : ∀ first, parse_command_head env.parse_whole_list range
        = .ok (some (key, args), first) → rest = first := by
      intro first hh
      rw [parse_command_of_head_some env fuel target range first key args hh] at hrun
      obtain ⟨a, sa, -, h2⟩ := and_then_eq_ok hrun
      obtain ⟨v, sb, -, h3⟩ := and_then_eq_ok h2
      simp only [ret, Prod.mk.injEq, Outcome.ok.injEq] at h3
      exact h3.1.2.symm
    cases htl : tail with
    | nil =>
      exact Or.inl ⟨rfl, hret [] (by rw [hhead, hnil htl])⟩
    | cons c after =>
      by_cases hc : c = '\n' ∨ c = Char.ofNat 0 ∨ c = ';'
      · refine Or.inr ⟨c, by tauto, ?_⟩
        rw [hret after (by rw [hhead, hterm c after htl hc])]
      · have hh : parse_command_head env.parse_whole_list range
            = .error ⟨.input_error, "Junk at end of input.".toList⟩ := by
          rw [hhead, hjunk c after htl hc]
        rw [parse_command_of_head_error env fuel target range s _ hh] at hrun
        cases hrun

/-- C15 as amended, on the sample environment: in `a = 1;;` one `;` is consumed and the
second is left at the cursor; in `a = 1 x` the `x` is junk. -/
theorem parse_command_terminator_witness :
    parse_command_head sample_env.parse_whole_list "a = 1;;".toList
      = .ok (some ("a".toList, .string "1".toList), ";".toList) ∧
    parse_command sample_env 0 () "a = 1 x".toList sample_state =
      (.throw ⟨.input_error, "Junk at end of input.".toList⟩, sample_state) :=
  ⟨(parse_command_terminator sample_env 0 () "a = 1;;".toList " 1;;".toList [] ";;".toList
      "a".toList (.string "1".toList) sample_state rfl rfl (by decide) (by decide)).2.1
      ';' ";".toList rfl (Or.inr (Or.inl rfl)),
   (parse_command_terminator sample_env 0 () "a = 1 x".toList " 1 x".toList " ".toList
      "x".toList "a".toList (.string "1".toList) sample_state rfl rfl (by decide)
      (by decide)).1 'x' [] rfl (by decide) (by decide) (by decide)⟩

end Grammar2

/-! ## The substitution pass, case by case -/

section Pass

variable {σ τ : Type}

/-- C20.  A value that is neither a list, nor a function key, nor a string that starts
with `$` (so: `None`, an integer, a raw string whatever its first character, a map
whatever its values, the empty string, a string with another first character) is
returned unchanged by `parse_command_execute`, and the state is unchanged: nothing is
dispatched. -/
theorem parse_command_execute_leaves_plain_values
    (env : Env σ τ) (fuel : Nat) (target : τ) (object : Object) (s : St σ τ)
    (hplain : (∀ items, object ≠ .list items) ∧ (∀ f k o, object ≠ .dict_key f k o) ∧
      (∀ str, object ≠ .string ('$' :: str))) :
    parse_command_execute env (fuel + 1) target object s = (.ok object, s) ∧
    parse_command_execute env (fuel + 1) target Object.none s = (.ok Object.none, s) ∧
    (∀ v, parse_command_execute env (fuel + 1) target (.value v) s = (.ok (.value v), s)) ∧
    (∀ str, parse_command_execute env (fuel + 1) target (.raw_string str) s
      = (.ok (.raw_string str), s)) ∧
    (∀ entries, parse_command_execute env (fuel + 1) target (.map entries) s
      = (.ok (.map entries), s)) ∧
    parse_command_execute env (fuel + 1) target (.string []) s = (.ok (.string []), s) := by
  refine ⟨?_, rfl, fun _ => rfl, fun _ => rfl, fun _ => rfl, rfl⟩
  apply execute_no_substitution
  obtain ⟨h1, h2, h3⟩ := hplain
  cases object with
  | none => rfl
  | value v => rfl
  | raw_string str => rfl
  | map entries => rfl
  | list items => exact absurd rfl (h1 items)
  | dict_key f k o => exact absurd rfl (h2 f k o)
  | string str =>
    cases str with
    | nil => rfl
    | cons c str =>
      have : c ≠ '$' := by
        intro hc
        subst hc
        exact h3 str rfl
      simpa [no_substitution_at] using this

/-- C20 on the sample environment: a raw string that starts with `$` and a map whose
value is a `$` string come back unchanged, the startup state is unchanged. -/
theorem parse_command_execute_leaves_plain_values_witness :
    parse_command_execute sample_env 1 () (.raw_string "$inner=".toList) sample_state
      = (.ok (.raw_string "$inner=".toList), sample_state) ∧
    parse_command_execute sample_env 1 ()
        (.map [("k".toList, .string "$inner=".toList)]) sample_state
      = (.ok (.map [("k".toList, .string "$inner=".toList)]), sample_state) :=
  ⟨(parse_command_execute_leaves_plain_values sample_env 0 () (.raw_string "$inner=".toList)
      sample_state ⟨fun _ h => (by cases h), fun _ _ _ h => (by cases h),
        fun _ h => (by cases h)⟩).1,
   (parse_command_execute_leaves_plain_values sample_env 0 ()
      (.map [("k".toList, .string "$inner=".toList)])
      sample_state ⟨fun _ h => (by cases h), fun _ _ _ h => (by cases h),
        fun _ h => (by cases h)⟩).1⟩

theorem execute_list_cons_list (f : Object → Eval σ τ Object) (inner rest : List Object) :
    execute_list f (.list inner :: rest) =
      and_then (execute_list f rest) fun ys => ret (.list inner :: ys) := rfl

theorem execute_list_cons_other (f : Object → Eval σ τ Object) (x : Object)
    (rest : List Object) (hx : ∀ inner, x ≠ .list inner) :
    execute_list f (x :: rest) =
      and_then (f x) fun y => and_then (execute_list f rest) fun ys => ret (y :: ys) := by
  cases x with
  | list inner => exact absurd rfl (hx inner)
  | _ => rfl

theorem execute_list_append (f : Object → Eval σ τ Object) (xs ys : List Object) :
    execute_list f (xs ++ ys) =
      and_then (execute_list f xs) fun xs1 =>
        and_then (execute_list f ys) fun ys1 => ret (xs1 ++ ys1) := by
  induction xs with
  | nil =>
    rw [List.nil_append, execute_list, and_then_ret]
    funext s
    rcases h : execute_list f ys s with ⟨r, s1⟩
    cases r <;> simp [and_then, h, ret]
  | cons x xs ih =>
    by_cases hx : ∃ inner, x = .list inner
    · obtain ⟨inner, rfl⟩ := hx
      rw [List.cons_append, execute_list_cons_list, execute_list_cons_list, ih,
        and_then_assoc, and_then_assoc]
      refine and_then_congr _ fun xs1 => ?_
      rw [and_then_assoc, and_then_ret]
      refine and_then_congr _ fun ys1 => ?_
      rw [and_then_ret]
      rfl
    · have hx1 : ∀ inner, x ≠ .list inner := fun inner h => hx ⟨inner, h⟩
      rw [List.cons_append, execute_list_cons_other f x _ hx1,
        execute_list_cons_other f x _ hx1, ih, and_then_assoc]
      refine and_then_congr _ fun y => ?_
      rw [and_then_assoc, and_then_assoc]
      refine and_then_congr _ fun xs1 => ?_
      rw [and_then_assoc, and_then_ret]
      refine and_then_congr _ fun ys1 => ?_
      rw [and_then_ret]
      rfl

theorem execute_list_positions (env : Env σ τ) (fuel : Nat) (target : τ) :
    ∀ (items items1 : List Object) (s s1 : St σ τ),
      execute_list (parse_command_execute env fuel target) items s = (.ok items1, s1) →
      List.Forall₂ (element_pass env fuel target) items items1 := by
  intro items
  induction items with
  | nil =>
    intro items1 s s1 h
    simp only [execute_list, ret, Prod.mk.injEq, Outcome.ok.injEq] at h
    rw [← h.1]
    exact List.Forall₂.nil
  | cons x xs ih =>
    intro items1 s s1 h
    by_cases hx : ∃ inner, x = .list inner
    · obtain ⟨inner, rfl⟩ := hx
      rw [execute_list_cons_list] at h
      obtain ⟨ys, sa, h1, h2⟩ := and_then_eq_ok h
      simp only [ret, Prod.mk.injEq, Outcome.ok.injEq] at h2
      rw [← h2.1]
      exact List.Forall₂.cons (Or.inl ⟨inner, rfl, rfl⟩) (ih ys s sa h1)
    · have hx1 : ∀ inner, x ≠ .list inner := fun inner h => hx ⟨inner, h⟩
      rw [execute_list_cons_other _ x _ hx1] at h
      obtain ⟨y, sa, h1, h2⟩ := and_then_eq_ok h
      obtain ⟨ys, sb, h3, h4⟩ := and_then_eq_ok h2
      simp only [ret, Prod.mk.injEq, Outcome.ok.injEq] at h4
      rw [← h4.1]
      exact List.Forall₂.cons (Or.inr ⟨hx1, s, sa, h1⟩) (ih ys sa sb h3)

theorem execute_list_all_lists (f : Object → Eval σ τ Object) :
    ∀ (items : List Object) (s : St σ τ), (∀ x ∈ items, ∃ inner, x = .list inner) →
      execute_list f items s = (.ok items, s) := by
  intro items
  induction items with
  | nil => intro s _; rfl
  | cons x xs ih =>
    intro s h
    obtain ⟨inner, rfl⟩ := h x (List.mem_cons_self _ _)
    rw [execute_list_cons_list, and_then_ok (ih s fun y hy => h y (List.mem_cons_of_mem _ hy))]
    rfl

/-- C19.  One pass of `parse_command_execute` over a list returns a list of the same
length in which every element that is itself a list stands unchanged at its position and
every other element is replaced, at its position, by what `parse_command_execute`
returns for it.  The elements are handled from left to right: the pass over `xs ++ ys`
is the pass over `xs` followed, in the state it leaves, by the pass over `ys`; on one
element the pass calls `parse_command_execute` unless the element is a list.  A list
whose elements are all lists comes back unchanged with the state unchanged, whatever
the nested lists hold. -/
theorem parse_command_execute_list_pass
    (env : Env σ τ) (fuel : Nat) (target : τ) (items : List Object) (s s1 : St σ τ)
    (result : Object)
    (hrun : parse_command_execute env (fuel + 1) target (.list items) s = (.ok result, s1)) :
    (∃ items1, result = .list items1 ∧ items1.length = items.length ∧
      List.Forall₂ (element_pass env fuel target) items items1) ∧
    (∀ xs ys : List Object,
      parse_command_execute env (fuel + 1) target (.list (xs ++ ys)) =
        and_then (execute_list (parse_command_execute env fuel target) xs) fun xs1 =>
          and_then (execute_list (parse_command_execute env fuel target) ys) fun ys1 =>
            ret (.list (xs1 ++ ys1))) ∧
    (∀ inner : List Object,
      execute_list (parse_command_execute env fuel target) [.list inner]
        = ret [.list inner]) ∧
    (∀ x : Object, (∀ inner, x ≠ .list inner) →
      execute_list (parse_command_execute env fuel target) [x] =
        and_then (parse_command_execute env fuel target x) fun y => ret [y]) ∧
    (∀ (nested : List Object) (st : St σ τ), (∀ x ∈ nested, ∃ inner, x = .list inner) →
      parse_command_execute env (fuel + 1) target (.list nested) st
        = (.ok (.list nested), st)) := by
  have hdef : ∀ l : List Object, parse_command_execute env (fuel + 1) target (.list l) =
      and_then (execute_list (parse_command_execute env fuel target) l) fun l1 =>
        ret (.list l1) := fun _ => rfl
  refine ⟨?_, ?_, ?_, ?_, ?_⟩
  · rw [hdef] at hrun
    obtain ⟨items1, sa, h1, h2⟩ := and_then_eq_ok hrun
    simp only [ret, Prod.mk.injEq, Outcome.ok.injEq] at h2
    have hpos := execute_list_positions env fuel target items items1 s sa h1
    exact ⟨items1, h2.1.symm, hpos.length_eq.symm, hpos⟩
  · intro xs ys
    rw [hdef, execute_list_append, and_then_assoc]
    refine and_then_congr _ fun xs1 => ?_
    rw [and_then_assoc]
    refine and_then_congr _ fun ys1 => ?_
    rw [and_then_ret]
  · intro inner
    rw [execute_list_cons_list]
    rfl
  · intro x hx
    rw [execute_list_cons_other _ x _ hx]
    refine and_then_congr _ fun y => ?_
    rfl
  · intro nested st hall
    rw [hdef, and_then_ok (execute_list_all_lists _ nested st hall)]
    rfl

/-- C19 on the sample environment: in the list of a nested list (holding a `$` string and
a live function key), the string `$inner=` and the string `x`, the nested list comes
back untouched, the `$` string is replaced by 42, and the one dispatch is `inner`. -/
theorem parse_command_execute_list_pass_witness :
    parse_command_execute sample_env 3 ()
        (.list [.list [.string "$inner=".toList,
                       .dict_key flag_function "inner".toList Object.none],
                .string "$inner=".toList, .string "x".toList]) sample_state =
      (.ok (.list [.list [.string "$inner=".toList,
                          .dict_key flag_function "inner".toList Object.none],
                   .value 42, .string "x".toList]),
       ⟨1, [], [⟨"inner".toList, .string [], (), .ok (.value 42)⟩]⟩) ∧
    ∃ items1, Object.list [.list [.string "$inner=".toList,
                          .dict_key flag_function "inner".toList Object.none],
                   .value 42, .string "x".toList] = .list items1 ∧ items1.length = 3 ∧
      List.Forall₂ (element_pass sample_env 2 ())
        [.list [.string "$inner=".toList,
                .dict_key flag_function "inner".toList Object.none],
         .string "$inner=".toList, .string "x".toList] items1 :=
  ⟨rfl, (parse_command_execute_list_pass sample_env 2 ()
    [.list [.string "$inner=".toList, .dict_key flag_function "inner".toList Object.none],
      .string "$inner=".toList, .string "x".toList] sample_state
    ⟨1, [], [⟨"inner".toList, .string [], (), .ok (.value 42)⟩]⟩ _ rfl).1⟩

end Pass

/-! ## One step on a function key, container evaluation, the pushed frame -/

section Steps

variable {σ τ : Type}

theorem mask_function_testBit (i : Nat) :
    mask_function.testBit i = (decide (18 = i) || decide (19 = i) || decide (20 = i)) := by
  have h : mask_function = 2 ^ 18 ||| 2 ^ 19 ||| 2 ^ 20 := by decide
  rw [h]
  simp only [Nat.testBit_or, Nat.testBit_two_pow]

theorem testBit_function_of_and_eq_zero (f : Nat) (h : f &&& flag_function = 0) :
    f.testBit 18 = false := by
  have h1 : (f &&& flag_function).testBit 18 = false := by rw [h]; simp
  have h2 : flag_function = 2 ^ 18 := by decide
  rw [h2, Nat.testBit_and, Nat.testBit_two_pow_self] at h1
  simpa using h1

/-- Below depth zero the lowered function bits are the function bits shifted right by
one. -/
theorem unquote_flags_shift (f : Nat) (h : f &&& flag_function = 0) :
    unquote_flags f &&& mask_function = (f &&& mask_function) >>> 1 := by
  rw [unquote_flags_and_mask]
  have h18 := testBit_function_of_and_eq_zero f h
  apply Nat.eq_of_testBit_eq
  intro i
  simp only [Nat.testBit_and, Nat.testBit_shiftRight, mask_function_testBit]
  by_cases hi : i = 17
  · subst hi
    simp [h18]
  · have h1 : ¬ (18 = 1 + i) := by omega
    by_cases h19 : 19 = 1 + i
    · have : 18 = i := by omega
      simp [h19, this]
    · by_cases h20 : 20 = 1 + i
      · have : 19 = i := by omega
        simp [h20, this]
      · simp [h1, h19, h20]

/-- Lowering the depth leaves every flag outside the function mask as it was. -/
theorem unquote_flags_other (f : Nat) :
    unquote_flags f &&& (0xFFFFFFFF ^^^ mask_function)
      = f &&& (0xFFFFFFFF ^^^ mask_function) := by
  unfold unquote_flags set_flags unset_flags
  rw [and_or_distrib_right, Nat.and_assoc f, Nat.and_assoc _ mask_public,
    Nat.and_assoc _ mask_function]
  have h1 : (0xFFFFFFFF ^^^ (mask_function &&& mask_public)) &&& (0xFFFFFFFF ^^^ mask_function)
      = 0xFFFFFFFF ^^^ mask_function := by decide
  have h2 : mask_function &&& (mask_public &&& (0xFFFFFFFF ^^^ mask_function)) = 0 := by decide
  rw [h1, h2, Nat.and_zero, Nat.or_zero]

/-- C18.  One step of `parse_command_execute` on a function key whose argument the pass
resolves to `obj1` in state `s1`: when `flag_function` is set, the key (as a C string),
`obj1` and the target are handed to the registry once, after the dispatches of the
argument, and the step returns what the handler answered in place of the node; when
`flag_function` is not set, nothing more is dispatched, the node comes back with the
same key and the resolved argument, its function bits are the old ones shifted right by
one and every flag outside the function mask is as before. -/
theorem parse_command_execute_dict_key_step
    (env : Env σ τ) (fuel : Nat) (target : τ) (flags : Nat) (key : List Char)
    (obj obj1 : Object) (s s1 : St σ τ)
    (hexec : parse_command_execute env fuel target obj s = (.ok obj1, s1)) :
    (flags &&& flag_function ≠ 0 →
      parse_command_execute env (fuel + 1) target (.dict_key flags key obj) s =
        ((match (env.commands (c_str key) obj1 target s1.stack s1.world).1 with
          | .ok v => .ok v
          | .error e => .throw e),
         ⟨(env.commands (c_str key) obj1 target s1.stack s1.world).2, s1.stack,
          s1.trace ++ [⟨c_str key, obj1, target,
            (env.commands (c_str key) obj1 target s1.stack s1.world).1⟩]⟩)) ∧
    (flags &&& flag_function = 0 →
      parse_command_execute env (fuel + 1) target (.dict_key flags key obj) s =
        (.ok (.dict_key (unquote_flags flags) key obj1), s1) ∧
      unquote_flags flags &&& mask_function = (flags &&& mask_function) >>> 1 ∧
      unquote_flags flags &&& (0xFFFFFFFF ^^^ mask_function)
        = flags &&& (0xFFFFFFFF ^^^ mask_function)) := by
  constructor
  · intro hset
    rw [execute_dict_key, and_then_ok hexec]
    have hne : (flags &&& flag_function != 0) = true := by simpa using hset
    rw [if_pos hne, call_command_eq]
  · intro hclear
    refine ⟨?_, unquote_flags_shift flags hclear, unquote_flags_other flags⟩
    rw [execute_dict_key, and_then_ok hexec]
    simp [hclear, ret]

/-- C18 on the sample environment: a key at depth one comes back at depth zero with its
`$` argument resolved (one dispatch, of `inner`); a key at depth zero is dispatched
after its argument. -/
theorem parse_command_execute_dict_key_step_witness :
    parse_command_execute sample_env 3 ()
        (.dict_key flag_function_q1 "outer".toList (.string "$inner=".toList)) sample_state =
      (.ok (.dict_key flag_function "outer".toList (.value 42)),
       ⟨1, [], [⟨"inner".toList, .string [], (), .ok (.value 42)⟩]⟩) ∧
    parse_command_execute sample_env 3 ()
        (.dict_key flag_function "outer".toList (.string "$inner=".toList)) sample_state =
      (.ok (.value 42),
       ⟨2, [], [⟨"inner".toList, .string [], (), .ok (.value 42)⟩,
                ⟨"outer".toList, .value 42, (), .ok (.value 42)⟩]⟩) :=
  ⟨((parse_command_execute_dict_key_step sample_env 2 () flag_function_q1 "outer".toList
      (.string "$inner=".toList) (.value 42) sample_state
      ⟨1, [], [⟨"inner".toList, .string [], (), .ok (.value 42)⟩]⟩ rfl).2 (by decide)).1,
   (parse_command_execute_dict_key_step sample_env 2 () flag_function "outer".toList
      (.string "$inner=".toList) (.value 42) sample_state
      ⟨1, [], [⟨"inner".toList, .string [], (), .ok (.value 42)⟩]⟩ rfl).1 (by decide)⟩

/-- C17.  `command_function_call_object` evaluates `call_object(cmd, target)` once, in
the state in which one frame has been pushed on the argument stack, and pops with the
marker taken before the push (on normal return and on `bencode_error`).  The frame
holds the elements of `args` in order when `args` is a list, nothing when it is `None`,
and the value itself in every other case. -/
theorem command_function_call_object_pushes_frame
    (env : Env σ τ) (fuel : Nat) (cmd : Object) (target : τ) (args : Object) (s : St σ τ) :
    command_function_call_object env fuel cmd target args s =
      (match call_object env fuel cmd target
          ⟨s.world, argument_frame args :: s.stack, s.trace⟩ with
        | (.ok result, s1) => (.ok result, pop_stack s.stack.length s1)
        | (.throw e, s1) =>
          if e.kind.is_bencode_error then (.throw e, pop_stack s.stack.length s1)
          else (.throw e, s1)
        | (.out_of_fuel, s1) => (.out_of_fuel, s1)) ∧
    (∀ items, argument_frame (.list items) = items) ∧
    argument_frame Object.none = [] ∧
    (∀ v, argument_frame (.value v) = [.value v]) ∧
    (∀ str, argument_frame (.string str) = [.string str]) ∧
    (∀ str, argument_frame (.raw_string str) = [.raw_string str]) ∧
    (∀ entries, argument_frame (.map entries) = [.map entries]) ∧
    (∀ f k o, argument_frame (.dict_key f k o) = [.dict_key f k o]) := by
  refine ⟨?_, fun _ => rfl, rfl, fun _ => rfl, fun _ => rfl, fun _ => rfl, fun _ => rfl,
    fun _ _ _ => rfl⟩
  cases args <;> rfl

/-- Evaluating a list of values one after the other and keeping the last result. -/
theorem call_object_list_eq (call : Object → Eval σ τ Object) :
    ∀ (items : List Object) (result : Object),
      call_object_list call result items =
        and_then (evaluate_each call items) fun rs => ret (rs.getLastD result) := by
  intro items
  induction items with
  | nil => intro result; rfl
  | cons itr rest ih =>
    intro result
    simp only [call_object_list, evaluate_each]
    rw [and_then_assoc]
    refine and_then_congr _ fun r => ?_
    rw [ih r, and_then_assoc]
    refine and_then_congr _ fun rs => ?_
    rw [and_then_ret]
    cases rs <;> rfl

theorem call_object_map_eq (call : Object → Eval σ τ Object) :
    ∀ entries : List (List Char × Object),
      call_object_map call entries =
        and_then (evaluate_each call (entries.map Prod.snd)) fun _ => ret () := by
  intro entries
  induction entries with
  | nil => rfl
  | cons itr rest ih =>
    simp only [call_object_map, evaluate_each, List.map_cons]
    rw [and_then_assoc]
    refine and_then_congr _ fun r => ?_
    rw [ih, and_then_assoc]
    refine and_then_congr _ fun rs => ?_
    rw [and_then_ret]

theorem evaluate_each_append (call : Object → Eval σ τ Object) (xs ys : List Object) :
    evaluate_each call (xs ++ ys) =
      and_then (evaluate_each call xs) fun rs1 =>
        and_then (evaluate_each call ys) fun rs2 => ret (rs1 ++ rs2) := by
  induction xs with
  | nil =>
    rw [List.nil_append, evaluate_each, and_then_ret]
    funext s
    rcases h : evaluate_each call ys s with ⟨r, s1⟩
    cases r <;> simp [and_then, h, ret]
  | cons x xs ih =>
    have h1 : ∀ (y : Object) (l : List Object), evaluate_each call (y :: l) =
        and_then (call y) fun r => and_then (evaluate_each call l) fun rs => ret (r :: rs) :=
      fun _ _ => rfl
    rw [List.cons_append, h1, h1, ih, and_then_assoc]
    refine and_then_congr _ fun r => ?_
    rw [and_then_assoc, and_then_assoc]
    refine and_then_congr _ fun rs1 => ?_
    rw [and_then_assoc, and_then_ret]
    refine and_then_congr _ fun rs2 => ?_
    rw [and_then_ret]
    rfl

/-- C11.  `call_object` on a list evaluates the elements with `call_object` one after
the other in list order, each once, and returns the result of the last one (`None` for
the empty list); on a map it evaluates the values one after the other, each once, and
returns `None` whatever they returned; on `None` and on an integer it returns `None`
and leaves the state as it is.  An element that is a string or a raw string is run as
command text by `parse_command_multiple`: a list of two texts runs the first, then the
second in the state the first left, and returns what the second returned; a map of two
texts runs both in the same order and returns `None`; a list of a `None` and an integer
dispatches nothing. -/
theorem call_object_containers
    (env : Env σ τ) (fuel : Nat) (target : τ) (s : St σ τ) :
    (∀ items : List Object,
      call_object env (fuel + 1) (.list items) target =
        and_then (evaluate_each (fun itr => call_object env fuel itr target) items)
          fun rs => ret (rs.getLastD Object.none)) ∧
    call_object env (fuel + 1) (.list []) target s = (.ok Object.none, s) ∧
    (∀ (items : List Object) (last : Object),
      call_object env (fuel + 1) (.list (items ++ [last])) target =
        and_then (evaluate_each (fun itr => call_object env fuel itr target) items)
          fun _ => call_object env fuel last target) ∧
    (∀ entries : List (List Char × Object),
      call_object env (fuel + 1) (.map entries) target =
        and_then (evaluate_each (fun itr => call_object env fuel itr target)
          (entries.map Prod.snd)) fun _ => ret Object.none) ∧
    call_object env (fuel + 1) Object.none target s = (.ok Object.none, s) ∧
    (∀ v, call_object env (fuel + 1) (.value v) target s = (.ok Object.none, s)) ∧
    (∀ str : List Char,
      call_object env (fuel + 1) (.string str) target
        = parse_command_multiple env fuel target str ∧
      call_object env (fuel + 1) (.raw_string str) target
        = parse_command_multiple env fuel target str) ∧
    (∀ a b : List Char,
      call_object env (fuel + 2) (.list [.string a, .string b]) target =
        and_then (parse_command_multiple env fuel target a) fun _ =>
          parse_command_multiple env fuel target b) ∧
    (∀ (k1 k2 a b : List Char),
      call_object env (fuel + 2) (.map [(k1, .string a), (k2, .string b)]) target =
        and_then (parse_command_multiple env fuel target a) fun _ =>
          and_then (parse_command_multiple env fuel target b) fun _ => ret Object.none) ∧
    (∀ v, call_object env (fuel + 2) (.list [Object.none, .value v]) target s
      = (.ok Object.none, s)) := by
  have hlist : ∀ (k : Nat) (items : List Object),
      call_object env (k + 1) (.list items) target =
        and_then (evaluate_each (fun itr => call_object env k itr target) items)
          fun rs => ret (rs.getLastD Object.none) := by
    intro k items
    exact call_object_list_eq _ items Object.none
  have hsnoc : ∀ (k : Nat) (items : List Object) (last : Object),
      call_object env (k + 1) (.list (items ++ [last])) target =
        and_then (evaluate_each (fun itr => call_object env k itr target) items)
          fun _ => call_object env k last target := by
    intro k items last
    rw [hlist, evaluate_each_append, and_then_assoc]
    refine and_then_congr _ fun rs1 => ?_
    simp only [evaluate_each]
    rw [and_then_assoc, and_then_assoc]
    funext st
    rcases h : call_object env k last target st with ⟨r, s2⟩
    cases r <;> simp [and_then, h, ret]
  have hmap : ∀ (k : Nat) (entries : List (List Char × Object)),
      call_object env (k + 1) (.map entries) target =
        and_then (evaluate_each (fun itr => call_object env k itr target)
          (entries.map Prod.snd)) fun _ => ret Object.none := by
    intro k entries
    show and_then (call_object_map (fun itr => call_object env k itr target) entries)
      (fun _ => ret Object.none) = _
    rw [call_object_map_eq, and_then_assoc]
    refine and_then_congr _ fun rs => ?_
    rw [and_then_ret]
  have hstr : ∀ str : List Char, call_object env (fuel + 1) (.string str) target
      = parse_command_multiple env fuel target str := fun _ => rfl
  refine ⟨hlist fuel, rfl, hsnoc fuel, hmap fuel, rfl, fun _ => rfl,
    fun str => ⟨rfl, rfl⟩, ?_, ?_, fun _ => rfl⟩
  · intro a b
    have h := hsnoc (fuel + 1) [.string a] (.string b)
    rw [List.singleton_append] at h
    rw [h, hstr b]
    simp only [evaluate_each]
    rw [hstr a, and_then_assoc]
    refine and_then_congr _ fun r => ?_
    rw [and_then_ret, and_then_ret]
  · intro k1 k2 a b
    rw [hmap (fuel + 1)]
    simp only [List.map_cons, List.map_nil, evaluate_each]
    rw [hstr a, hstr b, and_then_assoc]
    refine and_then_congr _ fun r => ?_
    rw [and_then_assoc, and_then_assoc]
    refine and_then_congr _ fun r2 => ?_
    rw [and_then_ret, and_then_ret, and_then_ret]

/-- C11 on the sample environment: the list of the texts `a = 1` and `b = 2` dispatches
`a`, then `b`, and returns the result of `b`; the map with the same two texts as values
makes the same two dispatches and returns `None`; the empty list and the list of a
`None` and an integer dispatch nothing and return `None`. -/
theorem call_object_containers_witness :
    call_object sample_env 3 (.list [.string "a = 1".toList, .string "b = 2".toList]) ()
        sample_state =
      (.ok (.string "2".toList),
       ⟨2, [], [⟨"a".toList, .string "1".toList, (), .ok (.string "1".toList)⟩,
                ⟨"b".toList, .string "2".toList, (), .ok (.string "2".toList)⟩]⟩) ∧
    call_object sample_env 3
        (.map [("k".toList, .string "a = 1".toList), ("l".toList, .string "b = 2".toList)]) ()
        sample_state =
      (.ok Object.none,
       ⟨2, [], [⟨"a".toList, .string "1".toList, (), .ok (.string "1".toList)⟩,
                ⟨"b".toList, .string "2".toList, (), .ok (.string "2".toList)⟩]⟩) ∧
    call_object sample_env 3 (.list [Object.none, .value 7]) () sample_state
      = (.ok Object.none, sample_state) ∧
    call_object sample_env 3 (.list []) () sample_state = (.ok Object.none, sample_state) :=
  have h := call_object_containers sample_env 1 () sample_state
  ⟨(congrFun (h.2.2.2.2.2.2.2.1 "a = 1".toList "b = 2".toList) sample_state).trans rfl,
   (congrFun (h.2.2.2.2.2.2.2.2.1 "k".toList "l".toList "a = 1".toList "b = 2".toList)
      sample_state).trans rfl,
   h.2.2.2.2.2.2.2.2.2 7,
   (call_object_containers sample_env 2 () sample_state).2.1⟩

end Steps

/-! ## Registration with the XML-RPC bridge -/

section XmlRpc

theorem inserted_commands_append (xs ys : List XmlRpcCall) :
    inserted_commands (xs ++ ys) = inserted_commands xs ++ inserted_commands ys := by
  induction xs with
  | nil => rfl
  | cons x xs ih => cases x <;> simp [inserted_commands, ih]

theorem initialize_xmlrpc_loop_calls (flag : Nat) :
    ∀ (commands : List (List Char × CommandEntry)) (count : Nat),
      (initialize_xmlrpc_loop flag commands count).1 =
        (public_entries flag commands).map
          (fun itr => XmlRpcCall.insert_command itr.1 itr.2.m_parm itr.2.m_doc) := by
  intro commands
  induction commands with
  | nil => intro count; rfl
  | cons itr rest ih =>
    intro count
    by_cases h : itr.2.m_flags &&& flag = 0
    · simp [initialize_xmlrpc_loop, public_entries, h, ih, List.filter_cons]
    · simp [initialize_xmlrpc_loop, public_entries, h, List.filter_cons]
      exact ih _

theorem inserted_commands_map (entries : List (List Char × CommandEntry)) :
    inserted_commands (entries.map
      (fun itr => XmlRpcCall.insert_command itr.1 itr.2.m_parm itr.2.m_doc))
      = entries.map (fun itr => (itr.1, itr.2.m_parm, itr.2.m_doc)) := by
  induction entries with
  | nil => rfl
  | cons e es ih => simp [inserted_commands, ih]

/-- C16.  The insertions that `initialize_xmlrpc` makes on the bridge are exactly the
registry entries whose flags pass the test against `flag_public_xmlrpc`, in registry
order, each under its own name with its own signature and doc, and they are all the
calls it makes between the set-up of the bridge and the log line.  With the names of
the registry distinct (it is a map), every such entry is inserted, no name is inserted
twice, and no name of an entry that fails the test is inserted.  The registry is only
read. -/
theorem initialize_xmlrpc_inserts_public_entries
    (flag_public_xmlrpc : Nat) (commands : List (List Char × CommandEntry))
    (hnames : (commands.map Prod.fst).Nodup) :
    initialize_xmlrpc flag_public_xmlrpc commands =
      [XmlRpcCall.start, XmlRpcCall.slot_find_download, XmlRpcCall.slot_find_file,
        XmlRpcCall.slot_find_tracker, XmlRpcCall.slot_find_peer]
      ++ (public_entries flag_public_xmlrpc commands).map
          (fun itr => XmlRpcCall.insert_command itr.1 itr.2.m_parm itr.2.m_doc)
      ++ [XmlRpcCall.log_print
            (initialize_xmlrpc_loop flag_public_xmlrpc commands 0).2] ∧
    inserted_commands (initialize_xmlrpc flag_public_xmlrpc commands) =
      (public_entries flag_public_xmlrpc commands).map
        (fun itr => (itr.1, itr.2.m_parm, itr.2.m_doc)) ∧
    ((inserted_commands (initialize_xmlrpc flag_public_xmlrpc commands)).map
      Prod.fst).Nodup ∧
    (∀ itr ∈ commands, itr.2.m_flags &&& flag_public_xmlrpc ≠ 0 →
      (itr.1, itr.2.m_parm, itr.2.m_doc) ∈
        inserted_commands (initialize_xmlrpc flag_public_xmlrpc commands)) ∧
    (∀ itr ∈ commands, itr.2.m_flags &&& flag_public_xmlrpc = 0 →
      ∀ parm doc, (itr.1, parm, doc) ∉
        inserted_commands (initialize_xmlrpc flag_public_xmlrpc commands)) := by
  have hcalls : initialize_xmlrpc flag_public_xmlrpc commands =
      [XmlRpcCall.start, XmlRpcCall.slot_find_download, XmlRpcCall.slot_find_file,
        XmlRpcCall.slot_find_tracker, XmlRpcCall.slot_find_peer]
      ++ (public_entries flag_public_xmlrpc commands).map
          (fun itr => XmlRpcCall.insert_command itr.1 itr.2.m_parm itr.2.m_doc)
      ++ [XmlRpcCall.log_print
            (initialize_xmlrpc_loop flag_public_xmlrpc commands 0).2] := by
    unfold initialize_xmlrpc
    simp only [initialize_xmlrpc_loop_calls]
  have hins : inserted_commands (initialize_xmlrpc flag_public_xmlrpc commands) =
      (public_entries flag_public_xmlrpc commands).map
        (fun itr => (itr.1, itr.2.m_parm, itr.2.m_doc)) := by
    rw [hcalls, inserted_commands_append, inserted_commands_append, inserted_commands_map]
    simp [inserted_commands]
  have hsub : (public_entries flag_public_xmlrpc commands).Sublist commands :=
    List.filter_sublist _
  have hnodup_pub : ((public_entries flag_public_xmlrpc commands).map Prod.fst).Nodup :=
    hnames.sublist (hsub.map _)
  have hcomp : ((public_entries flag_public_xmlrpc commands).map
      (fun itr => (itr.1, itr.2.m_parm, itr.2.m_doc))).map Prod.fst
      = (public_entries flag_public_xmlrpc commands).map Prod.fst := by
    simp [List.map_map, Function.comp_def]
  refine ⟨hcalls, hins, ?_, ?_, ?_⟩
  · rw [hins, hcomp]
    exact hnodup_pub
  · intro itr hmem hflag
    rw [hins]
    apply List.mem_map.mpr
    refine ⟨itr, ?_, rfl⟩
    unfold public_entries
    rw [List.mem_filter]
    exact ⟨hmem, by simpa using hflag⟩
  · intro itr hmem hflag parm doc hin
    rw [hins] at hin
    obtain ⟨other, hother, heq⟩ := List.mem_map.mp hin
    have hname : other.1 = itr.1 := (Prod.mk.inj heq).1
    unfold public_entries at hother
    rw [List.mem_filter] at hother
    have hsame : other = itr := by
      have hinj := List.inj_on_of_nodup_map hnames
      exact hinj hother.1 hmem hname
    rw [hsame] at hother
    simp [hflag] at hother

/-- C16 on a registry of three entries, with the flag bit 4: the two entries that carry
the bit are inserted, in registry order, and the other one is not. -/
theorem initialize_xmlrpc_inserts_public_entries_witness :
    inserted_commands (initialize_xmlrpc 4
      [("a".toList, ⟨4, "i:".toList, "A".toList⟩),
       ("b".toList, ⟨1, "i:".toList, "B".toList⟩),
       ("c".toList, ⟨6, "s:".toList, "C".toList⟩)]) =
      [("a".toList, "i:".toList, "A".toList), ("c".toList, "s:".toList, "C".toList)] :=
  (initialize_xmlrpc_inserts_public_entries 4
      [("a".toList, ⟨4, "i:".toList, "A".toList⟩),
       ("b".toList, ⟨1, "i:".toList, "B".toList⟩),
       ("c".toList, ⟨6, "s:".toList, "C".toList⟩)] (by decide)).2.1.trans (by decide)

end XmlRpc

/-! ## The count of trailing backslashes -/

section Escaped

theorem parse_count_escaped_run (pre run : List Char) (hrun : ∀ d ∈ run, d = '\\')
    (hpre : ∀ c ∈ pre.getLast?, c ≠ '\\') :
    parse_count_escaped (pre ++ run) = run.length := by
  unfold parse_count_escaped
  rw [List.reverse_append, List.takeWhile_append_of_pos]
  · have hstop : pre.reverse.takeWhile (fun c => c == '\\') = [] := by
      cases h : pre.reverse with
      | nil => rfl
      | cons c t =>
        have hlast : pre.getLast? = some c := by
          rw [List.getLast?_eq_head?_reverse, h]
          rfl
        have hc : c ≠ '\\' := hpre c (by simp [hlast])
        exact List.takeWhile_cons_of_neg (by simpa using hc)
    rw [hstop, List.append_nil, List.length_reverse]
  · intro d hd
    simpa using hrun d (List.mem_reverse.mp hd)

theorem parse_count_escaped_longest (range pre : List Char) (k : Nat)
    (h : range = pre ++ List.replicate k '\\') : k ≤ parse_count_escaped range := by
  subst h
  unfold parse_count_escaped
  rw [List.reverse_append, List.reverse_replicate, List.takeWhile_append_of_pos]
  · simp
  · intro d hd
    simp [List.eq_of_mem_replicate hd]

/-- C24.  On a range whose length an `int` can hold, `parse_count_escaped` returns the
length of the longest suffix of the range made of backslashes only: the range ends in
that many backslashes, and in no more.  So the count is 0 for the empty range and when
the last character is not a backslash, it is the length of the range when every
character is a backslash, it lies between 0 and the length of the range, and it is the
same whatever stands before the trailing run. -/
theorem parse_count_escaped_longest_backslash_suffix
    (range : List Char) (hlen : range.length < 2147483648) :
    range.take (range.length - parse_count_escaped range)
      ++ List.replicate (parse_count_escaped range) '\\' = range ∧
    (∀ (k : Nat) (pre : List Char), range = pre ++ List.replicate k '\\' →
      k ≤ parse_count_escaped range) ∧
    parse_count_escaped [] = 0 ∧
    ((∀ c ∈ range.getLast?, c ≠ '\\') → parse_count_escaped range = 0) ∧
    ((∀ c ∈ range, c = '\\') → parse_count_escaped range = range.length) ∧
    parse_count_escaped range ≤ range.length ∧
    parse_count_escaped range < 2147483648 ∧
    (∀ pre pre2 run : List Char, range = pre ++ run → (∀ d ∈ run, d = '\\') →
      (∀ c ∈ pre.getLast?, c ≠ '\\') → (∀ c ∈ pre2.getLast?, c ≠ '\\') →
      parse_count_escaped (pre2 ++ run) = parse_count_escaped range ∧
      parse_count_escaped range = run.length) := by
  refine ⟨parse_count_escaped_suffix range, ?_, rfl, ?_, ?_, parse_count_escaped_le range,
    lt_of_le_of_lt (parse_count_escaped_le range) hlen, ?_⟩
  · intro k pre h
    exact parse_count_escaped_longest range pre k h
  · intro hlast
    have := parse_count_escaped_run range [] (by simp) hlast
    simpa using this
  · intro hall
    have := parse_count_escaped_run [] range hall (by simp)
    simpa using this
  · intro pre pre2 run hr hrun hpre hpre2
    rw [hr, parse_count_escaped_run pre run hrun hpre,
      parse_count_escaped_run pre2 run hrun hpre2]
    exact ⟨rfl, rfl⟩

/-- C24 on a sample: `ab` followed by two backslashes counts 2, as `xyz` followed by two
backslashes does; a range that ends in `b` counts 0; three backslashes count 3. -/
theorem parse_count_escaped_longest_backslash_suffix_witness :
    parse_count_escaped "ab\\\\".toList = 2 ∧
    parse_count_escaped "xyz\\\\".toList = parse_count_escaped "ab\\\\".toList ∧
    parse_count_escaped "\\\\ab".toList = 0 ∧
    parse_count_escaped "\\\\\\".toList = 3 :=
  have h := parse_count_escaped_longest_backslash_suffix "ab\\\\".toList (by decide)
  ⟨(h.2.2.2.2.2.2.2 "ab".toList "xyz".toList "\\\\".toList rfl (by decide) (by decide)
      (by decide)).2,
   (h.2.2.2.2.2.2.2 "ab".toList "xyz".toList "\\\\".toList rfl (by decide) (by decide)
      (by decide)).1,
   by decide, by decide⟩

end Escaped

/-! ## The name that `parse_command` reads -/

section Name

variable {σ τ : Type}

theorem takeWhile_take (p : Char → Bool) :
    ∀ (l : List Char) (n : Nat), (l.take n).takeWhile p = (l.takeWhile p).take n := by
  intro l
  induction l with
  | nil => intro n; simp
  | cons c t ih =>
    intro n
    cases n with
    | zero => simp
    | succ n =>
      by_cases hc : p c = true
      · simp [List.take, List.takeWhile, hc, ih]
      · simp [List.take, List.takeWhile, hc]

theorem take_min_length (l : List Char) (n : Nat) : l.take (min l.length n) = l.take n := by
  rcases le_total l.length n with h | h
  · rw [min_eq_left h, List.take_length, List.take_of_length_le h]
  · rw [min_eq_right h]

theorem name_char_not_space (c : Char) (h : command_name_char c = true) :
    command_map_is_space c = false := by
  by_contra hs
  have hs1 : command_map_is_space c = true := by simpa using hs
  unfold command_map_is_space at hs1
  simp only [Bool.or_eq_true, beq_iff_eq] at hs1
  rcases hs1 with rfl | rfl <;> exact absurd h (by decide)

theorem name_char_not_equals (c : Char) (h : command_name_char c = true) :
    (c != '=') = true := by
  by_contra hs
  have hs1 : c = '=' := by simpa using hs
  subst hs1
  exact absurd h (by decide)

/-- What `parse_command_name` reads from a text that starts with a letter: the run of
name characters at the front, cut at 127. -/
theorem parse_command_name_alpha (c : Char) (t : List Char) (halpha : c.isAlpha = true) :
    parse_command_name (c :: t) 128 =
      .ok (((c :: t).takeWhile command_name_char).take 127,
        (c :: t).drop (((c :: t).takeWhile command_name_char).take 127).length) := by
  have hp : (fun c : Char => c.isAlphanum || c == '_' || c == '.') = command_name_char := rfl
  have hkey : ((c :: t).take (min (c :: t).length (128 - 1))).takeWhile command_name_char
      = ((c :: t).takeWhile command_name_char).take 127 := by
    rw [take_min_length, takeWhile_take]
  unfold parse_command_name
  simp only [halpha, Bool.not_true, Bool.false_eq_true, ↓reduceIte, hp, hkey]

theorem parse_command_name_ok {text key rest : List Char}
    (h : parse_command_name text 128 = .ok (key, rest)) :
    key = (text.takeWhile command_name_char).take 127 ∧ rest = text.drop key.length := by
  cases text with
  | nil => simp [parse_command_name] at h
  | cons c t =>
    by_cases halpha : c.isAlpha = true
    · rw [parse_command_name_alpha c t halpha] at h
      simp only [Except.ok.injEq, Prod.mk.injEq] at h
      obtain ⟨h1, h2⟩ := h
      subst h1
      exact ⟨rfl, h2.symm⟩
    · simp [parse_command_name, halpha] at h

/-- When the run of name characters is longer than 127, the cursor after the name stands
on a name character. -/
theorem drop_long_run (text : List Char)
    (hlong : 128 ≤ (text.takeWhile command_name_char).length) :
    ∃ d rest, text.drop ((text.takeWhile command_name_char).take 127).length = d :: rest ∧
      command_name_char d = true := by
  have hsplit := List.takeWhile_append_dropWhile command_name_char text
  have hlen : ((text.takeWhile command_name_char).take 127).length = 127 := by
    rw [List.length_take]; omega
  rw [hlen]
  cases hd : (text.takeWhile command_name_char).drop 127 with
  | nil =>
    have := congrArg List.length hd
    simp only [List.length_drop, List.length_nil] at this
    omega
  | cons d r =>
    refine ⟨d, r ++ text.dropWhile command_name_char, ?_, ?_⟩
    · conv_lhs => rw [← hsplit]
      rw [List.drop_append_of_le_length (by omega), hd]
      rfl
    · have hmem : d ∈ (text.takeWhile command_name_char).drop 127 := by rw [hd]; simp
      exact List.mem_takeWhile_imp (List.mem_of_mem_drop hmem)

theorem parse_command_key_some {range key after : List Char}
    (h : parse_command_key range = .ok (some key, after)) :
    ∃ rest, parse_command_name (range.dropWhile command_map_is_space) 128 = .ok (key, rest) ∧
      rest.dropWhile command_map_is_space = '=' :: after := by
  unfold parse_command_key at h
  simp only at h
  split at h
  · cases h
  · rename_i c t hd
    split at h
    · cases h
    · split at h
      · cases h
      · rename_i k f hn
        split at h
        · cases h
        · rename_i d aft hf
          split at h
          · cases h
          · rename_i hne
            simp only [Except.ok.injEq, Prod.mk.injEq, Option.some.injEq] at h
            obtain ⟨hk, ha⟩ := h
            subst hk
            subst ha
            have hd1 : d = '=' := by simpa using hne
            subst hd1
            exact ⟨f, hn, hf⟩

theorem parse_command_key_cut (range : List Char) (c : Char) (t : List Char)
    (hd : range.dropWhile command_map_is_space = c :: t) (halpha : c.isAlpha = true)
    (hlong : 128 ≤ (name_run range).length) :
    parse_command_key range = .error ⟨.input_error,
      "Could not find '=' in command '".toList ++ (name_run range).take 127
        ++ "'.".toList⟩ := by
  have hrun : name_run range = (c :: t).takeWhile command_name_char := by
    unfold name_run
    rw [hd]
  rw [hrun] at hlong ⊢
  obtain ⟨d, rest, hdrop, hname⟩ := drop_long_run (c :: t) hlong
  have hskip : (d :: rest).dropWhile command_map_is_space = d :: rest :=
    List.dropWhile_cons_of_neg (by simp [name_char_not_space d hname])
  unfold parse_command_key
  simp only [hd, alpha_not_hash c halpha, Bool.false_eq_true, ↓reduceIte,
    parse_command_name_alpha c t halpha, hdrop, hskip, name_char_not_equals d hname]

/-- A text that starts with a run of name characters, the first one a letter or not,
followed by a character that is none: the run is the `name_run`, no blank is skipped. -/
theorem name_run_of_run (run rest : List Char) (c0 : Char) (tl : List Char)
    (hrun : run = c0 :: tl) (hall : ∀ c ∈ run, command_name_char c = true)
    (hstop : ∀ c ∈ rest.head?, command_name_char c = false) :
    name_run (run ++ rest) = run ∧
    (run ++ rest).dropWhile command_map_is_space = run ++ rest := by
  have hskip : (run ++ rest).dropWhile command_map_is_space = run ++ rest := by
    rw [hrun, List.cons_append]
    exact List.dropWhile_cons_of_neg (by
      simp [name_char_not_space c0 (hall c0 (by simp [hrun]))])
  refine ⟨?_, hskip⟩
  unfold name_run
  rw [hskip, List.takeWhile_append_of_pos hall]
  cases rest with
  | nil => simp
  | cons d r =>
    have hd : command_name_char d = false := hstop d (by simp)
    rw [List.takeWhile_cons_of_neg (by simp [hd]), List.append_nil]

/-- C21.  The run `name_run` of alphanumerics, `_` and `.` that follows the leading
spaces and tabs is the longest prefix made of these characters: what follows it does not
start with one.  The name that `parse_command` hands to the registry is this whole run,
and then the run has at most 127 characters.  In general `parse_command_name` reads
the first 127 characters of the run; when the run starts with a letter and has 128
characters or more, the cursor after the cut name stands on a name character, and
`parse_command` throws the missing-`=` error with the cut name and dispatches nothing. -/
theorem parse_command_dispatches_name_run
    (env : Env σ τ) (fuel : Nat) (target : τ) (range : List Char) (s : St σ τ) :
    ((∀ c ∈ name_run range, command_name_char c = true) ∧
      ∃ rest, range.dropWhile command_map_is_space = name_run range ++ rest ∧
        ∀ c ∈ rest.head?, command_name_char c = false) ∧
    (∀ key args rest, parse_command_head env.parse_whole_list range
        = .ok (some (key, args), rest) →
      key = name_run range ∧ key.length ≤ 127 ∧ c_str key = key ∧
      parse_command env fuel target range =
        and_then (parse_command_execute env fuel target args) fun args =>
          and_then (call_command env key args target) fun result => ret (result, rest)) ∧
    (∀ c t, range.dropWhile command_map_is_space = c :: t → c.isAlpha = true →
      parse_command_name (c :: t) 128 =
        .ok ((name_run range).take 127, (c :: t).drop (min (name_run range).length 127))) ∧
    (∀ c t, range.dropWhile command_map_is_space = c :: t → c.isAlpha = true →
      128 ≤ (name_run range).length →
      parse_command env fuel target range s =
        (.throw ⟨.input_error, "Could not find '=' in command '".toList
          ++ (name_run range).take 127 ++ "'.".toList⟩, s)) := by
  refine ⟨⟨fun c hc => List.mem_takeWhile_imp hc,
    (range.dropWhile command_map_is_space).dropWhile command_name_char,
    (List.takeWhile_append_dropWhile _ _).symm, ?_⟩, ?_, ?_, ?_⟩
  · intro c hc
    have hnot := List.head?_dropWhile_not command_name_char
      (range.dropWhile command_map_is_space)
    rw [Option.mem_def.mp hc] at hnot
    exact hnot
  · intro key args rest hhead
    have hkey : ∃ after, parse_command_key range = .ok (some key, after) := by
      unfold parse_command_head at hhead
      split at hhead
      · cases hhead
      · cases hhead
      · rename_i k after hk
        split at hhead
        · cases hhead
        · split at hhead
          · cases hhead
          · simp only [Except.ok.injEq, Prod.mk.injEq, Option.some.injEq] at hhead
            obtain ⟨⟨hk1, -⟩, -⟩ := hhead
            subst hk1
            exact ⟨after, hk⟩
    obtain ⟨after, hkey⟩ := hkey
    obtain ⟨first, hname, hskip⟩ := parse_command_key_some hkey
    obtain ⟨hk, hfirst⟩ := parse_command_name_ok hname
    have hshort : (name_run range).length ≤ 127 := by
      by_contra hlong
      have hlong1 : 128 ≤ ((range.dropWhile command_map_is_space).takeWhile
          command_name_char).length := by
        unfold name_run at hlong; omega
      obtain ⟨d, r, hdrop, hd⟩ := drop_long_run _ hlong1
      rw [← hk, ← hfirst] at hdrop
      rw [hdrop, List.dropWhile_cons_of_neg (by simp [name_char_not_space d hd])] at hskip
      simp only [List.cons.injEq] at hskip
      have := name_char_not_equals d hd
      simp [hskip.1] at this
    have hrun : key = name_run range := by
      rw [hk]
      exact List.take_of_length_le hshort
    refine ⟨hrun, by rw [hrun]; exact hshort, parse_command_key_c_str hkey, ?_⟩
    exact parse_command_of_head_some env fuel target range rest key args hhead
  · intro c t hd halpha
    rw [parse_command_name_alpha c t halpha]
    have hrun : name_run range = (c :: t).takeWhile command_name_char := by
      unfold name_run
      rw [hd]
    rw [hrun, List.length_take, Nat.min_comm]
  · intro c t hd halpha hlong
    apply parse_command_of_head_error
    simp only [parse_command_head, parse_command_key_cut range c t hd halpha hlong]

/-- C21 on the sample environment: in ` ab.c_1 = x` the name dispatched is `ab.c_1`; a
run of 128 letters `a` is cut to 127 and the line is rejected with the cut name, nothing
is dispatched. -/
theorem parse_command_dispatches_name_run_witness :
    name_run " ab.c_1 = x".toList = "ab.c_1".toList ∧
    parse_command sample_env 1 () " ab.c_1 = x".toList sample_state =
      (.ok (.string "x".toList, []),
       ⟨1, [], [⟨"ab.c_1".toList, .string "x".toList, (), .ok (.string "x".toList)⟩]⟩) ∧
    parse_command sample_env 1 () (List.replicate 128 'a' ++ " = x".toList) sample_state =
      (.throw ⟨.input_error, "Could not find '=' in command '".toList
        ++ (name_run (List.replicate 128 'a' ++ " = x".toList)).take 127 ++ "'.".toList⟩,
       sample_state) :=
  have hall : ∀ c ∈ List.replicate 128 'a', command_name_char c = true := fun c hc => by
    rw [List.eq_of_mem_replicate hc]; decide
  have hrun := name_run_of_run (List.replicate 128 'a') " = x".toList 'a'
    (List.replicate 127 'a') rfl hall (by decide)
  ⟨by decide, rfl,
   (parse_command_dispatches_name_run sample_env 1 ()
      (List.replicate 128 'a' ++ " = x".toList) sample_state).2.2.2 'a'
      (List.replicate 127 'a' ++ " = x".toList) (hrun.2.trans rfl) (by decide)
      (by rw [hrun.1, List.length_replicate])⟩

end Name

/-! ## A continuation on the last line of a file -/

section Unfinished

variable {σ τ : Type}

theorem odd_count_ne_nil (line : List Char) (hodd : parse_count_escaped line % 2 = 1) :
    line ≠ [] := by
  intro h
  subst h
  exact absurd hodd (by decide)

/-- The loop on a last physical line that the end of the file ends and that asks for a
continuation: the loop ends, nothing is parsed. -/
theorem loop_unfinished_eof (env : Env σ τ) (fuel steps : Nat) (hsteps : 2 ≤ steps)
    (line buffer : List Char) (n : Nat) (s : St σ τ) (hline : '\n' ∉ line)
    (hodd : parse_count_escaped line % 2 = 1) (hlen : buffer.length + line.length < 4095) :
    parse_command_file_loop env fuel steps ⟨line, false⟩ buffer n s =
      ((.ok (), (n + 1) % 4294967296, ⟨[], true⟩), s) := by
  obtain ⟨k, rfl⟩ : ∃ k, steps = k + 2 := ⟨steps - 2, by omega⟩
  rw [loop_last_line env fuel k line buffer n s hline (odd_count_ne_nil line hodd) hlen,
    if_pos hodd]

/-- The loop on a last physical line that a newline ends and that asks for a
continuation: the line is joined to the buffer, the next read finds the end of the file,
the loop ends, nothing is parsed. -/
theorem loop_unfinished_newline (env : Env σ τ) (fuel steps : Nat) (hsteps : 2 ≤ steps)
    (line buffer : List Char) (n : Nat) (s : St σ τ) (hline : '\n' ∉ line)
    (hodd : parse_count_escaped line % 2 = 1) (hlen : buffer.length + line.length < 4095) :
    parse_command_file_loop env fuel steps ⟨line ++ ['\n'], false⟩ buffer n s =
      ((.ok (), (n + 1) % 4294967296, ⟨[], true⟩), s) := by
  obtain ⟨k, rfl⟩ : ∃ k, steps = k + 2 := ⟨steps - 2, by omega⟩
  rw [loop_line env fuel (k + 1) line [] buffer n s hline hlen, if_pos hodd, loop_end]

/-- C23 fails as stated: on the sample environment, the file whose only physical line is
4094 times the letter `a` and one backslash, ended by a newline, ends in an odd number of
backslashes with no line after it; the load does not return `true`, it throws
`Exceeded max line length.` for line 1. -/
theorem parse_command_file_unfinished_line_at_limit :
    parse_count_escaped (List.replicate 4094 'a' ++ ['\\']) % 2 = 1 ∧
    parse_command_file sample_env 1 "rc".toList
        (some ((List.replicate 4094 'a' ++ ['\\']) ++ ['\n'])) sample_state =
      (.throw ⟨.input_error,
        "Error in option file: rc:1: Exceeded max line length.".toList⟩, sample_state) := by
  have hnl : '\n' ∉ List.replicate 4094 'a' ++ ['\\'] := by
    intro h
    rcases List.mem_append.mp h with h | h
    · exact absurd (List.eq_of_mem_replicate h) (by decide)
    · exact absurd (List.mem_singleton.mp h) (by decide)
  have hlast : ∀ c ∈ (List.replicate 4094 'a').getLast?, c ≠ '\\' := by
    intro c hc
    rw [List.eq_of_mem_replicate (List.mem_of_mem_getLast? hc)]
    decide
  constructor
  · rw [parse_count_escaped_run (List.replicate 4094 'a') ['\\'] (by simp) hlast]
    rfl
  · unfold parse_command_file
    simp only
    rw [loop_exact sample_env 1 _ (List.replicate 4094 'a' ++ ['\\']) [] [] 0 sample_state hnl
      (by rw [List.length_append, List.length_replicate]; rfl)]
    rfl

/-- C23 as amended.  When the last physical line of the file ends in an odd number of
backslashes and the text gathered for the unfinished logical line (what earlier joined
lines left in the buffer, and this line with its backslashes) is shorter than 4095
characters, the loop of `parse_command_file` ends without an error and in the state it
was in: the text is dropped.  This holds whatever the text is, also for a text that
`parse_command` rejects, and whether the line is ended by the end of the file or by a
newline.  So a file that holds this line only, or this line after a first logical line
that `parse_command` accepts, or after a first line that it continues, is loaded with the
result `true`.  When the gathered text has exactly 4095 characters the length check
throws `Exceeded max line length.` instead, for a last line that a newline ends as for
one that the end of the file ends. -/
theorem parse_command_file_drops_unfinished_line
    (env : Env σ τ) (fuel steps : Nat) (line buffer : List Char) (n : Nat) (s : St σ τ)
    (path : List Char) (hline : '\n' ∉ line) (hodd : parse_count_escaped line % 2 = 1)
    (hlen : buffer.length + line.length < 4095) :
    parse_command_file_loop env fuel (steps + 2) ⟨line, false⟩ buffer n s =
      ((.ok (), (n + 1) % 4294967296, ⟨[], true⟩), s) ∧
    parse_command_file_loop env fuel (steps + 2) ⟨line ++ ['\n'], false⟩ buffer n s =
      ((.ok (), (n + 1) % 4294967296, ⟨[], true⟩), s) ∧
    parse_command_file env fuel path (some line) s = (.ok true, s) ∧
    parse_command_file env fuel path (some (line ++ ['\n'])) s = (.ok true, s) ∧
    (∀ (first : List Char) (r : Object × List Char) (s1 : St σ τ), '\n' ∉ first →
      parse_count_escaped first % 2 = 0 → first.length < 4095 →
      parse_command env fuel env.make_target first s = (.ok r, s1) →
      parse_command_file env fuel path (some (first ++ '\n' :: line)) s = (.ok true, s1) ∧
      parse_command_file env fuel path (some (first ++ '\n' :: (line ++ ['\n']))) s
        = (.ok true, s1)) ∧
    (∀ first : List Char, '\n' ∉ first → parse_count_escaped first % 2 = 1 →
      first.length < 4095 →
      first.length - parse_count_escaped first + line.length < 4095 →
      parse_command_file env fuel path (some (first ++ '\n' :: line)) s = (.ok true, s)) ∧
    (∀ last : List Char, '\n' ∉ last → buffer.length + last.length = 4095 →
      parse_command_file_loop env fuel (steps + 1) ⟨last ++ ['\n'], false⟩ buffer n s =
        ((.throw ⟨.input_error, "Exceeded max line length.".toList⟩, (n + 1) % 4294967296,
          ⟨[], false⟩), s)) ∧
    (∀ last : List Char, '\n' ∉ last → last ≠ [] → buffer.length + last.length = 4095 →
      parse_command_file_loop env fuel (steps + 1) ⟨last, false⟩ buffer n s =
        ((.throw ⟨.input_error, "Exceeded max line length.".toList⟩, (n + 1) % 4294967296,
          ⟨[], true⟩), s)) := by
  have hne := odd_count_ne_nil line hodd
  have hpos : 1 ≤ line.length := by
    cases line with
    | nil => exact absurd rfl hne
    | cons c t => simp
  have hlen0 : ([] : List Char).length + line.length < 4095 := by
    simp only [List.length_nil]; omega
  refine ⟨loop_unfinished_eof env fuel _ (by omega) line buffer n s hline hodd hlen,
    loop_unfinished_newline env fuel _ (by omega) line buffer n s hline hodd hlen,
    ?_, ?_, ?_, ?_, ?_,
    fun last hlast hlne hfull =>
      loop_exact_eof env fuel steps last buffer n s hlast hlne hfull⟩
  · unfold parse_command_file
    simp only
    rw [loop_unfinished_eof env fuel _ (by omega) line [] 0 s hline hodd hlen0]
  · unfold parse_command_file
    simp only
    rw [loop_unfinished_newline env fuel _ (by simp) line [] 0 s hline hodd hlen0]
  · intro first r s1 hfirst heven hflen hparse
    have hstep : ∀ (rest : List Char) (k : Nat),
        parse_command_file_loop env fuel (k + 1) ⟨first ++ '\n' :: rest, false⟩ [] 0 s =
          parse_command_file_loop env fuel k ⟨rest, false⟩ [] ((0 + 1) % 4294967296) s1 := by
      intro rest k
      rw [loop_line env fuel k first rest [] 0 s hfirst (by simpa using hflen),
        if_neg (by omega), List.nil_append, hparse]
    constructor
    · unfold parse_command_file
      simp only
      rw [hstep, loop_unfinished_eof env fuel _ (by simp; omega) line [] _ s1 hline hodd hlen0]
    · unfold parse_command_file
      simp only
      rw [hstep, loop_unfinished_newline env fuel _ (by simp; omega) line [] _ s1 hline hodd
        hlen0]
  · intro first hfirst hfodd hflen hjoin
    unfold parse_command_file
    simp only
    rw [loop_line env fuel _ first line [] 0 s hfirst (by simpa using hflen), if_pos hfodd,
      loop_unfinished_eof env fuel _ (by simp; omega) line _ _ s hline hodd
        (by simpa using hjoin)]
  · intro last hlast hfull
    exact loop_exact env fuel steps last [] buffer n s hlast hfull

/-- C23 as amended, on the sample environment: the file whose only line is `1x` and one
backslash is loaded with the result `true` and the startup state, although
`parse_command` rejects `1x` with or without the backslash; in the file with the lines
`a = 1` and `b = ` with one backslash, `a` is dispatched and `b` never is. -/
theorem parse_command_file_drops_unfinished_line_witness :
    parse_command_file sample_env 1 "rc".toList (some "1x\\".toList) sample_state
      = (.ok true, sample_state) ∧
    parse_command sample_env 1 () "1x\\".toList sample_state =
      (.throw ⟨.input_error, "Invalid start of command name.".toList⟩, sample_state) ∧
    parse_command sample_env 1 () "1x".toList sample_state =
      (.throw ⟨.input_error, "Invalid start of command name.".toList⟩, sample_state) ∧
    parse_command_file sample_env 1 "rc".toList (some "a = 1\nb = \\\n".toList) sample_state
      = (.ok true,
         ⟨1, [], [⟨"a".toList, .string "1".toList, (), .ok (.string "1".toList)⟩]⟩) :=
  ⟨(parse_command_file_drops_unfinished_line sample_env 1 0 "1x\\".toList [] 0 sample_state
      "rc".toList (by decide) (by decide) (by decide)).2.2.1,
   rfl, rfl,
   ((parse_command_file_drops_unfinished_line sample_env 1 0 "b = \\".toList [] 0 sample_state
      "rc".toList (by decide) (by decide) (by decide)).2.2.2.2.1 "a = 1".toList
      (.string "1".toList, [])
      ⟨1, [], [⟨"a".toList, .string "1".toList, (), .ok (.string "1".toList)⟩]⟩
      (by decide) (by decide) (by decide) rfl).2⟩

end Unfinished

/-! ## A continuation line that fills the buffer -/

section Full

/-- C6 fails as stated: on the sample environment, in the file whose first physical line
is `a = `, 4090 times the letter `x` and one backslash, and whose second physical line
is `y`, the first line has an odd number of trailing backslashes, but it is not joined
with the second one: the loop is left by `Exceeded max line length.` after the first
line, with the second line still unread in the stream and nothing handed to
`parse_command`, and the load fails for line 1. -/
theorem parse_command_file_full_line_not_joined :
    parse_count_escaped ("a = ".toList ++ List.replicate 4090 'x' ++ ['\\']) % 2 = 1 ∧
    parse_command_file_loop sample_env 1 4099
        ⟨("a = ".toList ++ List.replicate 4090 'x' ++ ['\\']) ++ '\n' :: "y\n".toList, false⟩
        [] 0 sample_state =
      ((.throw ⟨.input_error, "Exceeded max line length.".toList⟩, 1,
        ⟨"y\n".toList, false⟩), sample_state) ∧
    parse_command_file sample_env 1 "rc".toList
        (some (("a = ".toList ++ List.replicate 4090 'x' ++ ['\\']) ++ '\n' :: "y\n".toList))
        sample_state =
      (.throw ⟨.input_error,
        "Error in option file: rc:1: Exceeded max line length.".toList⟩, sample_state) := by
  have hx : ∀ c ∈ List.replicate 4090 'x', c = 'x' := fun c hc => List.eq_of_mem_replicate hc
  have hnl : '\n' ∉ "a = ".toList ++ List.replicate 4090 'x' ++ ['\\'] := by
    intro h
    rcases List.mem_append.mp h with h | h
    · rcases List.mem_append.mp h with h | h
      · exact absurd h (by decide)
      · exact absurd (hx _ h) (by decide)
    · exact absurd (List.mem_singleton.mp h) (by decide)
  have hlast : ∀ c ∈ ("a = ".toList ++ List.replicate 4090 'x').getLast?, c ≠ '\\' := by
    intro c hc
    rcases List.mem_append.mp (List.mem_of_mem_getLast? hc) with h | h
    · have hhead : ∀ d ∈ "a = ".toList, d ≠ '\\' := by decide
      exact hhead c h
    · rw [hx c h]
      decide
  have hlen : ([] : List Char).length
      + ("a = ".toList ++ List.replicate 4090 'x' ++ ['\\']).length = 4095 := by
    simp only [List.length_append, List.length_replicate]
    rfl
  have hloop := loop_exact sample_env 1 4098
    ("a = ".toList ++ List.replicate 4090 'x' ++ ['\\']) "y\n".toList [] 0 sample_state hnl hlen
  refine ⟨?_, hloop, ?_⟩
  · rw [parse_count_escaped_run ("a = ".toList ++ List.replicate 4090 'x') ['\\'] (by simp)
      hlast]
    rfl
  · unfold parse_command_file
    simp only
    rw [loop_exact sample_env 1 _ ("a = ".toList ++ List.replicate 4090 'x' ++ ['\\'])
      "y\n".toList [] 0 sample_state hnl hlen]
    rfl

end Full

/-! ## Progress of the cursor -/

section Progress

variable {σ τ : Type}

theorem parse_command_key_none_cursor {range first : List Char}
    (h : parse_command_key range = .ok (Option.none, first)) :
    first = range.dropWhile command_map_is_space := by
  unfold parse_command_key at h
  simp only at h
  split at h
  · rename_i hd
    simp only [Except.ok.injEq, Prod.mk.injEq, true_and] at h
    rw [← h]
  · rename_i c t hd
    split at h
    · simp only [Except.ok.injEq, Prod.mk.injEq, true_and] at h
      rw [← h]
    · split at h
      · cases h
      · split at h
        · cases h
        · split at h
          · cases h
          · cases h

theorem parse_command_key_some_cursor {range key after : List Char}
    (h : parse_command_key range = .ok (some key, after)) :
    ('=' :: after) <:+ range := by
  obtain ⟨rest, hname, hskip⟩ := parse_command_key_some h
  obtain ⟨-, hrest⟩ := parse_command_name_ok hname
  have h1 : ('=' :: after) <:+ rest := by
    rw [← hskip]
    exact List.dropWhile_suffix _
  have h2 : rest <:+ range.dropWhile command_map_is_space := by
    rw [hrest]
    exact List.drop_suffix _ _
  exact (h1.trans h2).trans (List.dropWhile_suffix _)

theorem parse_command_end_cursor {first rest : List Char}
    (h : parse_command_end first = .ok rest) : rest <:+ first := by
  unfold parse_command_end at h
  simp only at h
  split at h
  · rename_i hd
    simp only [Except.ok.injEq] at h
    rw [← h]
    exact List.dropWhile_suffix _
  · rename_i c after hd
    split at h
    · cases h
    · simp only [Except.ok.injEq] at h
      rw [← h]
      have h1 : (c :: after) <:+ first := by
        rw [← hd]
        exact List.dropWhile_suffix _
      exact (List.suffix_cons c after).trans h1

theorem suffix_shorter_of_cons {rest range : List Char} {c : Char}
    (h : (c :: rest) <:+ range) : rest <:+ range ∧ rest.length < range.length := by
  refine ⟨(List.suffix_cons c rest).trans h, ?_⟩
  have := h.length_le
  simp only [List.length_cons] at this
  omega

/-- Where the grammar part of `parse_command` leaves the cursor, when the list parser
returns a cursor inside the text it was given. -/
theorem parse_command_head_cursor
    (pwl : List Char → Except Error (Object × List Char))
    (hlist : ∀ text args rest, pwl text = .ok (args, rest) → rest <:+ text)
    {range rest : List Char} {cmd : Option (List Char × Object)}
    (h : parse_command_head pwl range = .ok (cmd, rest)) (hne : range ≠ []) :
    rest <:+ range ∧ (range.head? ≠ some '#' → rest.length < range.length) ∧
      (range.head? = some '#' → rest = range) := by
  cases cmd with
  | none =>
    have hkey := parse_command_head_none h
    have hrest := parse_command_key_none_cursor hkey
    have hsuf : rest <:+ range := by
      rw [hrest]
      exact List.dropWhile_suffix _
    refine ⟨hsuf, ?_, ?_⟩
    · intro hhash
      rcases parse_command_key_none hkey with ⟨hnil, -⟩ | ⟨t, ht⟩
      · subst hnil
        cases range with
        | nil => exact absurd rfl hne
        | cons c r => simp
      · rcases Nat.lt_or_ge rest.length range.length with hlt | hge
        · exact hlt
        · have heq : rest = range := hsuf.eq_of_length (le_antisymm hsuf.length_le hge)
          rw [← heq, ht] at hhash
          exact absurd rfl hhash
    · intro hhash
      cases range with
      | nil => exact absurd rfl hne
      | cons c r =>
        have hc : c = '#' := by simpa using hhash
        subst hc
        rw [hrest]
        rfl
  | some cmd =>
    obtain ⟨key, args⟩ := cmd
    unfold parse_command_head at h
    split at h
    · cases h
    · cases h
    · rename_i k after hk
      split at h
      · cases h
      · rename_i a first hp
        split at h
        · cases h
        · rename_i last he
          simp only [Except.ok.injEq, Prod.mk.injEq, Option.some.injEq] at h
          obtain ⟨-, hr⟩ := h
          subst hr
          obtain ⟨h1, h2⟩ := suffix_shorter_of_cons (parse_command_key_some_cursor hk)
          have h3 : last <:+ after := (parse_command_end_cursor he).trans (hlist _ _ _ hp)
          refine ⟨h3.trans h1, fun _ => lt_of_le_of_lt h3.length_le h2, ?_⟩
          intro hhash
          cases range with
          | nil => exact absurd rfl hne
          | cons c r =>
            have hc : c = '#' := by simpa using hhash
            subst hc
            rw [show parse_command_key ('#' :: r) = .ok (Option.none, '#' :: r) from rfl] at hk
            cases hk

theorem parse_command_ok_head (env : Env σ τ) (fuel : Nat) (target : τ)
    {range rest : List Char} {r : Object} {s s1 : St σ τ}
    (h : parse_command env fuel target range s = (.ok (r, rest), s1)) :
    ∃ cmd, parse_command_head env.parse_whole_list range = .ok (cmd, rest) := by
  rcases hhead : parse_command_head env.parse_whole_list range with e | ⟨cmd, first⟩
  · rw [parse_command_of_head_error env fuel target range s e hhead] at h
    cases h
  · cases cmd with
    | none =>
      rw [parse_command_of_head_none env fuel target range first s hhead] at h
      simp only [Prod.mk.injEq, Outcome.ok.injEq] at h
      exact ⟨Option.none, by rw [h.1.2]⟩
    | some cmd =>
      obtain ⟨key, args⟩ := cmd
      rw [parse_command_of_head_some env fuel target range first key args hhead] at h
      obtain ⟨a, sa, -, h2⟩ := and_then_eq_ok h
      obtain ⟨v, sb, -, h3⟩ := and_then_eq_ok h2
      simp only [ret, Prod.mk.injEq, Outcome.ok.injEq] at h3
      exact ⟨some (key, args), by rw [h3.1.2]⟩

theorem loop_returns (env : Env σ τ) (fuel : Nat) (target : τ)
    (hlist : ∀ text args rest, env.parse_whole_list text = .ok (args, rest) → rest <:+ text) :
    ∀ (n : Nat) (range : List Char), range.length ≤ n →
      ∀ (k steps : Nat) (result : Object) (s : St σ τ), n ≤ k → n ≤ steps →
        calls_return env fuel target k range s →
        ∃ v s1, parse_command_multiple_loop env fuel target steps result range s
          = (.ok v, s1) := by
  intro n
  induction n with
  | zero =>
    intro range hlen k steps result s _ _ _
    have hr : range = [] := List.length_eq_zero.mp (Nat.le_zero.mp hlen)
    subst hr
    exact ⟨result, s, by rw [loop_nil]; rfl⟩
  | succ n ih =>
    intro range hlen k steps result s hk hsteps hcalls
    cases range with
    | nil => exact ⟨result, s, by rw [loop_nil]; rfl⟩
    | cons c first =>
      obtain ⟨k, rfl⟩ : ∃ j, k = j + 1 := ⟨k - 1, by omega⟩
      obtain ⟨steps, rfl⟩ : ∃ j, steps = j + 1 := ⟨steps - 1, by omega⟩
      obtain ⟨hc, r, rest, s1, hparse, hrest⟩ := hcalls
      obtain ⟨cmd, hhead⟩ := parse_command_ok_head env fuel target hparse
      have hprog := (parse_command_head_cursor env.parse_whole_list hlist hhead
        (by simp)).2.1 (by simpa using hc)
      simp only [List.length_cons] at hprog hlen
      obtain ⟨v, s2, hv⟩ := ih rest (by omega) k steps r s1 (by omega) (by omega) hrest
      exact ⟨v, s2, by rw [loop_cons, and_then_ok hparse]; exact hv⟩

/-- The sample list parser returns a cursor inside the text it was given. -/
theorem spec_parse_whole_list_cursor (text : List Char) (args : Object) (rest : List Char)
    (h : spec_parse_whole_list text = .ok (args, rest)) : rest <:+ text := by
  unfold spec_parse_whole_list at h
  simp only at h
  split at h
  · simp only [Except.ok.injEq, Prod.mk.injEq] at h
    rw [← h.2]
    exact List.nil_suffix
  · rename_i c after hd
    have hafter : after <:+ text := by
      have : (c :: after) <:+ text := by
        rw [← hd]
        exact List.dropWhile_suffix _
      exact (List.suffix_cons c after).trans this
    split at h
    · split at h
      · cases h
      · rename_i d tail hdrop
        simp only [Except.ok.injEq, Prod.mk.injEq] at h
        rw [← h.2]
        have h1 : (d :: tail) <:+ after := by
          rw [← hdrop]
          exact List.drop_suffix _ _
        exact ((List.suffix_cons d tail).trans h1).trans hafter
    · simp only [Except.ok.injEq, Prod.mk.injEq] at h
      rw [← h.2]
      exact (List.drop_suffix _ _).trans (List.dropWhile_suffix _)

/-- C22 fails as stated: on the sample environment, whose list parser returns a cursor
inside the text it was given, `parse_command` returns normally on the text `#` with the
cursor where it was, and the loop of `parse_command_multiple` exhausts every bound on the
number of its iterations: no command fails and the loop does not end. -/
theorem parse_command_comment_makes_no_progress :
    (∀ text args rest, sample_env.parse_whole_list text = .ok (args, rest) → rest <:+ text) ∧
    parse_command sample_env 1 () "#".toList sample_state
      = (.ok (Object.none, "#".toList), sample_state) ∧
    (∀ steps : Nat,
      parse_command_multiple_loop sample_env 1 () steps Object.none "#".toList sample_state
        = (.out_of_fuel, sample_state)) :=
  ⟨spec_parse_whole_list_cursor, rfl,
   fun steps => loop_comment_stuck sample_env 1 () [] sample_state steps Object.none⟩

/-- C22 as amended.  With a list parser that returns a cursor inside the text it was
given, every normal return of `parse_command` on a text that is not empty hands back a
cursor inside the text; the cursor has moved forward unless the text starts with `#`,
where it is handed back as it was.  So when the calls of `parse_command` that the loop of
`parse_command_multiple` makes all return normally and none starts at a `#`, the loop
returns after at most as many iterations as the text has characters. -/
theorem parse_command_progress
    (env : Env σ τ) (fuel : Nat) (target : τ)
    (hlist : ∀ text args rest, env.parse_whole_list text = .ok (args, rest) → rest <:+ text) :
    (∀ (range rest : List Char) (r : Object) (s s1 : St σ τ), range ≠ [] →
      parse_command env fuel target range s = (.ok (r, rest), s1) →
      rest <:+ range ∧ (range.head? ≠ some '#' → rest.length < range.length) ∧
        (range.head? = some '#' → rest = range)) ∧
    (∀ (steps : Nat) (range : List Char) (result : Object) (s : St σ τ),
      range.length ≤ steps → calls_return env fuel target range.length range s →
      ∃ v s1, parse_command_multiple_loop env fuel target steps result range s
        = (.ok v, s1)) ∧
    (∀ (range : List Char) (s : St σ τ), range.length ≤ fuel →
      calls_return env fuel target range.length range s →
      ∃ v s1, parse_command_multiple env fuel target range s = (.ok v, s1)) := by
  refine ⟨?_, ?_, ?_⟩
  · intro range rest r s s1 hne hparse
    obtain ⟨cmd, hhead⟩ := parse_command_ok_head env fuel target hparse
    exact parse_command_head_cursor env.parse_whole_list hlist hhead hne
  · intro steps range result s hsteps hcalls
    exact loop_returns env fuel target hlist range.length range (le_refl _) range.length steps
      result s (le_refl _) hsteps hcalls
  · intro range s hfuel hcalls
    exact loop_returns env fuel target hlist range.length range (le_refl _) range.length fuel
      Object.none s (le_refl _) hfuel hcalls

/-- C22 as amended, on the sample environment: on ` #x` the cursor moves to the `#`; on
`a = 1;b = 2` the first call leaves `b = 2`; the two calls that the loop makes on this
text return normally, and the loop returns. -/
theorem parse_command_progress_witness :
    ("#x".toList <:+ " #x".toList ∧ "#x".toList.length < " #x".toList.length) ∧
    ("b = 2".toList <:+ "a = 1;b = 2".toList ∧
      "b = 2".toList.length < "a = 1;b = 2".toList.length) ∧
    ∃ v s1, parse_command_multiple sample_env 11 () "a = 1;b = 2".toList sample_state
      = (.ok v, s1) :=
  have h := parse_command_progress sample_env 11 () spec_parse_whole_list_cursor
  have h1 := h.1 " #x".toList "#x".toList Object.none sample_state sample_state
    (by decide) rfl
  have h2 := h.1 "a = 1;b = 2".toList "b = 2".toList (.string "1".toList) sample_state
    ⟨1, [], [⟨"a".toList, .string "1".toList, (), .ok (.string "1".toList)⟩]⟩
    (by decide) rfl
  ⟨⟨h1.1, h1.2.1 (by decide)⟩, ⟨h2.1, h2.2.1 (by decide)⟩,
   h.2.2 "a = 1;b = 2".toList sample_state (by decide)
    ⟨by decide, .string "1".toList, "b = 2".toList,
      ⟨1, [], [⟨"a".toList, .string "1".toList, (), .ok (.string "1".toList)⟩]⟩, rfl,
      ⟨by decide, .string "2".toList, [],
        ⟨2, [], [⟨"a".toList, .string "1".toList, (), .ok (.string "1".toList)⟩,
                 ⟨"b".toList, .string "2".toList, (), .ok (.string "2".toList)⟩]⟩, rfl,
        trivial⟩⟩⟩

end Progress

end Rtorrent
